import Mathlib

/-!
Shallow embedding of `src/main.cpp`: procedural maze generation by randomized
depth-first backtracking over a `COLS × ROWS` grid of cells with four wall
segments each, followed by A* pathfinding from `(0,0)` to `(COLS-1, ROWS-1)`
over the carved grid.

Modelling conventions:
* SDL rendering calls mutate no algorithmic state and are omitted.
* `COLS`/`ROWS` are compile-time constants in the source (`256` and `144`);
  the development is parameterized by `cols`/`rows` so that the theorems
  quantify over grid sizes, which subsumes the source's concrete values.
* C++ `int` becomes `ℤ`.  The `std::vector` accesses of `a_star` are not
  bounds-guarded in the source, so the flat vectors are embedded as lists
  accessed through `vget`/`vset`, which return `none` on an out-of-range
  index (the C++ behaviour there is undefined); in-range accesses (including
  ones whose 2-D coordinates are outside the grid but whose linearized index
  wraps into range, which C++ defines and silently misreads) behave exactly
  as the flat C++ vector does.
* `std::mt19937`/`std::shuffle` are modelled by an oracle `R : ℕ → List (Fin 4)`
  giving the shuffled direction list of the k-th `generate_maze` invocation;
  theorems assume each `R k` is a permutation of the four directions.
* `std::priority_queue<Node, ..., std::greater<Node>>` pops some element with
  minimal `f_cost`, ties broken by unspecified heap internals; the embedding
  pops the first element with minimal `f_cost`.  Every theorem proved below
  uses only minimality of the popped element, as the spec requires.
* The `while` loops become fueloped recursion; the fuel budgets used by
  `a_star` and `generate_maze` are proved sufficient, so fuel exhaustion is
  distinguishable from (and never conflated with) genuine outcomes.
* `GState` carries two ghost fields (`marks`, counting visited-markings, and
  `carves`, the list of carved parent/child pairs) and a ghost visit-order
  list; they are write-only instrumentation used to state trace properties
  and influence nothing the algorithm computes.
-/

namespace MazeCpp

/-- Wall direction constants of the source (`#define NORTH 0` etc.). -/
def NORTH : Fin 4 := 0

def SOUTH : Fin 4 := 1

def WEST : Fin 4 := 2

def EAST : Fin 4 := 3

def WIDTH : ℕ := 1280

def HEIGHT : ℕ := 720

def CELL_SIZE : ℕ := 5

/-- `constexpr int COLS = WIDTH / CELL_SIZE;` -/
def COLS : ℕ := WIDTH / CELL_SIZE

/-- `constexpr int ROWS = HEIGHT / CELL_SIZE;` -/
def ROWS : ℕ := HEIGHT / CELL_SIZE

/-- A wall segment: two endpoints and an existence flag (`struct Segment`). -/
structure Segment where
  sx : ℤ
  sy : ℤ
  ex : ℤ
  ey : ℤ
  exist : Bool
deriving DecidableEq

instance : Inhabited Segment := ⟨⟨0, 0, 0, 0, true⟩⟩

/-- A grid cell (`struct Cell`): coordinates, a visited flag and the four
wall segments indexed by direction. -/
structure Cell where
  x : ℤ
  y : ℤ
  visited : Bool
  segments : List Segment
deriving DecidableEq

instance : Inhabited Cell := ⟨⟨0, 0, false, []⟩⟩

/-- The `Cell(int x, int y)` constructor: all four walls present, endpoint
geometry derived from `CELL_SIZE`. -/
def Cell.init (x y : ℤ) : Cell :=
  let rel_x := x * (CELL_SIZE : ℤ)
  let rel_y := y * (CELL_SIZE : ℤ)
  { x := x
    y := y
    visited := false
    segments :=
      [ ⟨rel_x, rel_y, rel_x + CELL_SIZE, rel_y, true⟩,
        ⟨rel_x, rel_y + CELL_SIZE, rel_x + CELL_SIZE, rel_y + CELL_SIZE, true⟩,
        ⟨rel_x, rel_y, rel_x, rel_y + CELL_SIZE, true⟩,
        ⟨rel_x + CELL_SIZE, rel_y, rel_x + CELL_SIZE, rel_y + CELL_SIZE, true⟩ ] }

/-- `void remove_wall(int direction) { segments[direction].exist = false; }` -/
def Cell.remove_wall (c : Cell) (direction : Fin 4) : Cell :=
  let s := c.segments.getD direction.val default
  { c with segments := c.segments.set direction.val { s with exist := false } }

/-- Row-major cell initialisation of the `Maze()` constructor. -/
def initCells (cols rows : ℕ) : List Cell :=
  (List.range rows).flatMap fun (y : ℕ) =>
    (List.range cols).map fun (x : ℕ) => Cell.init (x : ℤ) (y : ℤ)

theorem length_initCells (cols rows : ℕ) :
    (initCells cols rows).length = cols * rows := by
  simp [initCells, Function.comp_def, Nat.mul_comm]

/-- The grid (`struct Maze`'s `std::vector<Cell> maze`): a flat row-major
vector whose length is fixed at `cols * rows` by the constructor and never
changed afterwards (only cell contents mutate). -/
structure Maze (cols rows : ℕ) where
  maze : List Cell
  hlen : maze.length = cols * rows

/-- The freshly constructed grid: all walls present, all cells unvisited. -/
def initMaze (cols rows : ℕ) : Maze cols rows :=
  ⟨initCells cols rows, length_initCells cols rows⟩

/-- The linear index `y * COLS + x` used throughout the source. -/
def index (cols : ℕ) (x y : ℤ) : ℤ := y * (cols : ℤ) + x

/-- In-bounds predicate matching the guards of the source
(`x >= 0 && x < COLS && y >= 0 && y < ROWS`). -/
def inBZ (cols rows : ℕ) (x y : ℤ) : Prop :=
  0 ≤ x ∧ x < (cols : ℤ) ∧ 0 ≤ y ∧ y < (rows : ℤ)

instance (cols rows : ℕ) (x y : ℤ) : Decidable (inBZ cols rows x y) :=
  inferInstanceAs (Decidable (0 ≤ x ∧ x < (cols : ℤ) ∧ 0 ≤ y ∧ y < (rows : ℤ)))

/-- Read the cell at `(x, y)` (`maze[y * COLS + x]`); callers in the source
always guard the coordinates, so the default is never reached there. -/
def cellAt {cols rows : ℕ} (m : Maze cols rows) (x y : ℤ) : Cell :=
  m.maze.getD (index cols x y).toNat default

/-- Write the cell at `(x, y)`. -/
def setCell {cols rows : ℕ} (m : Maze cols rows) (x y : ℤ) (c : Cell) :
    Maze cols rows :=
  ⟨m.maze.set (index cols x y).toNat c, by rw [List.length_set, m.hlen]⟩

/-- `bool is_walkable(int x, int y, int direction)`: false out of bounds,
otherwise true iff the wall in `direction` has been removed. -/
def is_walkable {cols rows : ℕ} (m : Maze cols rows) (x y : ℤ)
    (direction : Fin 4) : Bool :=
  if x < 0 ∨ y < 0 ∨ (cols : ℤ) ≤ x ∨ (rows : ℤ) ≤ y then false
  else !((cellAt m x y).segments.getD direction.val default).exist

/-- `int opposite(int dir)`. -/
def opposite (dir : Fin 4) : Fin 4 :=
  if dir = NORTH then SOUTH
  else if dir = SOUTH then NORTH
  else if dir = WEST then EAST
  else WEST

/-- The coordinate one step in a direction:
`nx = x + (dir == EAST) - (dir == WEST)`, `ny = y + (dir == SOUTH) - (dir == NORTH)`. -/
def nbrOf (p : ℤ × ℤ) (d : Fin 4) : ℤ × ℤ :=
  ( p.1 + (if d = EAST then 1 else 0) - (if d = WEST then 1 else 0)
  , p.2 + (if d = SOUTH then 1 else 0) - (if d = NORTH then 1 else 0) )

/-- The canonical direction list `{NORTH, SOUTH, WEST, EAST}` built by
`generate_maze` before shuffling (also the order `a_star` scans directions). -/
def dirList : List (Fin 4) := [NORTH, SOUTH, WEST, EAST]

/-- Maze-generation state: the grid plus an rng-invocation counter, and the
ghost instrumentation (`marks`: how many times a cell was marked visited;
`ord`: the cells in visit order; `carves`: carved (current, neighbour)
pairs).  The ghost fields influence nothing the algorithm computes. -/
structure GState (cols rows : ℕ) where
  m : Maze cols rows
  ctr : ℕ
  marks : ℕ
  ord : List (ℤ × ℤ)
  carves : List ((ℤ × ℤ) × (ℤ × ℤ))

/-- Mark the cell `(x, y)` visited (`current.visited = true;`), recording the
event in the ghost fields. -/
def markVisited {cols rows : ℕ} (s : GState cols rows) (x y : ℤ) :
    GState cols rows :=
  { s with
    m := setCell s.m x y { cellAt s.m x y with visited := true }
    marks := s.marks + 1
    ord := s.ord ++ [(x, y)] }

/-- Carve the passage from `(x, y)` towards its neighbour `(nx, ny)` in
direction `d`: remove the wall on both sides
(`current.remove_wall(dir); maze[ny * COLS + nx].remove_wall(opposite(dir));`). -/
def carve {cols rows : ℕ} (s : GState cols rows) (x y : ℤ) (d : Fin 4) :
    GState cols rows :=
  let n := nbrOf (x, y) d
  let mA := setCell s.m x y ((cellAt s.m x y).remove_wall d)
  let mB := setCell mA n.1 n.2 ((cellAt mA n.1 n.2).remove_wall (opposite d))
  { s with m := mB, carves := s.carves ++ [((x, y), n)] }

/-- `void generate_maze(int x, int y)`, fuelled.  Each invocation consumes one
shuffled direction list from the oracle `R`; the recursion of the source is
replaced by structural recursion on `fuel`, and `none` signals fuel
exhaustion (proved unreachable for the fuel budget used below). -/
def genStep {cols rows : ℕ} (R : ℕ → List (Fin 4)) :
    ℕ → ℤ → ℤ → GState cols rows → Option (GState cols rows)
  | 0, _, _, _ => none
  | fuel + 1, x, y, s0 =>
    let dirs := R s0.ctr
    let s1 := { markVisited s0 x y with ctr := s0.ctr + 1 }
    dirs.foldl
      (fun os d => os.bind fun s =>
        let n := nbrOf (x, y) d
        if inBZ cols rows n.1 n.2 ∧ (cellAt s.m n.1 n.2).visited = false then
          genStep R fuel n.1 n.2 (carve s x y d)
        else some s)
      (some s1)

/-- Fuel budget for `generate_maze`: one call per cell plus the root. -/
def genFuel (cols rows : ℕ) : ℕ := cols * rows + 1

/-- The whole `generate_maze(x, y)` run from a state. -/
def generate_maze {cols rows : ℕ} (R : ℕ → List (Fin 4)) (x y : ℤ)
    (s : GState cols rows) : Option (GState cols rows) :=
  genStep R (genFuel cols rows) x y s

/-- The generation start state used by `main`: fresh grid, ghost fields empty. -/
def initGState (cols rows : ℕ) : GState cols rows :=
  ⟨initMaze cols rows, 0, 0, [], []⟩

/-! ### The A* pathfinder -/

/-- `INT_MAX`, the "infinite" initial `g_cost`. -/
def INT_MAX : ℤ := 2147483647

/-- `struct Node`. -/
structure Node where
  x : ℤ
  y : ℤ
  g_cost : ℤ
  h_cost : ℤ
deriving DecidableEq

/-- `int f_cost() const { return g_cost + h_cost; }` -/
def Node.f_cost (n : Node) : ℤ := n.g_cost + n.h_cost

/-- Pop some element with minimal `f_cost` (the behaviour of
`std::priority_queue` with `std::greater<Node>`; the heap's tie order is
unspecified, and no theorem below depends on the tie-break). -/
def popMin : List Node → Option (Node × List Node)
  | [] => none
  | n :: ns =>
    match popMin ns with
    | none => some (n, [])
    | some (m, rest) =>
      if n.f_cost ≤ m.f_cost then some (n, ns) else some (m, n :: rest)

/-- Read a flat vector at a C++ `int` index: `none` models the undefined
behaviour of an out-of-range access. -/
def vget {α : Type} (l : List α) (i : ℤ) : Option α :=
  if 0 ≤ i then l.get? i.toNat else none

/-- Write a flat vector at a C++ `int` index. -/
def vset {α : Type} (l : List α) (i : ℤ) (a : α) : Option (List α) :=
  if 0 ≤ i ∧ i.toNat < l.length then some (l.set i.toNat a) else none

/-- `came_from` lookup (`std::unordered_map<int, std::pair<int,int>>`);
insertion shadows, so the first match is the current binding. -/
def cfLookup (cf : List (ℤ × (ℤ × ℤ))) (k : ℤ) : Option (ℤ × ℤ) :=
  (cf.find? fun e => e.1 = k).map (·.2)

/-- `came_from[k] = v` (overwrite semantics via shadowing). -/
def cfInsert (cf : List (ℤ × (ℤ × ℤ))) (k : ℤ) (v : ℤ × ℤ) :
    List (ℤ × (ℤ × ℤ)) :=
  (k, v) :: cf

/-- The pathfinder's heuristic lambda:
`std::abs(COLS - 1 - x) + std::abs(ROWS - 1 - y)`. -/
def heuristic (cols rows : ℕ) (x y : ℤ) : ℤ :=
  |(cols : ℤ) - 1 - x| + |(rows : ℤ) - 1 - y|

/-- Search state of one `a_star` run: the maze reference plus the frontier,
back-pointer map, best-known costs and closed set. -/
structure AState (cols rows : ℕ) where
  maze : Maze cols rows
  open_set : List Node
  came_from : List (ℤ × (ℤ × ℤ))
  g_cost : List ℤ
  visited : List Bool

/-- Path reconstruction
(`for (auto at = ...; came_from.count(index(at)); at = came_from[index(at)]) path.push_back(at); path.push_back({0,0}); std::reverse(...)`),
fuelled; `none` signals fuel exhaustion (proved unreachable below). -/
def reconstruct (cf : List (ℤ × (ℤ × ℤ))) (cols : ℕ) :
    ℕ → ℤ × ℤ → List (ℤ × ℤ) → Option (List (ℤ × ℤ))
  | 0, _, _ => none
  | fuel + 1, at_, acc =>
    match cfLookup cf (index cols at_.1 at_.2) with
    | some prev => reconstruct cf cols fuel prev (at_ :: acc)
    | none => some ((0, 0) :: acc)

/-- One direction of the neighbour-expansion loop of `a_star`:
skip if not walkable, otherwise relax
(`if (new_g_cost < g_cost[index(nx, ny)]) { ... push ... }`).
`none` models an out-of-range vector access (C++ UB). -/
def relaxDir {cols rows : ℕ} (cur : Node) (d : Fin 4) (s : AState cols rows) :
    Option (AState cols rows) :=
  let n := nbrOf (cur.x, cur.y) d
  if is_walkable s.maze cur.x cur.y d = false then some s
  else
    let new_g := cur.g_cost + 1
    match vget s.g_cost (index cols n.1 n.2) with
    | none => none
    | some gn =>
      if new_g < gn then
        match vset s.g_cost (index cols n.1 n.2) new_g with
        | none => none
        | some g' =>
          some { s with
            g_cost := g'
            came_from := cfInsert s.came_from (index cols n.1 n.2) (cur.x, cur.y)
            open_set := s.open_set ++ [⟨n.1, n.2, new_g, heuristic cols rows n.1 n.2⟩] }
      else some s

/-- All four expansion iterations (`for (int dir = 0; dir < 4; dir++)`). -/
def expandDirs {cols rows : ℕ} (cur : Node) (s : AState cols rows) :
    Option (AState cols rows) :=
  dirList.foldl (fun os d => os.bind (relaxDir cur d)) (some s)

/-- Result of one iteration of the `while (!open_set.empty())` loop. -/
inductive StepRes (cols rows : ℕ) where
  | oob
  | ret (p : List (ℤ × ℤ)) (s : AState cols rows)
  | next (s : AState cols rows)

/-- One iteration of the A* main loop: pop the minimum, skip if closed, mark
closed, return the reconstructed path at the goal, else expand neighbours.
`oob` models an out-of-range vector access (C++ UB). -/
def astarStep {cols rows : ℕ} (s : AState cols rows) : StepRes cols rows :=
  match popMin s.open_set with
  | none => .ret [] s
  | some (current, rest) =>
    let s1 := { s with open_set := rest }
    match vget s1.visited (index cols current.x current.y) with
    | none => .oob
    | some true => .next s1
    | some false =>
      match vset s1.visited (index cols current.x current.y) true with
      | none => .oob
      | some v' =>
        let s2 := { s1 with visited := v' }
        if current.x = (cols : ℤ) - 1 ∧ current.y = (rows : ℤ) - 1 then
          match reconstruct s2.came_from cols (cols * rows + 1)
              (current.x, current.y) [] with
          | none => .oob
          | some p => .ret p s2
        else
          match expandDirs current s2 with
          | none => .oob
          | some s3 => .next s3

/-- Outcome of a whole `a_star` run. -/
inductive ARes (cols rows : ℕ) where
  | oob
  | exhausted
  | found (p : List (ℤ × ℤ)) (s : AState cols rows)

/-- The fuelled A* main loop. -/
def astarLoop {cols rows : ℕ} : ℕ → AState cols rows → ARes cols rows
  | 0, _ => .exhausted
  | fuel + 1, s =>
    match astarStep s with
    | .oob => .oob
    | .ret p s' => .found p s'
    | .next s' => astarLoop fuel s'

/-- Fuel budget for the A* loop, proved sufficient below. -/
def astarFuel (cols rows : ℕ) : ℕ := 5 * (cols * rows) + 2

/-- The initial search state of `a_star`: the start node pushed with
`heuristic(0,0)`, `g_cost` all `INT_MAX` except `g_cost[index(0,0)] = 0`,
nothing visited, no back-pointers. -/
def initAState {cols rows : ℕ} (m : Maze cols rows) : AState cols rows :=
  { maze := m
    open_set := [⟨0, 0, 0, heuristic cols rows 0 0⟩]
    came_from := []
    g_cost := (List.replicate (cols * rows) INT_MAX).set (index cols 0 0).toNat 0
    visited := List.replicate (cols * rows) false }

/-- `std::vector<std::pair<int,int>> a_star(Maze& maze, ...)`. -/
def a_star {cols rows : ℕ} (m : Maze cols rows) : ARes cols rows :=
  astarLoop (astarFuel cols rows) (initAState m)

/-- The path component of an `a_star` outcome (`none` when the run hit
undefined behaviour or — never, as proved below — ran out of fuel). -/
def resPath {cols rows : ℕ} : ARes cols rows → Option (List (ℤ × ℤ))
  | .found p _ => some p
  | _ => none

/-- The final frontier of an `a_star` outcome. -/
def resFrontier {cols rows : ℕ} : ARes cols rows → Option (List Node)
  | .found _ s => some s.open_set
  | _ => none

/-- The final maze reference of an `a_star` outcome. -/
def resMaze {cols rows : ℕ} : ARes cols rows → Option (Maze cols rows)
  | .found _ s => some s.maze
  | _ => none

/-! ### Basic facts about indexing, cells and directions -/

/-- The existence flag of the wall of cell `(x, y)` in direction `d`. -/
def wallAt {cols rows : ℕ} (m : Maze cols rows) (x y : ℤ) (d : Fin 4) : Bool :=
  ((cellAt m x y).segments.getD d.val default).exist

theorem index_nonneg {cols rows : ℕ} {x y : ℤ} (h : inBZ cols rows x y) :
    0 ≤ index cols x y := by
  obtain ⟨hx0, _, hy0, _⟩ := h
  have : 0 ≤ y * (cols : ℤ) := mul_nonneg hy0 (by positivity)
  unfold index; omega

theorem index_lt {cols rows : ℕ} {x y : ℤ} (h : inBZ cols rows x y) :
    index cols x y < (cols : ℤ) * (rows : ℤ) := by
  obtain ⟨hx0, hx, hy0, hy⟩ := h
  have h1 : y * (cols : ℤ) ≤ ((rows : ℤ) - 1) * cols :=
    mul_le_mul_of_nonneg_right (by omega) (by positivity)
  unfold index; nlinarith

theorem index_toNat_lt {cols rows : ℕ} {x y : ℤ} (h : inBZ cols rows x y) :
    (index cols x y).toNat < cols * rows := by
  have h1 := index_nonneg h
  have h2 := index_lt h
  have : ((cols : ℤ)) * rows = ((cols * rows : ℕ) : ℤ) := by push_cast; ring
  omega

theorem index_inj {cols rows : ℕ} {x y x' y' : ℤ} (h : inBZ cols rows x y)
    (h' : inBZ cols rows x' y') (heq : index cols x y = index cols x' y') :
    x = x' ∧ y = y' := by
  obtain ⟨hx0, hx, hy0, hy⟩ := h
  obtain ⟨hx0', hx', hy0', hy'⟩ := h'
  unfold index at heq
  rcases lt_trichotomy y y' with hlt | heqy | hgt
  · nlinarith
  · constructor <;> [nlinarith; exact heqy]
  · nlinarith

theorem cellAt_setCell_self {cols rows : ℕ} (m : Maze cols rows) {x y : ℤ}
    (h : inBZ cols rows x y) (c : Cell) : cellAt (setCell m x y c) x y = c := by
  unfold cellAt setCell
  have hlt : (index cols x y).toNat < m.maze.length := by
    rw [m.hlen]; exact index_toNat_lt h
  simp [List.getD, List.getElem?_set_eq_of_lt _ hlt]

theorem cellAt_setCell_ne {cols rows : ℕ} (m : Maze cols rows) {x y x' y' : ℤ}
    (h : inBZ cols rows x y) (h' : inBZ cols rows x' y')
    (hne : ¬(x' = x ∧ y' = y)) (c : Cell) :
    cellAt (setCell m x y c) x' y' = cellAt m x' y' := by
  unfold cellAt setCell
  have hne' : (index cols x y).toNat ≠ (index cols x' y').toNat := by
    intro hcontra
    have := index_nonneg h
    have := index_nonneg h'
    have : index cols x y = index cols x' y' := by omega
    obtain ⟨h1, h2⟩ := index_inj h h' this
    exact hne ⟨h1.symm, h2.symm⟩
  simp [List.getD, List.getElem?_set_ne hne']

theorem maze_eq_of_cells {cols rows : ℕ} {m m' : Maze cols rows}
    (h : m.maze = m'.maze) : m = m' := by
  cases m; cases m'; simpa using h

/-- Pointwise characterisation of the initial grid. -/
theorem cellAt_initMaze {cols rows : ℕ} {x y : ℤ} (h : inBZ cols rows x y) :
    cellAt (initMaze cols rows) x y = Cell.init x y := by
  obtain ⟨hx0, hx, hy0, hy⟩ := h
  have hget : ∀ (rs xn yn : ℕ), xn < cols → yn < rs →
      (initCells cols rs)[yn * cols + xn]? = some (Cell.init xn yn) := by
    intro rs
    induction rs with
    | zero => intro xn yn _ h2; omega
    | succ r ih =>
      intro xn yn h1 h2
      have hsplit : initCells cols (r + 1) =
          initCells cols r ++
            (List.range cols).map fun (x : ℕ) => Cell.init (x : ℤ) (r : ℤ) := by
        unfold initCells
        rw [List.range_succ, List.flatMap_append]
        simp only [List.flatMap_cons, List.flatMap_nil, List.append_nil]
      rcases Nat.lt_or_ge yn r with hyr | hyr
      · rw [hsplit, List.getElem?_append_left]
        · exact ih xn yn h1 hyr
        · rw [length_initCells]
          calc yn * cols + xn < yn * cols + cols := by omega
            _ = (yn + 1) * cols := by ring
            _ ≤ cols * r := by
                have : yn + 1 ≤ r := hyr
                calc (yn + 1) * cols ≤ r * cols := Nat.mul_le_mul_right _ this
                  _ = cols * r := Nat.mul_comm _ _
      · have hy' : yn = r := by omega
        subst hy'
        rw [hsplit, List.getElem?_append_right]
        · rw [length_initCells]
          have hptr : yn * cols + xn - cols * yn = xn := by
            rw [Nat.mul_comm]; omega
          rw [hptr, List.getElem?_map, List.getElem?_range h1]
          rfl
        · rw [length_initCells, Nat.mul_comm]; omega
  have hxy : (index cols x y).toNat = y.toNat * cols + x.toNat := by
    unfold index
    have h1 : 0 ≤ y * (cols : ℤ) := mul_nonneg hy0 (by positivity)
    have h2 : ((y.toNat * cols : ℕ) : ℤ) = y * (cols : ℤ) := by
      push_cast [Int.toNat_of_nonneg hy0]
      ring
    omega
  unfold cellAt initMaze
  simp only [List.getD, List.get?_eq_getElem?, hxy]
  rw [hget rows x.toNat y.toNat (by omega) (by omega)]
  have hx' : (x.toNat : ℤ) = x := by omega
  have hy' : (y.toNat : ℤ) = y := by omega
  rw [hx', hy']
  rfl

theorem wallAt_init (x y : ℤ) (d : Fin 4) :
    ((Cell.init x y).segments.getD d.val default).exist = true := by
  rcases d with ⟨dv, hd⟩
  interval_cases dv <;> rfl

/-- `is_walkable` in terms of bounds and the wall flag: false out of bounds,
and in bounds true exactly when the wall has been removed.  Being a total
function, it cannot fail on any input. -/
theorem is_walkable_eq {cols rows : ℕ} (m : Maze cols rows) (x y : ℤ)
    (d : Fin 4) :
    is_walkable m x y d = (decide (inBZ cols rows x y) && !(wallAt m x y d)) := by
  unfold is_walkable wallAt
  by_cases h : inBZ cols rows x y
  · obtain ⟨h1, h2, h3, h4⟩ := h
    rw [if_neg (by omega)]
    simp [inBZ, h1, h2, h3, h4]
  · rw [if_pos]
    · simp [h]
    · unfold inBZ at h; omega

theorem is_walkable_inB {cols rows : ℕ} {m : Maze cols rows} {x y : ℤ}
    {d : Fin 4} (h : is_walkable m x y d = true) : inBZ cols rows x y := by
  rw [is_walkable_eq] at h
  simp at h
  exact h.1

theorem nbrOf_north (p : ℤ × ℤ) : nbrOf p NORTH = (p.1, p.2 - 1) := by
  have h : nbrOf p NORTH = (p.1 + 0 - 0, p.2 + 0 - 1) := rfl
  rw [h]; norm_num

theorem nbrOf_south (p : ℤ × ℤ) : nbrOf p SOUTH = (p.1, p.2 + 1) := by
  have h : nbrOf p SOUTH = (p.1 + 0 - 0, p.2 + 1 - 0) := rfl
  rw [h]; norm_num

theorem nbrOf_west (p : ℤ × ℤ) : nbrOf p WEST = (p.1 - 1, p.2) := by
  have h : nbrOf p WEST = (p.1 + 0 - 1, p.2 + 0 - 0) := rfl
  rw [h]; norm_num

theorem nbrOf_east (p : ℤ × ℤ) : nbrOf p EAST = (p.1 + 1, p.2) := by
  have h : nbrOf p EAST = (p.1 + 1 - 0, p.2 + 0 - 0) := rfl
  rw [h]; norm_num

/-- Direction arithmetic: stepping in `d` and then in `opposite d` returns. -/
theorem nbrOf_opposite (p : ℤ × ℤ) (d : Fin 4) :
    nbrOf (nbrOf p d) (opposite d) = p := by
  rcases d with ⟨dv, hd⟩
  interval_cases dv <;> simp [nbrOf, opposite, NORTH, SOUTH, WEST, EAST]

theorem nbrOf_ne (p : ℤ × ℤ) (d : Fin 4) : nbrOf p d ≠ p := by
  rcases d with ⟨dv, hd⟩
  interval_cases dv <;>
    simp [nbrOf, NORTH, SOUTH, WEST, EAST, Prod.ext_iff]

/-! ### Ground-truth adjacency, reachability and distance -/

/-- One legal A* move: the wall of `a` towards `b` is removed (this is the
exact adjacency the pathfinder consults; only the source side is checked). -/
def AdjW {cols rows : ℕ} (m : Maze cols rows) (a b : ℤ × ℤ) : Prop :=
  ∃ d : Fin 4, is_walkable m a.1 a.2 d = true ∧ b = nbrOf a d

instance {cols rows : ℕ} (m : Maze cols rows) (a b : ℤ × ℤ) :
    Decidable (AdjW m a b) :=
  inferInstanceAs (Decidable (∃ d : Fin 4, _ ∧ _))

/-- `ReachN m n a b`: there is a walk of exactly `n` moves from `a` to `b`. -/
inductive ReachN {cols rows : ℕ} (m : Maze cols rows) : ℕ → ℤ × ℤ → ℤ × ℤ → Prop
  | refl (a) : ReachN m 0 a a
  | step {a b c : ℤ × ℤ} {n : ℕ} : AdjW m a b → ReachN m n b c → ReachN m (n + 1) a c

/-- Reachability under `is_walkable` adjacency. -/
def Reach {cols rows : ℕ} (m : Maze cols rows) (a b : ℤ × ℤ) : Prop :=
  ∃ n, ReachN m n a b

/-- `IsDist m a b D`: `D` is the true shortest-path grid distance from `a`
to `b` (a walk of length `D` exists and none shorter does). -/
def IsDist {cols rows : ℕ} (m : Maze cols rows) (a b : ℤ × ℤ) (D : ℕ) : Prop :=
  ReachN m D a b ∧ ∀ k, ReachN m k a b → D ≤ k

theorem ReachN.append {cols rows : ℕ} {m : Maze cols rows} {a b c : ℤ × ℤ}
    {k l : ℕ} (h1 : ReachN m k a b) (h2 : ReachN m l b c) :
    ReachN m (k + l) a c := by
  induction h1 with
  | refl => simpa using h2
  | step hadj _ ih =>
    have := ReachN.step hadj (ih h2)
    convert this using 1
    omega

theorem ReachN.snoc {cols rows : ℕ} {m : Maze cols rows} {a b c : ℤ × ℤ}
    {k : ℕ} (h1 : ReachN m k a b) (h2 : AdjW m b c) : ReachN m (k + 1) a c :=
  h1.append (ReachN.step h2 (ReachN.refl c))

theorem exists_isDist {cols rows : ℕ} {m : Maze cols rows} {a b : ℤ × ℤ}
    (h : Reach m a b) : ∃ D, IsDist m a b D :=
  ⟨sInf {n | ReachN m n a b}, Nat.sInf_mem h, fun _ hk => Nat.sInf_le hk⟩

theorem isDist_unique {cols rows : ℕ} {m : Maze cols rows} {a b : ℤ × ℤ}
    {D D' : ℕ} (h : IsDist m a b D) (h' : IsDist m a b D') : D = D' :=
  Nat.le_antisymm (h.2 _ h'.1) (h'.2 _ h.1)

/-! ### The Manhattan heuristic -/

/-- Manhattan distance between two integer points. -/
def manhattan (a b : ℤ × ℤ) : ℤ := |a.1 - b.1| + |a.2 - b.2|

theorem heuristic_eq_manhattan (cols rows : ℕ) (x y : ℤ) :
    heuristic cols rows x y = manhattan (x, y) ((cols : ℤ) - 1, (rows : ℤ) - 1) := by
  unfold heuristic manhattan
  simp [abs_sub_comm]

theorem heuristic_goal (cols rows : ℕ) :
    heuristic cols rows ((cols : ℤ) - 1) ((rows : ℤ) - 1) = 0 := by
  unfold heuristic; simp

theorem heuristic_nonneg (cols rows : ℕ) (x y : ℤ) :
    0 ≤ heuristic cols rows x y := by
  unfold heuristic; positivity

theorem abs_le_abs_add_one {t u : ℤ} (h : u = t + 1 ∨ u = t - 1 ∨ u = t) :
    |t| ≤ |u| + 1 := by
  rcases h with h | h | h <;> subst h
  · have h1 := abs_add (t + 1) (-1 : ℤ)
    simp only [add_neg_cancel_right] at h1
    have h2 : |(-1 : ℤ)| = 1 := by norm_num
    omega
  · have h1 := abs_add (t - 1) (1 : ℤ)
    simp only [sub_add_cancel] at h1
    have h2 : |(1 : ℤ)| = 1 := by norm_num
    omega
  · linarith

/-- Heuristic consistency: one move changes the heuristic by at most one. -/
theorem heuristic_consistent {cols rows : ℕ} {m : Maze cols rows}
    {a b : ℤ × ℤ} (h : AdjW m a b) :
    heuristic cols rows a.1 a.2 ≤ heuristic cols rows b.1 b.2 + 1 := by
  obtain ⟨d, _, hb⟩ := h
  subst hb
  rcases d with ⟨dv, hd⟩
  interval_cases dv
  · rw [show (⟨0, hd⟩ : Fin 4) = NORTH from rfl, nbrOf_north]
    simp only [heuristic]
    have hy := abs_le_abs_add_one
      (t := (rows : ℤ) - 1 - a.2) (u := (rows : ℤ) - 1 - (a.2 - 1))
      (by left; ring)
    linarith
  · rw [show (⟨1, hd⟩ : Fin 4) = SOUTH from rfl, nbrOf_south]
    simp only [heuristic]
    have hy := abs_le_abs_add_one
      (t := (rows : ℤ) - 1 - a.2) (u := (rows : ℤ) - 1 - (a.2 + 1))
      (by right; left; ring)
    linarith
  · rw [show (⟨2, hd⟩ : Fin 4) = WEST from rfl, nbrOf_west]
    simp only [heuristic]
    have hx := abs_le_abs_add_one
      (t := (cols : ℤ) - 1 - a.1) (u := (cols : ℤ) - 1 - (a.1 - 1))
      (by left; ring)
    linarith
  · rw [show (⟨3, hd⟩ : Fin 4) = EAST from rfl, nbrOf_east]
    simp only [heuristic]
    have hx := abs_le_abs_add_one
      (t := (cols : ℤ) - 1 - a.1) (u := (cols : ℤ) - 1 - (a.1 + 1))
      (by right; left; ring)
    linarith

/-- Consistency propagated along a walk. -/
theorem heuristic_le_reachN_add {cols rows : ℕ} {m : Maze cols rows}
    {a b : ℤ × ℤ} {n : ℕ} (h : ReachN m n a b) :
    heuristic cols rows a.1 a.2 ≤ (n : ℤ) + heuristic cols rows b.1 b.2 := by
  induction h with
  | refl a => simp
  | step hadj _ ih =>
    have h1 := heuristic_consistent hadj
    push_cast
    push_cast at ih
    omega

/-- Admissibility against any walk to the goal. -/
theorem heuristic_le_reachN {cols rows : ℕ} {m : Maze cols rows} {a : ℤ × ℤ}
    {n : ℕ} (h : ReachN m n a ((cols : ℤ) - 1, (rows : ℤ) - 1)) :
    heuristic cols rows a.1 a.2 ≤ (n : ℤ) := by
  have h1 := heuristic_le_reachN_add h
  have h2 := heuristic_goal cols rows
  simp only [h2] at h1
  omega

/-! ### The pathfinder never writes to the grid -/

theorem relaxDir_maze {cols rows : ℕ} {cur : Node} {d : Fin 4}
    {s s' : AState cols rows} (h : relaxDir cur d s = some s') :
    s'.maze = s.maze := by
  unfold relaxDir at h
  dsimp only at h
  repeat' split at h
  all_goals
    first
    | exact Option.noConfusion h
    | (cases Option.some.inj h; rfl)

theorem expandDirs_maze {cols rows : ℕ} {cur : Node} {s s' : AState cols rows}
    (h : expandDirs cur s = some s') : s'.maze = s.maze := by
  unfold expandDirs dirList at h
  simp only [List.foldl_cons, List.foldl_nil, Option.some_bind] at h
  obtain ⟨s3, h3, h4⟩ := Option.bind_eq_some.mp h
  obtain ⟨s2, h2, h3'⟩ := Option.bind_eq_some.mp h3
  obtain ⟨s1, h1, h2'⟩ := Option.bind_eq_some.mp h2
  rw [relaxDir_maze h4, relaxDir_maze h3', relaxDir_maze h2', relaxDir_maze h1]

theorem astarStep_maze_ret {cols rows : ℕ} {s s' : AState cols rows}
    {p : List (ℤ × ℤ)} (h : astarStep s = .ret p s') : s'.maze = s.maze := by
  unfold astarStep at h
  dsimp only at h
  repeat' split at h
  all_goals
    first
    | exact StepRes.noConfusion h
    | (cases h; rfl)

theorem astarStep_maze_next {cols rows : ℕ} {s s' : AState cols rows}
    (h : astarStep s = .next s') : s'.maze = s.maze := by
  unfold astarStep at h
  dsimp only at h
  repeat' split at h
  all_goals
    first
    | exact StepRes.noConfusion h
    | (cases h; rfl)
    | (cases h; rename_i hexp; have hM := expandDirs_maze hexp; exact hM)

theorem astarLoop_maze {cols rows : ℕ} :
    ∀ (fuel : ℕ) (s s' : AState cols rows) (p : List (ℤ × ℤ)),
      astarLoop fuel s = .found p s' → s'.maze = s.maze := by
  intro fuel
  induction fuel with
  | zero => intro s s' p h; exact ARes.noConfusion h
  | succ n ih =>
    intro s s' p h
    unfold astarLoop at h
    split at h
    · exact ARes.noConfusion h
    · cases h
      exact astarStep_maze_ret (by assumption)
    · have h2 := astarStep_maze_next (by assumption)
      rw [ih _ _ _ h, h2]

/-- `a_star` leaves the grid exactly as it found it. -/
theorem a_star_frame {cols rows : ℕ} (m : Maze cols rows) :
    resMaze (a_star m) = none ∨ resMaze (a_star m) = some m := by
  unfold a_star
  cases hres : astarLoop (astarFuel cols rows) (initAState m) with
  | oob => left; rfl
  | exhausted => left; rfl
  | found p s' =>
    right
    have hm := astarLoop_maze _ _ _ _ hres
    have hr : resMaze (ARes.found p s') = some s'.maze := rfl
    rw [hr, hm]
    rfl

/-! ### Passages, invariants of the generator -/

/-- In-bounds as a predicate on coordinate pairs. -/
def inBX (cols rows : ℕ) (z : ℤ × ℤ) : Prop := inBZ cols rows z.1 z.2

instance (cols rows : ℕ) (z : ℤ × ℤ) : Decidable (inBX cols rows z) :=
  inferInstanceAs (Decidable (inBZ cols rows z.1 z.2))

/-- Embed a vertex of the finite grid into coordinates. -/
def toZ {cols rows : ℕ} (v : Fin cols × Fin rows) : ℤ × ℤ :=
  ((v.1.val : ℤ), (v.2.val : ℤ))

/-- A two-sided open passage between two cells (the wall between them is
removed on both of its stored copies). -/
def passAdj {cols rows : ℕ} (m : Maze cols rows) (a b : ℤ × ℤ) : Prop :=
  ∃ d : Fin 4, b = nbrOf a d ∧ is_walkable m a.1 a.2 d = true ∧
    is_walkable m b.1 b.2 (opposite d) = true

instance {cols rows : ℕ} (m : Maze cols rows) (a b : ℤ × ℤ) :
    Decidable (passAdj m a b) :=
  inferInstanceAs (Decidable (∃ d : Fin 4, _ ∧ _ ∧ _))

/-- Connectivity through open passages. -/
def ReachP {cols rows : ℕ} (m : Maze cols rows) : ℤ × ℤ → ℤ × ℤ → Prop :=
  Relation.ReflTransGen (passAdj m)

/-- The visited flag of the cell at `z`. -/
def VisC {cols rows : ℕ} (m : Maze cols rows) (z : ℤ × ℤ) : Bool :=
  (cellAt m z.1 z.2).visited

/-- Wall symmetry invariant (§3 of the spec): the two stored copies of every
interior wall agree. -/
def SymInv {cols rows : ℕ} (m : Maze cols rows) : Prop :=
  ∀ (v : Fin cols × Fin rows) (d : Fin 4),
    inBX cols rows (nbrOf (toZ v) d) →
      (wallAt m (toZ v).1 (toZ v).2 d = false ↔
        wallAt m (nbrOf (toZ v) d).1 (nbrOf (toZ v) d).2 (opposite d) = false)

instance {cols rows : ℕ} (m : Maze cols rows) : Decidable (SymInv m) :=
  inferInstanceAs (Decidable (∀ _ _, _ → _))

/-- Boundary invariant: walls on the outer border are present. -/
def BoundaryInv {cols rows : ℕ} (m : Maze cols rows) : Prop :=
  ∀ (v : Fin cols × Fin rows) (d : Fin 4),
    ¬inBX cols rows (nbrOf (toZ v) d) → wallAt m (toZ v).1 (toZ v).2 d = true

instance {cols rows : ℕ} (m : Maze cols rows) : Decidable (BoundaryInv m) :=
  inferInstanceAs (Decidable (∀ _ _, _ → _))

/-- Every cell of the maze vector stores exactly four wall segments. -/
def Seg4 {cols rows : ℕ} (m : Maze cols rows) : Prop :=
  ∀ c ∈ m.maze, c.segments.length = 4

/-- Number of visited cells. -/
def visCount {cols rows : ℕ} (s : GState cols rows) : ℕ :=
  (Finset.univ.filter fun v : Fin cols × Fin rows =>
    VisC s.m (toZ v) = true).card

/-- Number of unvisited cells. -/
def unvisCount {cols rows : ℕ} (s : GState cols rows) : ℕ :=
  (Finset.univ.filter fun v : Fin cols × Fin rows =>
    ¬VisC s.m (toZ v) = true).card

/-- The canonical (cell, axis) representation of one removed-wall pair: axis
`0` is the passage to the east neighbour, axis `1` to the south neighbour. -/
def pairOpenAt {cols rows : ℕ} (m : Maze cols rows)
    (v : Fin cols × Fin rows) (i : Fin 2) : Prop :=
  let d : Fin 4 := if i = 0 then EAST else SOUTH
  let b := nbrOf (toZ v) d
  inBX cols rows b ∧ wallAt m (toZ v).1 (toZ v).2 d = false ∧
    wallAt m b.1 b.2 (opposite d) = false

instance {cols rows : ℕ} (m : Maze cols rows) (v : Fin cols × Fin rows)
    (i : Fin 2) : Decidable (pairOpenAt m v i) :=
  inferInstanceAs (Decidable (_ ∧ _ ∧ _))

/-- The number of removed-wall pairs (each interior wall pair counted once). -/
def removedPairsCount {cols rows : ℕ} (m : Maze cols rows) : ℕ :=
  (Finset.univ.filter fun p : (Fin cols × Fin rows) × Fin 2 =>
    pairOpenAt m p.1 p.2).card

theorem opposite_ne (d : Fin 4) : opposite d ≠ d := by
  fin_cases d <;> decide

theorem opposite_opposite (d : Fin 4) : opposite (opposite d) = d := by
  fin_cases d <;> decide

theorem passAdj_symm {cols rows : ℕ} {m : Maze cols rows} {a b : ℤ × ℤ}
    (h : passAdj m a b) : passAdj m b a := by
  obtain ⟨d, hb, h1, h2⟩ := h
  subst hb
  refine ⟨opposite d, ?_, h2, ?_⟩
  · rw [nbrOf_opposite]
  · rw [opposite_opposite]
    exact h1

theorem passAdj_of_parts {cols rows : ℕ} {m : Maze cols rows} {a b : ℤ × ℤ}
    {d : Fin 4} (hb : b = nbrOf a d) (h1 : is_walkable m a.1 a.2 d = true)
    (h2 : is_walkable m b.1 b.2 (opposite d) = true) : passAdj m a b :=
  ⟨d, hb, h1, h2⟩

theorem passAdj_inB {cols rows : ℕ} {m : Maze cols rows} {a b : ℤ × ℤ}
    (h : passAdj m a b) : inBX cols rows a ∧ inBX cols rows b := by
  obtain ⟨d, hb, h1, h2⟩ := h
  exact ⟨is_walkable_inB h1, is_walkable_inB h2⟩

/-- A coordinate pair in bounds corresponds to a grid vertex. -/
theorem inBX_toZ {cols rows : ℕ} {z : ℤ × ℤ} (h : inBX cols rows z) :
    ∃ v : Fin cols × Fin rows, toZ v = z := by
  obtain ⟨h1, h2, h3, h4⟩ := h
  refine ⟨(⟨z.1.toNat, by omega⟩, ⟨z.2.toNat, by omega⟩), ?_⟩
  unfold toZ
  rw [Prod.ext_iff]
  constructor <;> simp <;> omega

/-! ### Pointwise effect of `remove_wall`, `markVisited` and `carve` -/

theorem remove_wall_visited (c : Cell) (d : Fin 4) :
    (c.remove_wall d).visited = c.visited := rfl

theorem remove_wall_seg_self (c : Cell) (d : Fin 4)
    (hlen : c.segments.length = 4) :
    ((c.remove_wall d).segments.getD d.val default).exist = false := by
  unfold Cell.remove_wall
  simp only []
  rw [List.getD, List.get?_eq_getElem?,
    List.getElem?_set_eq_of_lt _ (by rw [hlen]; exact d.isLt)]
  rfl

theorem remove_wall_seg_ne (c : Cell) (d e : Fin 4) (hne : e ≠ d) :
    (c.remove_wall d).segments.getD e.val default =
      c.segments.getD e.val default := by
  unfold Cell.remove_wall
  simp only []
  rw [List.getD, List.get?_eq_getElem?, List.getElem?_set_ne, List.getD,
    List.get?_eq_getElem?]
  intro hcontra
  exact hne (Fin.ext hcontra.symm)

theorem remove_wall_seg_len (c : Cell) (d : Fin 4) :
    (c.remove_wall d).segments.length = c.segments.length := by
  unfold Cell.remove_wall
  simp

theorem markVisited_vis {cols rows : ℕ} (s : GState cols rows) {z : ℤ × ℤ}
    (hz : inBX cols rows z) (w : ℤ × ℤ) (hw : inBX cols rows w) :
    VisC (markVisited s z.1 z.2).m w = (if w = z then true else VisC s.m w) := by
  unfold markVisited VisC
  simp only []
  by_cases hwz : w = z
  · subst hwz
    rw [if_pos rfl, cellAt_setCell_self _ hz]
  · rw [if_neg hwz]
    rw [cellAt_setCell_ne _ hz hw]
    intro hcon
    exact hwz (Prod.ext hcon.1 hcon.2)

theorem markVisited_wall {cols rows : ℕ} (s : GState cols rows) {z : ℤ × ℤ}
    (hz : inBX cols rows z) (w : ℤ × ℤ) (hw : inBX cols rows w) (d : Fin 4) :
    wallAt (markVisited s z.1 z.2).m w.1 w.2 d = wallAt s.m w.1 w.2 d := by
  unfold markVisited wallAt
  simp only []
  by_cases hwz : w = z
  · subst hwz
    rw [cellAt_setCell_self _ hz]
  · rw [cellAt_setCell_ne _ hz hw]
    intro hcon
    exact hwz (Prod.ext hcon.1 hcon.2)

theorem is_walkable_iff {cols rows : ℕ} {m : Maze cols rows} {x y : ℤ}
    {d : Fin 4} :
    is_walkable m x y d = true ↔ inBZ cols rows x y ∧ wallAt m x y d = false := by
  rw [is_walkable_eq]
  simp

theorem cellAt_mem {cols rows : ℕ} (m : Maze cols rows) {z : ℤ × ℤ}
    (h : inBX cols rows z) : cellAt m z.1 z.2 ∈ m.maze := by
  unfold cellAt
  have hlt : (index cols z.1 z.2).toNat < m.maze.length := by
    rw [m.hlen]; exact index_toNat_lt h
  rw [List.getD, List.get?_eq_getElem?, List.getElem?_eq_getElem hlt]
  exact List.getElem_mem _

theorem seg4_setCell {cols rows : ℕ} {m : Maze cols rows} {x y : ℤ} {c : Cell}
    (hm : Seg4 m) (hc : c.segments.length = 4) : Seg4 (setCell m x y c) := by
  intro c' hc'
  unfold setCell at hc'
  simp only [] at hc'
  rcases List.mem_or_eq_of_mem_set hc' with h | h
  · exact hm _ h
  · rw [h]; exact hc

theorem seg4_cellAt {cols rows : ℕ} {m : Maze cols rows} {z : ℤ × ℤ}
    (hm : Seg4 m) (h : inBX cols rows z) :
    (cellAt m z.1 z.2).segments.length = 4 :=
  hm _ (cellAt_mem m h)

/-- Pointwise effect of `carve` on visited flags: none. -/
theorem carve_vis {cols rows : ℕ} (s : GState cols rows) {z : ℤ × ℤ}
    (d : Fin 4) (hz : inBX cols rows z) (hn : inBX cols rows (nbrOf z d))
    (w : ℤ × ℤ) (hw : inBX cols rows w) :
    VisC (carve s z.1 z.2 d).m w = VisC s.m w := by
  have hzn : nbrOf z d ≠ z := nbrOf_ne z d
  unfold carve VisC
  simp only []
  have hznp : (z.1, z.2) = z := rfl
  rw [hznp]
  by_cases hwn : w = nbrOf z d
  · subst hwn
    rw [cellAt_setCell_self _ hn, remove_wall_visited,
      cellAt_setCell_ne _ hz hn (by intro hcon; exact hzn (Prod.ext hcon.1 hcon.2))]
  · rw [cellAt_setCell_ne _ hn hw
      (by intro hcon; exact hwn (Prod.ext hcon.1 hcon.2))]
    by_cases hwz : w = z
    · subst hwz
      rw [cellAt_setCell_self _ hz, remove_wall_visited]
    · rw [cellAt_setCell_ne _ hz hw
        (by intro hcon; exact hwz (Prod.ext hcon.1 hcon.2))]

/-- The wall carved away from the current cell. -/
theorem carve_wall_self1 {cols rows : ℕ} (s : GState cols rows) {z : ℤ × ℤ}
    (d : Fin 4) (hz : inBX cols rows z) (hn : inBX cols rows (nbrOf z d))
    (hs : Seg4 s.m) :
    wallAt (carve s z.1 z.2 d).m z.1 z.2 d = false := by
  have hzn : nbrOf z d ≠ z := nbrOf_ne z d
  unfold carve wallAt
  simp only []
  have hznp : (z.1, z.2) = z := rfl
  rw [hznp]
  rw [cellAt_setCell_ne _ hn hz
      (by intro hcon; exact hzn (Prod.ext hcon.1 hcon.2).symm)]
  rw [cellAt_setCell_self _ hz]
  exact remove_wall_seg_self _ d (seg4_cellAt hs hz)

/-- The opposite wall carved away from the neighbour. -/
theorem carve_wall_self2 {cols rows : ℕ} (s : GState cols rows) {z : ℤ × ℤ}
    (d : Fin 4) (hz : inBX cols rows z) (hn : inBX cols rows (nbrOf z d))
    (hs : Seg4 s.m) :
    wallAt (carve s z.1 z.2 d).m (nbrOf z d).1 (nbrOf z d).2 (opposite d) =
      false := by
  have hzn : nbrOf z d ≠ z := nbrOf_ne z d
  unfold carve wallAt
  simp only []
  rw [show (z.1, z.2) = z from rfl]
  rw [cellAt_setCell_self _ hn]
  apply remove_wall_seg_self
  rw [cellAt_setCell_ne _ hz hn
    (by intro hcon; exact hzn (Prod.ext hcon.1 hcon.2))]
  exact seg4_cellAt hs hn

/-- All other walls are untouched by `carve`. -/
theorem carve_wall_other {cols rows : ℕ} (s : GState cols rows) {z : ℤ × ℤ}
    (d : Fin 4) (hz : inBX cols rows z) (hn : inBX cols rows (nbrOf z d))
    (w : ℤ × ℤ) (hw : inBX cols rows w) (e : Fin 4)
    (h1 : ¬(w = z ∧ e = d)) (h2 : ¬(w = nbrOf z d ∧ e = opposite d)) :
    wallAt (carve s z.1 z.2 d).m w.1 w.2 e = wallAt s.m w.1 w.2 e := by
  have hzn : nbrOf z d ≠ z := nbrOf_ne z d
  unfold carve wallAt
  simp only []
  rw [show (z.1, z.2) = z from rfl]
  by_cases hwn : w = nbrOf z d
  · subst hwn
    have he : e ≠ opposite d := fun hcon => h2 ⟨rfl, hcon⟩
    rw [cellAt_setCell_self _ hn, remove_wall_seg_ne _ _ _ he,
      cellAt_setCell_ne _ hz hn (by intro hcon; exact hzn (Prod.ext hcon.1 hcon.2))]
  · rw [cellAt_setCell_ne _ hn hw
      (by intro hcon; exact hwn (Prod.ext hcon.1 hcon.2))]
    by_cases hwz : w = z
    · subst hwz
      have he : e ≠ d := fun hcon => h1 ⟨rfl, hcon⟩
      rw [cellAt_setCell_self _ hz, remove_wall_seg_ne _ _ _ he]
    · rw [cellAt_setCell_ne _ hz hw
        (by intro hcon; exact hwz (Prod.ext hcon.1 hcon.2))]

theorem carve_seg4 {cols rows : ℕ} (s : GState cols rows) {z : ℤ × ℤ}
    (d : Fin 4) (hz : inBX cols rows z) (hn : inBX cols rows (nbrOf z d))
    (hs : Seg4 s.m) : Seg4 (carve s z.1 z.2 d).m := by
  unfold carve
  simp only []
  rw [show (z.1, z.2) = z from rfl]
  have hA : Seg4 (setCell s.m z.1 z.2 ((cellAt s.m z.1 z.2).remove_wall d)) :=
    seg4_setCell hs (by rw [remove_wall_seg_len]; exact seg4_cellAt hs hz)
  exact seg4_setCell hA (by rw [remove_wall_seg_len]; exact seg4_cellAt hA hn)

theorem markVisited_seg4 {cols rows : ℕ} (s : GState cols rows) {z : ℤ × ℤ}
    (hz : inBX cols rows z) (hs : Seg4 s.m) :
    Seg4 (markVisited s z.1 z.2).m := by
  unfold markVisited
  simp only []
  apply seg4_setCell hs
  have hseg : ({ cellAt s.m z.1 z.2 with visited := true } : Cell).segments =
      (cellAt s.m z.1 z.2).segments := rfl
  rw [hseg]
  exact seg4_cellAt hs hz

/-! ### The generator's loop invariants -/

theorem toZ_inB {cols rows : ℕ} (v : Fin cols × Fin rows) :
    inBX cols rows (toZ v) := by
  unfold inBX inBZ toZ
  refine ⟨by positivity, ?_, by positivity, ?_⟩ <;> simp [Int.ofNat_lt] <;> omega

theorem toZ_inj {cols rows : ℕ} {v w : Fin cols × Fin rows}
    (h : toZ v = toZ w) : v = w := by
  unfold toZ at h
  rw [Prod.ext_iff] at h ⊢
  obtain ⟨h1, h2⟩ := h
  constructor <;> [exact Fin.ext (by omega); exact Fin.ext (by omega)]

/-- Invariant holding whenever the generator is between processing steps of
the cell `z` it currently works on (and at the end of its call). -/
structure GMid {cols rows : ℕ} (s : GState cols rows) (z : ℤ × ℤ) : Prop where
  seg : Seg4 s.m
  sym : SymInv s.m
  bnd : BoundaryInv s.m
  inB_z : inBX cols rows z
  vis_z : VisC s.m z = true
  edge_carve : ∀ a b, passAdj s.m a b → (a, b) ∈ s.carves ∨ (b, a) ∈ s.carves
  carve_edge : ∀ pc ∈ s.carves, passAdj s.m pc.1 pc.2
  ends_vis : ∀ pc ∈ s.carves, VisC s.m pc.1 = true ∧ VisC s.m pc.2 = true
  child_nodup : (s.carves.map Prod.snd).Nodup
  ord_iff : ∀ w, w ∈ s.ord ↔ (inBX cols rows w ∧ VisC s.m w = true)
  ord_nodup : s.ord.Nodup
  rank : ∀ pc ∈ s.carves, s.ord.indexOf pc.1 < s.ord.indexOf pc.2
  conn : ∀ w, inBX cols rows w → VisC s.m w = true → ReachP s.m z w
  count_vis : visCount s = s.carves.length + 1
  count_pairs : removedPairsCount s.m = s.carves.length
  marks_eq : s.marks = s.ord.length

/-- Invariant holding on entry of `generate_maze(z)`: `z` is in bounds and
unvisited; if `z` is not the root, the carve into `z` was just recorded. -/
structure GPre {cols rows : ℕ} (s : GState cols rows) (z : ℤ × ℤ) : Prop where
  seg : Seg4 s.m
  sym : SymInv s.m
  bnd : BoundaryInv s.m
  inB_z : inBX cols rows z
  vis_z : VisC s.m z = false
  edge_carve : ∀ a b, passAdj s.m a b → (a, b) ∈ s.carves ∨ (b, a) ∈ s.carves
  carve_edge : ∀ pc ∈ s.carves, passAdj s.m pc.1 pc.2
  ends_vis : ∀ pc ∈ s.carves,
    VisC s.m pc.1 = true ∧ (VisC s.m pc.2 = true ∨ pc.2 = z)
  child_nodup : (s.carves.map Prod.snd).Nodup
  ord_iff : ∀ w, w ∈ s.ord ↔ (inBX cols rows w ∧ VisC s.m w = true)
  ord_nodup : s.ord.Nodup
  rank : ∀ pc ∈ s.carves, pc.2 ≠ z → s.ord.indexOf pc.1 < s.ord.indexOf pc.2
  conn : ∀ w, inBX cols rows w → VisC s.m w = true → ReachP s.m z w
  count_vis : visCount s = s.carves.length
  count_pairs : removedPairsCount s.m = s.carves.length
  marks_eq : s.marks = s.ord.length

/-- Monotone evolution of the generator state. -/
structure GEvol {cols rows : ℕ} (s s' : GState cols rows) : Prop where
  vis_mono : ∀ w, inBX cols rows w → VisC s.m w = true → VisC s'.m w = true
  wall_mono : ∀ w, inBX cols rows w → ∀ e : Fin 4,
    wallAt s.m w.1 w.2 e = false → wallAt s'.m w.1 w.2 e = false
  ord_ext : ∃ t, s'.ord = s.ord ++ t
  carves_ext : ∃ t, s'.carves = s.carves ++ t

/-- Cells that became visited between two states have all their in-bounds
neighbours visited in the later state. -/
def closedNew {cols rows : ℕ} (s s' : GState cols rows) : Prop :=
  ∀ w, inBX cols rows w → VisC s'.m w = true → VisC s.m w = false →
    ∀ d : Fin 4, inBX cols rows (nbrOf w d) → VisC s'.m (nbrOf w d) = true

theorem GEvol.refl {cols rows : ℕ} (s : GState cols rows) : GEvol s s :=
  ⟨fun _ _ h => h, fun _ _ _ h => h, ⟨[], by simp⟩, ⟨[], by simp⟩⟩

theorem GEvol.trans {cols rows : ℕ} {s1 s2 s3 : GState cols rows}
    (h12 : GEvol s1 s2) (h23 : GEvol s2 s3) : GEvol s1 s3 := by
  refine ⟨fun w hw h => h23.vis_mono w hw (h12.vis_mono w hw h),
    fun w hw e h => h23.wall_mono w hw e (h12.wall_mono w hw e h), ?_, ?_⟩
  · obtain ⟨t1, ht1⟩ := h12.ord_ext
    obtain ⟨t2, ht2⟩ := h23.ord_ext
    exact ⟨t1 ++ t2, by rw [ht2, ht1, List.append_assoc]⟩
  · obtain ⟨t1, ht1⟩ := h12.carves_ext
    obtain ⟨t2, ht2⟩ := h23.carves_ext
    exact ⟨t1 ++ t2, by rw [ht2, ht1, List.append_assoc]⟩

theorem closedNew_trans {cols rows : ℕ} {s1 s2 s3 : GState cols rows}
    (e23 : GEvol s2 s3) (h12 : closedNew s1 s2) (h23 : closedNew s2 s3) :
    closedNew s1 s3 := by
  intro w hw hv3 hv1 d hd
  by_cases hv2 : VisC s2.m w = true
  · exact e23.vis_mono _ hd (h12 w hw hv2 hv1 d hd)
  · exact h23 w hw hv3 (by simpa using hv2) d hd

/-- `passAdj` only grows when walls are only removed. -/
theorem passAdj_mono {cols rows : ℕ} {s s' : GState cols rows}
    (he : GEvol s s') {a b : ℤ × ℤ} (h : passAdj s.m a b) :
    passAdj s'.m a b := by
  obtain ⟨d, hb, h1, h2⟩ := h
  have ha : inBX cols rows a := is_walkable_inB h1
  have hbb : inBX cols rows b := is_walkable_inB h2
  rw [is_walkable_iff] at h1 h2
  exact ⟨d, hb, is_walkable_iff.mpr ⟨h1.1, he.wall_mono a ha d h1.2⟩,
    is_walkable_iff.mpr ⟨h2.1, he.wall_mono b hbb (opposite d) h2.2⟩⟩

theorem reachP_mono {cols rows : ℕ} {s s' : GState cols rows}
    (he : GEvol s s') {a b : ℤ × ℤ} (h : ReachP s.m a b) : ReachP s'.m a b := by
  induction h with
  | refl => exact Relation.ReflTransGen.refl
  | tail _ hstep ih => exact Relation.ReflTransGen.tail ih (passAdj_mono he hstep)

/-! ### Counting lemmas -/

theorem counts_sum {cols rows : ℕ} (s : GState cols rows) :
    visCount s + unvisCount s = cols * rows := by
  unfold visCount unvisCount
  rw [Finset.filter_card_add_filter_neg_card_eq_card]
  simp [Fintype.card_prod]

theorem unvis_pos {cols rows : ℕ} {s : GState cols rows} {z : ℤ × ℤ}
    (hz : inBX cols rows z) (hv : VisC s.m z = false) : 0 < unvisCount s := by
  obtain ⟨vz, hvz⟩ := inBX_toZ hz
  unfold unvisCount
  rw [Finset.card_pos]
  exact ⟨vz, by simp [hvz, hv]⟩

theorem unvis_mono {cols rows : ℕ} {s s' : GState cols rows} (he : GEvol s s') :
    unvisCount s' ≤ unvisCount s := by
  unfold unvisCount
  apply Finset.card_le_card
  intro v hv
  simp only [Finset.mem_filter, Finset.mem_univ, true_and] at hv ⊢
  intro hcon
  exact hv (he.vis_mono _ (toZ_inB v) hcon)

theorem visCount_mark {cols rows : ℕ} (s : GState cols rows) {z : ℤ × ℤ}
    (hz : inBX cols rows z) (hv : VisC s.m z = false) :
    visCount (markVisited s z.1 z.2) = visCount s + 1 := by
  obtain ⟨vz, hvz⟩ := inBX_toZ hz
  unfold visCount
  have hset : (Finset.univ.filter fun v : Fin cols × Fin rows =>
      VisC (markVisited s z.1 z.2).m (toZ v) = true) =
      insert vz (Finset.univ.filter fun v => VisC s.m (toZ v) = true) := by
    ext v
    simp only [Finset.mem_filter, Finset.mem_univ, true_and, Finset.mem_insert]
    rw [markVisited_vis s hz (toZ v) (toZ_inB v)]
    by_cases hvq : v = vz
    · subst hvq
      simp [hvz]
    · have : toZ v ≠ z := fun hcon => hvq (toZ_inj (by rw [hcon, hvz]))
      simp [this, hvq]
  rw [hset, Finset.card_insert_of_not_mem]
  simp [hvz, hv]

theorem pairs_mark {cols rows : ℕ} (s : GState cols rows) {z : ℤ × ℤ}
    (hz : inBX cols rows z) :
    removedPairsCount (markVisited s z.1 z.2).m = removedPairsCount s.m := by
  unfold removedPairsCount
  congr 1
  apply Finset.filter_congr
  intro p _
  unfold pairOpenAt
  simp only []
  by_cases hb : inBX cols rows (nbrOf (toZ p.1) (if p.2 = 0 then EAST else SOUTH))
  · rw [markVisited_wall s hz _ (toZ_inB p.1), markVisited_wall s hz _ hb]
  · simp [hb]

theorem nbrOf_left_cancel {a b : ℤ × ℤ} {d : Fin 4}
    (h : nbrOf a d = nbrOf b d) : a = b := by
  rw [← nbrOf_opposite a d, h, nbrOf_opposite]

theorem symInv_true {cols rows : ℕ} {m : Maze cols rows} (hsym : SymInv m)
    {z : ℤ × ℤ} {d : Fin 4} (hz : inBX cols rows z)
    (hn : inBX cols rows (nbrOf z d)) (hpres : wallAt m z.1 z.2 d = true) :
    wallAt m (nbrOf z d).1 (nbrOf z d).2 (opposite d) = true := by
  obtain ⟨vz, hvz⟩ := inBX_toZ hz
  have h := hsym vz d (by rw [hvz]; exact hn)
  rw [hvz] at h
  rcases Bool.eq_false_or_eq_true
      (wallAt m (nbrOf z d).1 (nbrOf z d).2 (opposite d)) with hb | hb
  · exact hb
  · exact absurd (h.mpr hb) (by simp [hpres])

/-- Wall state after one `carve`, as a disjunction. -/
theorem wall_carve_iff {cols rows : ℕ} (s : GState cols rows) {z : ℤ × ℤ}
    (d : Fin 4) (hz : inBX cols rows z) (hn : inBX cols rows (nbrOf z d))
    (hs : Seg4 s.m) (w : ℤ × ℤ) (hw : inBX cols rows w) (e : Fin 4) :
    wallAt (carve s z.1 z.2 d).m w.1 w.2 e = false ↔
      (wallAt s.m w.1 w.2 e = false ∨ (w = z ∧ e = d) ∨
        (w = nbrOf z d ∧ e = opposite d)) := by
  constructor
  · intro h
    by_cases h1 : w = z ∧ e = d
    · exact Or.inr (Or.inl h1)
    by_cases h2 : w = nbrOf z d ∧ e = opposite d
    · exact Or.inr (Or.inr h2)
    · left
      rw [← carve_wall_other s d hz hn w hw e h1 h2]
      exact h
  · intro h
    rcases h with h | ⟨hwz, hed⟩ | ⟨hwn, hed⟩
    · by_cases h1 : w = z ∧ e = d
      · obtain ⟨h1a, h1b⟩ := h1; subst h1a; subst h1b
        exact carve_wall_self1 s e hz hn hs
      by_cases h2 : w = nbrOf z d ∧ e = opposite d
      · obtain ⟨h2a, h2b⟩ := h2; subst h2a; subst h2b
        exact carve_wall_self2 s d hz hn hs
      · rw [carve_wall_other s d hz hn w hw e h1 h2]
        exact h
    · subst hwz; subst hed
      exact carve_wall_self1 s e hz hn hs
    · subst hwn; subst hed
      exact carve_wall_self2 s d hz hn hs

/-- Carving one previously present wall pair raises the removed-pair count by
exactly one (stated for a canonical east/south orientation `d0`). -/
theorem pairs_plus_one {cols rows : ℕ} {m m' : Maze cols rows} {z : ℤ × ℤ}
    (d0 : Fin 4) (i0 : Fin 2)
    (hEq : ∀ i : Fin 2, ((if i = 0 then EAST else SOUTH) = d0) ↔ i = i0)
    (hNe2 : ∀ i : Fin 2, (if i = 0 then EAST else SOUTH) ≠ opposite d0)
    (hNe3 : ∀ i : Fin 2, opposite (if i = 0 then EAST else SOUTH) ≠ d0)
    (hOppEq : ∀ i : Fin 2,
      (opposite (if i = 0 then EAST else SOUTH) = opposite d0) ↔ i = i0)
    (hz : inBX cols rows z) (hn : inBX cols rows (nbrOf z d0))
    (hiff : ∀ w, inBX cols rows w → ∀ e : Fin 4,
      wallAt m' w.1 w.2 e = false ↔
        (wallAt m w.1 w.2 e = false ∨ (w = z ∧ e = d0) ∨
          (w = nbrOf z d0 ∧ e = opposite d0)))
    (hpres1 : wallAt m z.1 z.2 d0 = true) :
    removedPairsCount m' = removedPairsCount m + 1 := by
  obtain ⟨vz, hvz⟩ := inBX_toZ hz
  unfold removedPairsCount
  have hset : (Finset.univ.filter fun p : (Fin cols × Fin rows) × Fin 2 =>
      pairOpenAt m' p.1 p.2) =
      insert (vz, i0) (Finset.univ.filter fun p => pairOpenAt m p.1 p.2) := by
    ext p
    obtain ⟨v, i⟩ := p
    simp only [Finset.mem_filter, Finset.mem_univ, true_and, Finset.mem_insert]
    unfold pairOpenAt
    simp only []
    constructor
    · rintro ⟨hb, hw1, hw2⟩
      rw [hiff _ (toZ_inB v) _] at hw1
      rw [hiff _ hb _] at hw2
      rcases hw1 with hw1 | ⟨hvz1, hd1⟩ | ⟨hvn1, hd1⟩
      · rcases hw2 with hw2 | ⟨hbz, hd2⟩ | ⟨hbn, hd2⟩
        · exact Or.inr ⟨hb, hw1, hw2⟩
        · exact absurd hd2 (hNe3 i)
        · left
          have hi : i = i0 := (hOppEq i).mp hd2
          have hv : v = vz := by
            apply toZ_inj
            rw [hvz]
            have := hbn
            rw [show (if i = 0 then EAST else SOUTH) = d0 from ?_] at this
            · exact nbrOf_left_cancel this
            · exact (hEq i).mpr hi
          rw [hv, hi]
      · left
        have hi : i = i0 := (hEq i).mp hd1
        have hv : v = vz := toZ_inj (by rw [hvz, hvz1])
        rw [hv, hi]
      · exact absurd hd1 (hNe2 i)
    · intro h
      rcases h with h | ⟨hb, hw1, hw2⟩
      · rw [Prod.ext_iff] at h
        obtain ⟨hv, hi⟩ := h
        simp only [] at hv hi
        subst hv; subst hi
        have hd : (if i = (0 : Fin 2) then EAST else SOUTH) = d0 :=
          (hEq i).mpr rfl
        rw [hd, hvz]
        refine ⟨hn, ?_, ?_⟩
        · rw [hiff _ hz _]
          exact Or.inr (Or.inl ⟨rfl, rfl⟩)
        · rw [hiff _ hn _]
          exact Or.inr (Or.inr ⟨rfl, rfl⟩)
      · refine ⟨hb, ?_, ?_⟩
        · rw [hiff _ (toZ_inB v) _]
          exact Or.inl hw1
        · rw [hiff _ hb _]
          exact Or.inl hw2
  rw [hset, Finset.card_insert_of_not_mem]
  intro hmem
  simp only [Finset.mem_filter, Finset.mem_univ, true_and] at hmem
  unfold pairOpenAt at hmem
  simp only [] at hmem
  obtain ⟨_, hw1, _⟩ := hmem
  rw [(by exact (hEq i0).mpr rfl : (if i0 = (0 : Fin 2) then EAST else SOUTH) = d0),
    hvz] at hw1
  rw [hw1] at hpres1
  exact Bool.noConfusion hpres1

theorem opposite_inj {e d : Fin 4} (h : opposite e = opposite d) : e = d := by
  rw [← opposite_opposite e, h, opposite_opposite]

theorem carve_evol {cols rows : ℕ} (s : GState cols rows) {z : ℤ × ℤ}
    (d : Fin 4) (hz : inBX cols rows z) (hn : inBX cols rows (nbrOf z d))
    (hs : Seg4 s.m) : GEvol s (carve s z.1 z.2 d) := by
  refine ⟨?_, ?_, ⟨[], by simp [carve]⟩, ⟨[((z.1, z.2), nbrOf (z.1, z.2) d)], rfl⟩⟩
  · intro w hw h
    rw [carve_vis s d hz hn w hw]
    exact h
  · intro w hw e h
    rw [wall_carve_iff s d hz hn hs w hw e]
    exact Or.inl h

theorem carve_sym {cols rows : ℕ} (s : GState cols rows) {z : ℤ × ℤ}
    (d : Fin 4) (hz : inBX cols rows z) (hn : inBX cols rows (nbrOf z d))
    (hs : Seg4 s.m) (hsym : SymInv s.m) : SymInv (carve s z.1 z.2 d).m := by
  intro v e hnb
  have hA := hsym v e hnb
  rw [wall_carve_iff s d hz hn hs (toZ v) (toZ_inB v) e,
    wall_carve_iff s d hz hn hs (nbrOf (toZ v) e) hnb (opposite e)]
  constructor
  · intro h
    rcases h with h | ⟨h1, h2⟩ | ⟨h1, h2⟩
    · exact Or.inl (hA.mp h)
    · subst h2
      right; right
      rw [h1]
      exact ⟨rfl, rfl⟩
    · subst h2
      right; left
      rw [h1, nbrOf_opposite]
      exact ⟨rfl, opposite_opposite d⟩
  · intro h
    rcases h with h | ⟨h1, h2⟩ | ⟨h1, h2⟩
    · exact Or.inl (hA.mpr h)
    · right; right
      have he : e = opposite d := by
        rw [← opposite_opposite e, h2]
      subst he
      have h4 := nbrOf_opposite (toZ v) (opposite d)
      rw [opposite_opposite] at h4
      rw [h1] at h4
      exact ⟨h4.symm, rfl⟩
    · right; left
      have he : e = d := opposite_inj h2
      subst he
      exact ⟨nbrOf_left_cancel h1, rfl⟩

theorem carve_bnd {cols rows : ℕ} (s : GState cols rows) {z : ℤ × ℤ}
    (d : Fin 4) (hz : inBX cols rows z) (hn : inBX cols rows (nbrOf z d))
    (hs : Seg4 s.m) (hbnd : BoundaryInv s.m) :
    BoundaryInv (carve s z.1 z.2 d).m := by
  intro v e hnb
  rcases Bool.eq_false_or_eq_true
      (wallAt (carve s z.1 z.2 d).m (toZ v).1 (toZ v).2 e) with hb | hb
  · exact hb
  · exfalso
    rw [wall_carve_iff s d hz hn hs (toZ v) (toZ_inB v) e] at hb
    rcases hb with h | ⟨h1, h2⟩ | ⟨h1, h2⟩
    · rw [hbnd v e hnb] at h
      exact Bool.noConfusion h
    · subst h2
      rw [h1] at hnb
      exact hnb hn
    · subst h2
      rw [h1, nbrOf_opposite] at hnb
      exact hnb hz

theorem passAdj_carve_iff {cols rows : ℕ} (s : GState cols rows) {z : ℤ × ℤ}
    (d : Fin 4) (hz : inBX cols rows z) (hn : inBX cols rows (nbrOf z d))
    (hs : Seg4 s.m) (a b : ℤ × ℤ) :
    passAdj (carve s z.1 z.2 d).m a b ↔
      (passAdj s.m a b ∨ (a = z ∧ b = nbrOf z d) ∨ (a = nbrOf z d ∧ b = z)) := by
  constructor
  · rintro ⟨e, hb, h1, h2⟩
    have ha' : inBX cols rows a := is_walkable_inB h1
    have hb' : inBX cols rows b := is_walkable_inB h2
    rw [is_walkable_iff] at h1 h2
    rw [wall_carve_iff s d hz hn hs a ha' e] at h1
    rw [wall_carve_iff s d hz hn hs b hb' (opposite e)] at h2
    rcases h1.2 with hw1 | ⟨g1, g2⟩ | ⟨g1, g2⟩
    · rcases h2.2 with hw2 | ⟨k1, k2⟩ | ⟨k1, k2⟩
      · exact Or.inl ⟨e, hb, is_walkable_iff.mpr ⟨ha', hw1⟩,
          is_walkable_iff.mpr ⟨hb', hw2⟩⟩
      · right; right
        have he : e = opposite d := by rw [← opposite_opposite e, k2]
        subst he
        have h4 := nbrOf_opposite a (opposite d)
        rw [opposite_opposite] at h4
        rw [← hb, k1] at h4
        exact ⟨h4.symm, k1⟩
      · right; left
        have he : e = d := opposite_inj k2
        subst he
        rw [hb] at k1
        exact ⟨nbrOf_left_cancel k1, by rw [hb, nbrOf_left_cancel k1]⟩
    · subst g2
      right; left
      rw [g1] at hb ⊢
      exact ⟨rfl, hb⟩
    · subst g2
      right; right
      rw [g1] at hb ⊢
      rw [nbrOf_opposite] at hb
      exact ⟨rfl, hb⟩
  · intro h
    rcases h with h | ⟨h1, h2⟩ | ⟨h1, h2⟩
    · exact passAdj_mono (carve_evol s d hz hn hs) h
    · subst h1; subst h2
      refine ⟨d, rfl, ?_, ?_⟩
      · rw [is_walkable_iff]
        exact ⟨hz, carve_wall_self1 s d hz hn hs⟩
      · rw [is_walkable_iff]
        exact ⟨hn, carve_wall_self2 s d hz hn hs⟩
    · subst h1; subst h2
      refine ⟨opposite d, by rw [nbrOf_opposite], ?_, ?_⟩
      · rw [is_walkable_iff]
        exact ⟨hn, carve_wall_self2 s d hz hn hs⟩
      · rw [is_walkable_iff, opposite_opposite]
        exact ⟨hz, carve_wall_self1 s d hz hn hs⟩

theorem visCount_carve {cols rows : ℕ} (s : GState cols rows) {z : ℤ × ℤ}
    (d : Fin 4) (hz : inBX cols rows z) (hn : inBX cols rows (nbrOf z d)) :
    visCount (carve s z.1 z.2 d) = visCount s := by
  unfold visCount
  congr 1
  apply Finset.filter_congr
  intro v _
  have hv : VisC (carve s z.1 z.2 d).m (toZ v) = VisC s.m (toZ v) := by
    have := carve_vis s d hz hn (toZ v) (toZ_inB v)
    exact this
  rw [hv]

theorem dir_cases (d : Fin 4) : d = NORTH ∨ d = SOUTH ∨ d = WEST ∨ d = EAST := by
  rcases d with ⟨dv, hd⟩
  interval_cases dv
  · exact Or.inl rfl
  · exact Or.inr (Or.inl rfl)
  · exact Or.inr (Or.inr (Or.inl rfl))
  · exact Or.inr (Or.inr (Or.inr rfl))

theorem pairs_carve_north {cols rows : ℕ} (s : GState cols rows) {z : ℤ × ℤ}
    (hz : inBX cols rows z) (hn : inBX cols rows (nbrOf z NORTH))
    (hs : Seg4 s.m) (hsym : SymInv s.m)
    (hpres : wallAt s.m z.1 z.2 NORTH = true) :
    removedPairsCount (carve s z.1 z.2 NORTH).m = removedPairsCount s.m + 1 := by
  have hiff := wall_carve_iff s NORTH hz hn hs
  have hpres2 := symInv_true hsym hz hn hpres
  refine pairs_plus_one (z := nbrOf z NORTH) SOUTH 1 (by decide) (by decide)
    (by decide) (by decide) hn ?_ ?_ ?_
  · rw [show nbrOf (nbrOf z NORTH) SOUTH = z from nbrOf_opposite z NORTH]
    exact hz
  · intro w hw e
    rw [hiff w hw e]
    rw [show nbrOf (nbrOf z NORTH) SOUTH = z from nbrOf_opposite z NORTH,
      show opposite SOUTH = NORTH from rfl,
      show opposite NORTH = SOUTH from rfl]
    tauto
  · exact hpres2

theorem pairs_carve_south {cols rows : ℕ} (s : GState cols rows) {z : ℤ × ℤ}
    (hz : inBX cols rows z) (hn : inBX cols rows (nbrOf z SOUTH))
    (hs : Seg4 s.m) (hsym : SymInv s.m)
    (hpres : wallAt s.m z.1 z.2 SOUTH = true) :
    removedPairsCount (carve s z.1 z.2 SOUTH).m = removedPairsCount s.m + 1 := by
  have hiff := wall_carve_iff s SOUTH hz hn hs
  refine pairs_plus_one (z := z) SOUTH 1 (by decide) (by decide) (by decide)
    (by decide) hz hn ?_ hpres
  intro w hw e
  rw [hiff w hw e]

theorem pairs_carve_west {cols rows : ℕ} (s : GState cols rows) {z : ℤ × ℤ}
    (hz : inBX cols rows z) (hn : inBX cols rows (nbrOf z WEST))
    (hs : Seg4 s.m) (hsym : SymInv s.m)
    (hpres : wallAt s.m z.1 z.2 WEST = true) :
    removedPairsCount (carve s z.1 z.2 WEST).m = removedPairsCount s.m + 1 := by
  have hiff := wall_carve_iff s WEST hz hn hs
  have hpres2 := symInv_true hsym hz hn hpres
  refine pairs_plus_one (z := nbrOf z WEST) EAST 0 (by decide) (by decide)
    (by decide) (by decide) hn ?_ ?_ ?_
  · rw [show nbrOf (nbrOf z WEST) EAST = z from nbrOf_opposite z WEST]
    exact hz
  · intro w hw e
    rw [hiff w hw e]
    rw [show nbrOf (nbrOf z WEST) EAST = z from nbrOf_opposite z WEST,
      show opposite EAST = WEST from rfl,
      show opposite WEST = EAST from rfl]
    tauto
  · exact hpres2

theorem pairs_carve_east {cols rows : ℕ} (s : GState cols rows) {z : ℤ × ℤ}
    (hz : inBX cols rows z) (hn : inBX cols rows (nbrOf z EAST))
    (hs : Seg4 s.m) (hsym : SymInv s.m)
    (hpres : wallAt s.m z.1 z.2 EAST = true) :
    removedPairsCount (carve s z.1 z.2 EAST).m = removedPairsCount s.m + 1 := by
  have hiff := wall_carve_iff s EAST hz hn hs
  refine pairs_plus_one (z := z) EAST 0 (by decide) (by decide) (by decide)
    (by decide) hz hn ?_ hpres
  intro w hw e
  rw [hiff w hw e]

theorem pairs_carve {cols rows : ℕ} (s : GState cols rows) {z : ℤ × ℤ}
    (d : Fin 4) (hz : inBX cols rows z) (hn : inBX cols rows (nbrOf z d))
    (hs : Seg4 s.m) (hsym : SymInv s.m)
    (hpres : wallAt s.m z.1 z.2 d = true) :
    removedPairsCount (carve s z.1 z.2 d).m = removedPairsCount s.m + 1 := by
  rcases dir_cases d with rfl | rfl | rfl | rfl
  · exact pairs_carve_north s hz hn hs hsym hpres
  · exact pairs_carve_south s hz hn hs hsym hpres
  · exact pairs_carve_west s hz hn hs hsym hpres
  · exact pairs_carve_east s hz hn hs hsym hpres

/-! ### Invariant transport through `markVisited` and `carve` -/

theorem idx_append_of_mem {a : ℤ × ℤ} {l1 l2 : List (ℤ × ℤ)} (h : a ∈ l1) :
    (l1 ++ l2).indexOf a = l1.indexOf a := by
  induction l1 with
  | nil => cases h
  | cons b l ih =>
    show List.indexOf a (b :: (l ++ l2)) = _
    rw [List.indexOf_cons, List.indexOf_cons]
    cases hba : b == a with
    | true => rfl
    | false =>
      simp only [cond_false]
      rw [ih]
      rcases List.mem_cons.mp h with h | h
      · subst h; simp at hba
      · exact h

theorem idx_append_of_not_mem {a : ℤ × ℤ} {l1 l2 : List (ℤ × ℤ)}
    (h : a ∉ l1) : (l1 ++ l2).indexOf a = l1.length + l2.indexOf a := by
  induction l1 with
  | nil => simp
  | cons b l ih =>
    show List.indexOf a (b :: (l ++ l2)) = _
    rw [List.indexOf_cons]
    have hba : (b == a) = false := by
      rcases Bool.eq_false_or_eq_true (b == a) with hb | hb
      · exact absurd (List.mem_cons.mpr (Or.inl (eq_of_beq hb).symm)) h
      · exact hb
    rw [hba]
    simp only [cond_false]
    rw [ih (fun hc => h (List.mem_cons.mpr (Or.inr hc)))]
    simp [List.length_cons]
    omega

theorem idx_lt_length_of_mem {a : ℤ × ℤ} {l : List (ℤ × ℤ)} (h : a ∈ l) :
    l.indexOf a < l.length := by
  induction l with
  | nil => cases h
  | cons b l ih =>
    rw [List.indexOf_cons]
    cases hba : b == a with
    | true => simp
    | false =>
      simp only [cond_false, List.length_cons]
      have : a ∈ l := by
        rcases List.mem_cons.mp h with h | h
        · subst h; simp at hba
        · exact h
      have := ih this
      omega

theorem symInv_congr {cols rows : ℕ} {m m' : Maze cols rows}
    (h : ∀ w, inBX cols rows w → ∀ e : Fin 4,
      wallAt m' w.1 w.2 e = wallAt m w.1 w.2 e)
    (hsym : SymInv m) : SymInv m' := by
  intro v e hnb
  rw [h (toZ v) (toZ_inB v) e, h (nbrOf (toZ v) e) hnb (opposite e)]
  exact hsym v e hnb

theorem bndInv_congr {cols rows : ℕ} {m m' : Maze cols rows}
    (h : ∀ w, inBX cols rows w → ∀ e : Fin 4,
      wallAt m' w.1 w.2 e = wallAt m w.1 w.2 e)
    (hbnd : BoundaryInv m) : BoundaryInv m' := by
  intro v e hnb
  rw [h (toZ v) (toZ_inB v) e]
  exact hbnd v e hnb

theorem passAdj_congr {cols rows : ℕ} {m m' : Maze cols rows}
    (h : ∀ w, inBX cols rows w → ∀ e : Fin 4,
      wallAt m' w.1 w.2 e = wallAt m w.1 w.2 e)
    (a b : ℤ × ℤ) : passAdj m' a b ↔ passAdj m a b := by
  constructor <;>
  · rintro ⟨d, hb, h1, h2⟩
    have ha' := is_walkable_inB h1
    have hb' := is_walkable_inB h2
    rw [is_walkable_iff] at h1 h2
    refine ⟨d, hb, ?_, ?_⟩ <;> rw [is_walkable_iff]
    · exact ⟨h1.1, by rw [← h1.2]; exact (h a ha' d).symm ▸ (h a ha' d) ▸ rfl⟩
    · exact ⟨h2.1, by rw [← h2.2]; exact (h b hb' (opposite d)).symm ▸ rfl⟩

theorem reachP_congr {cols rows : ℕ} {m m' : Maze cols rows}
    (h : ∀ w, inBX cols rows w → ∀ e : Fin 4,
      wallAt m' w.1 w.2 e = wallAt m w.1 w.2 e)
    {a b : ℤ × ℤ} (hr : ReachP m a b) : ReachP m' a b := by
  induction hr with
  | refl => exact Relation.ReflTransGen.refl
  | tail _ hstep ih =>
    exact Relation.ReflTransGen.tail ih ((passAdj_congr h _ _).mpr hstep)

theorem mark_evol {cols rows : ℕ} (s : GState cols rows) {z : ℤ × ℤ}
    (hz : inBX cols rows z) (c : ℕ) :
    GEvol s { markVisited s z.1 z.2 with ctr := c } := by
  refine ⟨?_, ?_, ⟨[(z.1, z.2)], rfl⟩, ⟨[], by simp [markVisited]⟩⟩
  · intro w hw h
    have hv := markVisited_vis s hz w hw
    rw [hv]
    split <;> simp [h]
  · intro w hw e h
    rw [markVisited_wall s hz w hw e]
    exact h

theorem mark_mid {cols rows : ℕ} {s : GState cols rows} {z : ℤ × ℤ}
    (hpre : GPre s z) (c : ℕ) :
    GMid { markVisited s z.1 z.2 with ctr := c } z := by
  have hz := hpre.inB_z
  have hwall := fun w hw e => markVisited_wall s (z := z) hz w hw e
  have hvis := fun w hw => markVisited_vis s (z := z) hz w hw
  have hznotord : z ∉ s.ord := by
    intro hmem
    have := (hpre.ord_iff z).mp hmem
    rw [hpre.vis_z] at this
    exact Bool.noConfusion this.2
  have hends_inB : ∀ pc ∈ s.carves, inBX cols rows pc.1 ∧ inBX cols rows pc.2 :=
    fun pc hpc => passAdj_inB (hpre.carve_edge pc hpc)
  refine ⟨?_, ?_, ?_, hz, ?_, ?_, ?_, ?_, ?_, ?_, ?_, ?_, ?_, ?_, ?_, ?_⟩
  · exact markVisited_seg4 s hz hpre.seg
  · exact symInv_congr hwall hpre.sym
  · exact bndInv_congr hwall hpre.bnd
  · rw [hvis z hz]
    simp
  · intro a b hadj
    exact hpre.edge_carve a b ((passAdj_congr hwall a b).mp hadj)
  · intro pc hpc
    exact (passAdj_congr hwall pc.1 pc.2).mpr (hpre.carve_edge pc hpc)
  · intro pc hpc
    obtain ⟨h1B, h2B⟩ := hends_inB pc hpc
    obtain ⟨hv1, hv2⟩ := hpre.ends_vis pc hpc
    constructor
    · rw [hvis pc.1 h1B]
      split <;> simp [hv1]
    · rw [hvis pc.2 h2B]
      rcases hv2 with hv2 | hv2
      · split <;> simp [hv2]
      · rw [if_pos hv2]
  · exact hpre.child_nodup
  · intro w
    have hmem : w ∈ ({ markVisited s z.1 z.2 with ctr := c } :
        GState cols rows).ord ↔ w ∈ s.ord ∨ w = z := by
      show w ∈ s.ord ++ [(z.1, z.2)] ↔ _
      simp [List.mem_append]
    rw [hmem]
    constructor
    · intro h
      rcases h with h | h
      · obtain ⟨hiB, hv⟩ := (hpre.ord_iff w).mp h
        refine ⟨hiB, ?_⟩
        rw [hvis w hiB]
        split <;> simp [hv]
      · subst h
        refine ⟨hz, ?_⟩
        rw [hvis w hz]
        simp
    · rintro ⟨hiB, hv⟩
      rw [hvis w hiB] at hv
      by_cases hwz : w = z
      · exact Or.inr hwz
      · rw [if_neg hwz] at hv
        exact Or.inl ((hpre.ord_iff w).mpr ⟨hiB, hv⟩)
  · show (s.ord ++ [(z.1, z.2)]).Nodup
    rw [List.nodup_append]
    refine ⟨hpre.ord_nodup, List.nodup_singleton _, ?_⟩
    intro a ha hb
    simp at hb
    subst hb
    exact hznotord ha
  · intro pc hpc
    show (s.ord ++ [(z.1, z.2)]).indexOf pc.1 <
      (s.ord ++ [(z.1, z.2)]).indexOf pc.2
    obtain ⟨hv1, hv2⟩ := hpre.ends_vis pc hpc
    obtain ⟨h1B, h2B⟩ := hends_inB pc hpc
    have hm1 : pc.1 ∈ s.ord := (hpre.ord_iff pc.1).mpr ⟨h1B, hv1⟩
    rw [show (z.1, z.2) = z from rfl]
    rw [idx_append_of_mem hm1]
    rcases hv2 with hv2 | hv2
    · have hm2 : pc.2 ∈ s.ord := (hpre.ord_iff pc.2).mpr ⟨h2B, hv2⟩
      rw [idx_append_of_mem hm2]
      exact hpre.rank pc hpc (fun hcon => by
        rw [hcon] at hm2
        exact hznotord hm2)
    · subst hv2
      rw [idx_append_of_not_mem hznotord]
      have hlt : s.ord.indexOf pc.1 < s.ord.length :=
        idx_lt_length_of_mem hm1
      omega
  · intro w hiB hv
    rw [hvis w hiB] at hv
    by_cases hwz : w = z
    · subst hwz
      exact Relation.ReflTransGen.refl
    · rw [if_neg hwz] at hv
      exact reachP_congr hwall (hpre.conn w hiB hv)
  · have h1 : visCount { markVisited s z.1 z.2 with ctr := c } =
        visCount (markVisited s z.1 z.2) := rfl
    rw [h1, visCount_mark s hz hpre.vis_z, hpre.count_vis]
    rfl
  · have h1 : removedPairsCount ({ markVisited s z.1 z.2 with ctr := c } :
        GState cols rows).m = removedPairsCount (markVisited s z.1 z.2).m := rfl
    rw [h1, pairs_mark s hz, hpre.count_pairs]
    rfl
  · show s.marks + 1 = (s.ord ++ [(z.1, z.2)]).length
    rw [hpre.marks_eq]
    simp

theorem carve_pre {cols rows : ℕ} {s : GState cols rows} {z : ℤ × ℤ}
    {d : Fin 4} (hmid : GMid s z) (hinB : inBX cols rows (nbrOf z d))
    (hnv : VisC s.m (nbrOf z d) = false) :
    GPre (carve s z.1 z.2 d) (nbrOf z d) ∧ GEvol s (carve s z.1 z.2 d) ∧
      (z, nbrOf z d) ∈ (carve s z.1 z.2 d).carves := by
  have hz := hmid.inB_z
  have hends_inB : ∀ pc ∈ s.carves, inBX cols rows pc.1 ∧ inBX cols rows pc.2 :=
    fun pc hpc => passAdj_inB (hmid.carve_edge pc hpc)
  have hpres : wallAt s.m z.1 z.2 d = true := by
    rcases Bool.eq_false_or_eq_true (wallAt s.m z.1 z.2 d) with hb | hb
    · exact hb
    exfalso
    have hadj : passAdj s.m z (nbrOf z d) := by
      refine ⟨d, rfl, ?_, ?_⟩
      · rw [is_walkable_iff]; exact ⟨hz, hb⟩
      · rw [is_walkable_iff]
        refine ⟨hinB, ?_⟩
        obtain ⟨vz, hvz⟩ := inBX_toZ hz
        have hsy := hmid.sym vz d (by rw [hvz]; exact hinB)
        rw [hvz] at hsy
        exact hsy.mp hb
    rcases hmid.edge_carve z (nbrOf z d) hadj with hmem | hmem
    · have := (hmid.ends_vis _ hmem).2
      rw [hnv] at this
      exact Bool.noConfusion this
    · have := (hmid.ends_vis _ hmem).1
      rw [hnv] at this
      exact Bool.noConfusion this
  have hevol := carve_evol s d hz hinB hmid.seg
  have hcv := fun w hw => carve_vis s (z := z) d hz hinB w hw
  have hmem_new : (z, nbrOf z d) ∈ (carve s z.1 z.2 d).carves := by
    show _ ∈ s.carves ++ [((z.1, z.2), nbrOf (z.1, z.2) d)]
    simp
  refine ⟨⟨?_, ?_, ?_, hinB, ?_, ?_, ?_, ?_, ?_, ?_, ?_, ?_, ?_, ?_, ?_, ?_⟩,
    hevol, hmem_new⟩
  · exact carve_seg4 s d hz hinB hmid.seg
  · exact carve_sym s d hz hinB hmid.seg hmid.sym
  · exact carve_bnd s d hz hinB hmid.seg hmid.bnd
  · rw [hcv _ hinB]
    exact hnv
  · intro a b hadj
    rw [passAdj_carve_iff s d hz hinB hmid.seg a b] at hadj
    show _ ∈ s.carves ++ [((z.1, z.2), nbrOf (z.1, z.2) d)] ∨
      _ ∈ s.carves ++ [((z.1, z.2), nbrOf (z.1, z.2) d)]
    rcases hadj with h | ⟨h1, h2⟩ | ⟨h1, h2⟩
    · rcases hmid.edge_carve a b h with h' | h'
      · exact Or.inl (by simp [h'])
      · exact Or.inr (by simp [h'])
    · subst h1; subst h2
      exact Or.inl (by simp)
    · subst h1; subst h2
      exact Or.inr (by simp)
  · intro pc hpc
    rcases List.mem_append.mp hpc with h | h
    · exact passAdj_mono hevol (hmid.carve_edge pc h)
    · simp at h
      subst h
      rw [passAdj_carve_iff s d hz hinB hmid.seg]
      exact Or.inr (Or.inl ⟨rfl, rfl⟩)
  · intro pc hpc
    rcases List.mem_append.mp hpc with h | h
    · obtain ⟨h1B, h2B⟩ := hends_inB pc h
      obtain ⟨hv1, hv2⟩ := hmid.ends_vis pc h
      rw [hcv _ h1B, hcv _ h2B]
      exact ⟨hv1, Or.inl hv2⟩
    · simp at h
      subst h
      constructor
      · rw [hcv _ hz]
        exact hmid.vis_z
      · exact Or.inr rfl
  · show ((s.carves ++ [((z.1, z.2), nbrOf (z.1, z.2) d)]).map Prod.snd).Nodup
    rw [List.map_append]
    rw [List.nodup_append]
    refine ⟨hmid.child_nodup, by simp, ?_⟩
    intro a ha hb
    simp at hb
    subst hb
    simp only [List.mem_map] at ha
    obtain ⟨pc, hpc, hsnd⟩ := ha
    have := (hmid.ends_vis pc hpc).2
    rw [show pc.2 = nbrOf z d from hsnd] at this
    rw [hnv] at this
    exact Bool.noConfusion this
  · intro w
    show w ∈ s.ord ↔ _
    rw [hmid.ord_iff w]
    constructor
    · rintro ⟨hiB, hv⟩
      rw [hcv _ hiB]
      exact ⟨hiB, hv⟩
    · rintro ⟨hiB, hv⟩
      rw [hcv _ hiB] at hv
      exact ⟨hiB, hv⟩
  · exact hmid.ord_nodup
  · intro pc hpc hne
    rcases List.mem_append.mp hpc with h | h
    · exact hmid.rank pc h
    · simp at h
      exact absurd (by rw [h]) hne
  · intro w hiB hv
    rw [hcv _ hiB] at hv
    have hstep : passAdj (carve s z.1 z.2 d).m (nbrOf z d) z := by
      rw [passAdj_carve_iff s d hz hinB hmid.seg]
      exact Or.inr (Or.inr ⟨rfl, rfl⟩)
    exact (Relation.ReflTransGen.single hstep).trans
      (reachP_mono hevol (hmid.conn w hiB hv))
  · have h1 : visCount (carve s z.1 z.2 d) = visCount s :=
      visCount_carve s d hz hinB
    rw [h1, hmid.count_vis]
    show _ = (s.carves ++ [((z.1, z.2), nbrOf (z.1, z.2) d)]).length
    simp
  · show removedPairsCount (carve s z.1 z.2 d).m =
      (s.carves ++ [((z.1, z.2), nbrOf (z.1, z.2) d)]).length
    rw [pairs_carve s d hz hinB hmid.seg hmid.sym hpres, hmid.count_pairs]
    simp
  · exact hmid.marks_eq

/-! ### The main induction for `generate_maze` -/

theorem closedNew_refl {cols rows : ℕ} (s : GState cols rows) : closedNew s s :=
  fun _ _ hv hnv => absurd hv (by simp [hnv])

theorem mem_dirList (d : Fin 4) : d ∈ dirList := by
  fin_cases d <;> simp [dirList, NORTH, SOUTH, WEST, EAST]

theorem unvis_carve {cols rows : ℕ} (s : GState cols rows) {z : ℤ × ℤ}
    (d : Fin 4) (hz : inBX cols rows z) (hn : inBX cols rows (nbrOf z d)) :
    unvisCount (carve s z.1 z.2 d) = unvisCount s := by
  have h1 := counts_sum (carve s z.1 z.2 d)
  have h2 := counts_sum s
  have h3 := visCount_carve s d hz hn
  omega

theorem GMid.reroot {cols rows : ℕ} {s : GState cols rows} {n z : ℤ × ℤ}
    (h : GMid s n) (hz : inBX cols rows z) (hvz : VisC s.m z = true)
    (hr : ReachP s.m z n) : GMid s z :=
  ⟨h.seg, h.sym, h.bnd, hz, hvz, h.edge_carve, h.carve_edge, h.ends_vis,
    h.child_nodup, h.ord_iff, h.ord_nodup, h.rank,
    fun w hw hv => hr.trans (h.conn w hw hv), h.count_vis, h.count_pairs,
    h.marks_eq⟩

/-- A single iteration of the direction loop. -/
theorem body_spec {cols rows : ℕ} (R : ℕ → List (Fin 4)) (fuel : ℕ)
    (hrec : ∀ (s'' : GState cols rows) (n : ℤ × ℤ), GPre s'' n →
      unvisCount s'' ≤ fuel → ∃ s3, genStep R fuel n.1 n.2 s'' = some s3 ∧
        GMid s3 n ∧ GEvol s'' s3 ∧ closedNew s'' s3)
    (z : ℤ × ℤ) (d : Fin 4) (s : GState cols rows) (hmid : GMid s z)
    (hfuel : unvisCount s ≤ fuel) :
    ∃ s', (if inBZ cols rows (nbrOf (z.1, z.2) d).1 (nbrOf (z.1, z.2) d).2 ∧
        (cellAt s.m (nbrOf (z.1, z.2) d).1 (nbrOf (z.1, z.2) d).2).visited = false
      then genStep R fuel (nbrOf (z.1, z.2) d).1 (nbrOf (z.1, z.2) d).2
        (carve s z.1 z.2 d)
      else some s) = some s' ∧ GMid s' z ∧ GEvol s s' ∧ closedNew s s' ∧
      (inBX cols rows (nbrOf z d) → VisC s'.m (nbrOf z d) = true) := by
  have hzz : ((z.1, z.2) : ℤ × ℤ) = z := rfl
  by_cases hcond : inBZ cols rows (nbrOf (z.1, z.2) d).1 (nbrOf (z.1, z.2) d).2 ∧
      (cellAt s.m (nbrOf (z.1, z.2) d).1 (nbrOf (z.1, z.2) d).2).visited = false
  · obtain ⟨hinBn, hunvisn⟩ := hcond
    have hinBn' : inBX cols rows (nbrOf z d) := hinBn
    have hunvisn' : VisC s.m (nbrOf z d) = false := hunvisn
    obtain ⟨hpreC, hevC, hmemC⟩ := carve_pre hmid hinBn' hunvisn'
    have hfuelC : unvisCount (carve s z.1 z.2 d) ≤ fuel := by
      rw [unvis_carve s d hmid.inB_z hinBn']
      exact hfuel
    obtain ⟨s3, hstep, hmid3, hev3, hcl3⟩ :=
      hrec (carve s z.1 z.2 d) (nbrOf z d) hpreC hfuelC
    refine ⟨s3, ?_, ?_, hevC.trans hev3, ?_, fun _ => hmid3.vis_z⟩
    · rw [if_pos ⟨hinBn, hunvisn⟩]
      exact hstep
    · have hmem3 : (z, nbrOf z d) ∈ s3.carves := by
        obtain ⟨t, ht⟩ := hev3.carves_ext
        rw [ht]
        exact List.mem_append.mpr (Or.inl hmemC)
      have hadj : passAdj s3.m z (nbrOf z d) := hmid3.carve_edge _ hmem3
      exact hmid3.reroot hmid.inB_z
        (hev3.vis_mono z hmid.inB_z
          (hevC.vis_mono z hmid.inB_z hmid.vis_z))
        (Relation.ReflTransGen.single hadj)
    · intro w hw hv3 hv0
      have hvC : VisC (carve s z.1 z.2 d).m w = false := by
        rw [carve_vis s d hmid.inB_z hinBn' w hw]
        exact hv0
      exact hcl3 w hw hv3 hvC
  · refine ⟨s, by rw [if_neg hcond], hmid, GEvol.refl s, closedNew_refl s, ?_⟩
    intro hinBn
    rcases Bool.eq_false_or_eq_true (VisC s.m (nbrOf z d)) with hb | hb
    · exact hb
    · exact absurd ⟨hinBn, hb⟩ hcond

/-- The direction fold of one `generate_maze` call. -/
theorem foldBind_spec {cols rows : ℕ}
    {G : Fin 4 → GState cols rows → Option (GState cols rows)} {z : ℤ × ℤ}
    {C : ℕ}
    (hG : ∀ d s, GMid s z → unvisCount s ≤ C →
      ∃ s', G d s = some s' ∧ GMid s' z ∧ GEvol s s' ∧ closedNew s s' ∧
        (inBX cols rows (nbrOf z d) → VisC s'.m (nbrOf z d) = true)) :
    ∀ (ds : List (Fin 4)) (s : GState cols rows), GMid s z →
      unvisCount s ≤ C →
      ∃ s', ds.foldl (fun os d => os.bind (G d)) (some s) = some s' ∧
        GMid s' z ∧ GEvol s s' ∧ closedNew s s' ∧
        (∀ d ∈ ds, inBX cols rows (nbrOf z d) → VisC s'.m (nbrOf z d) = true) := by
  intro ds
  induction ds with
  | nil =>
    intro s hmid hfuel
    exact ⟨s, rfl, hmid, GEvol.refl s, closedNew_refl s, by simp⟩
  | cons d ds ih =>
    intro s hmid hfuel
    obtain ⟨s1, h1, hmid1, hev1, hcl1, hd1⟩ := hG d s hmid hfuel
    obtain ⟨s', h2, hmid', hev2, hcl2, hds⟩ := ih s1 hmid1
      (le_trans (unvis_mono hev1) hfuel)
    refine ⟨s', ?_, hmid', hev1.trans hev2, closedNew_trans hev2 hcl1 hcl2, ?_⟩
    · rw [List.foldl_cons]
      simp only [Option.some_bind]
      rw [h1]
      exact h2
    · intro e he hinBe
      rcases List.mem_cons.mp he with he' | he'
      · subst he'
        exact hev2.vis_mono _ hinBe (hd1 hinBe)
      · exact hds e he' hinBe

/-- Full specification of one `generate_maze` call, by induction on fuel. -/
theorem genStep_spec {cols rows : ℕ} (R : ℕ → List (Fin 4))
    (HR : ∀ k, (R k).Perm dirList) :
    ∀ (fuel : ℕ) (s : GState cols rows) (z : ℤ × ℤ), GPre s z →
      unvisCount s ≤ fuel →
      ∃ s', genStep R fuel z.1 z.2 s = some s' ∧ GMid s' z ∧ GEvol s s' ∧
        closedNew s s' ∧
        (∀ d : Fin 4, inBX cols rows (nbrOf z d) → VisC s'.m (nbrOf z d) = true) := by
  intro fuel
  induction fuel with
  | zero =>
    intro s z hpre hfuel
    exact absurd hfuel (by
      have := unvis_pos hpre.inB_z hpre.vis_z
      omega)
  | succ f ih =>
    intro s z hpre hfuel
    have hrec : ∀ (s'' : GState cols rows) (n : ℤ × ℤ), GPre s'' n →
        unvisCount s'' ≤ f → ∃ s3, genStep R f n.1 n.2 s'' = some s3 ∧
          GMid s3 n ∧ GEvol s'' s3 ∧ closedNew s'' s3 := by
      intro s'' n hp hf
      obtain ⟨s3, ha, hb, hc, hd, _⟩ := ih s'' n hp hf
      exact ⟨s3, ha, hb, hc, hd⟩
    have hmid1 := mark_mid hpre (s.ctr + 1)
    have hev1 := mark_evol s hpre.inB_z (s.ctr + 1)
    have hfuel1 : unvisCount { markVisited s z.1 z.2 with ctr := s.ctr + 1 } ≤ f := by
      have h1 := counts_sum { markVisited s z.1 z.2 with ctr := s.ctr + 1 }
      have h2 := counts_sum s
      have h3 : visCount { markVisited s z.1 z.2 with ctr := s.ctr + 1 } =
          visCount s + 1 := visCount_mark s hpre.inB_z hpre.vis_z
      omega
    obtain ⟨s', hfold, hmid', hev2, hcl2, hds⟩ :=
      foldBind_spec (C := f)
        (body_spec R f hrec z)
        (R s.ctr) { markVisited s z.1 z.2 with ctr := s.ctr + 1 } hmid1 hfuel1
    refine ⟨s', hfold, hmid', hev1.trans hev2, ?_, ?_⟩
    · intro w hw hv' hv0 d hd
      by_cases hwz : w = z
      · subst hwz
        exact hds d (((HR s.ctr).mem_iff).mpr (mem_dirList d)) hd
      · have hv1 : VisC ({ markVisited s z.1 z.2 with ctr := s.ctr + 1 } :
            GState cols rows).m w = false := by
          rw [markVisited_vis s hpre.inB_z w hw, if_neg hwz]
          exact hv0
        exact hcl2 w hw hv' hv1 d hd
    · intro d hd
      exact hds d (((HR s.ctr).mem_iff).mpr (mem_dirList d)) hd

/-! ### The freshly constructed grid satisfies the entry invariant -/

theorem seg4_init (cols rows : ℕ) : Seg4 (initMaze cols rows) := by
  intro c hc
  unfold initMaze initCells at hc
  simp only [List.mem_flatMap, List.mem_map, List.mem_range] at hc
  obtain ⟨y, _, x, _, rfl⟩ := hc
  rfl

theorem visC_init {cols rows : ℕ} {z : ℤ × ℤ} (hz : inBX cols rows z) :
    VisC (initMaze cols rows) z = false := by
  unfold VisC
  rw [cellAt_initMaze hz]
  rfl

theorem wallAt_initMaze {cols rows : ℕ} {z : ℤ × ℤ} (hz : inBX cols rows z)
    (d : Fin 4) : wallAt (initMaze cols rows) z.1 z.2 d = true := by
  unfold wallAt
  rw [cellAt_initMaze hz]
  exact wallAt_init z.1 z.2 d

theorem visCount_init (cols rows : ℕ) : visCount (initGState cols rows) = 0 := by
  unfold visCount
  rw [Finset.card_eq_zero]
  rw [Finset.filter_eq_empty_iff]
  intro v _
  have hm0 : (initGState cols rows).m = initMaze cols rows := rfl
  rw [hm0, visC_init (toZ_inB v)]
  simp

theorem pairs_init (cols rows : ℕ) :
    removedPairsCount (initMaze cols rows) = 0 := by
  unfold removedPairsCount
  rw [Finset.card_eq_zero, Finset.filter_eq_empty_iff]
  intro p _
  unfold pairOpenAt
  simp only []
  rw [wallAt_initMaze (toZ_inB p.1)]
  simp

theorem unvis_le (cols rows : ℕ) (s : GState cols rows) :
    unvisCount s ≤ cols * rows := by
  unfold unvisCount
  calc _ ≤ (Finset.univ : Finset (Fin cols × Fin rows)).card :=
        Finset.card_filter_le _ _
    _ = cols * rows := by simp [Fintype.card_prod]

theorem gpre_init {cols rows : ℕ} {z : ℤ × ℤ} (hz : inBX cols rows z) :
    GPre (initGState cols rows) z := by
  have hwall : ∀ (w : ℤ × ℤ), inBX cols rows w → ∀ e : Fin 4,
      wallAt (initGState cols rows).m w.1 w.2 e = true :=
    fun w hw e => wallAt_initMaze hw e
  have hnopass : ∀ a b, ¬passAdj (initGState cols rows).m a b := by
    rintro a b ⟨d, hb, h1, h2⟩
    have ha := is_walkable_inB h1
    rw [is_walkable_iff] at h1
    rw [hwall a ha d] at h1
    exact Bool.noConfusion h1.2
  refine ⟨seg4_init cols rows, ?_, ?_, hz, visC_init hz, ?_, ?_, ?_, ?_, ?_,
    ?_, ?_, ?_, ?_, ?_, ?_⟩
  · intro v d hnb
    rw [hwall (toZ v) (toZ_inB v) d, hwall (nbrOf (toZ v) d) hnb (opposite d)]
  · intro v d _
    exact hwall (toZ v) (toZ_inB v) d
  · intro a b h
    exact absurd h (hnopass a b)
  · intro pc hpc
    exact absurd hpc (List.not_mem_nil pc)
  · intro pc hpc
    exact absurd hpc (List.not_mem_nil pc)
  · exact List.nodup_nil
  · intro w
    constructor
    · intro h
      exact absurd h (List.not_mem_nil w)
    · rintro ⟨hiB, hv⟩
      rw [show (initGState cols rows).m = initMaze cols rows from rfl,
        visC_init hiB] at hv
      exact Bool.noConfusion hv
  · exact List.nodup_nil
  · intro pc hpc
    exact absurd hpc (List.not_mem_nil pc)
  · intro w hiB hv
    rw [show (initGState cols rows).m = initMaze cols rows from rfl,
      visC_init hiB] at hv
    exact Bool.noConfusion hv
  · exact visCount_init cols rows
  · exact pairs_init cols rows
  · rfl

/-! ### Every cell is visited at the end -/

/-- Plain grid adjacency (ignoring walls). -/
def GridAdj (cols rows : ℕ) (a b : ℤ × ℤ) : Prop :=
  inBX cols rows a ∧ inBX cols rows b ∧ ∃ d : Fin 4, b = nbrOf a d

theorem gridAdj_symm {cols rows : ℕ} {a b : ℤ × ℤ} (h : GridAdj cols rows a b) :
    GridAdj cols rows b a := by
  obtain ⟨ha, hb, d, hd⟩ := h
  exact ⟨hb, ha, opposite d, by rw [hd, nbrOf_opposite]⟩

theorem gridReach_origin {cols rows : ℕ} :
    ∀ (n : ℕ) (a : ℤ × ℤ), (a.1 + a.2).toNat = n → inBX cols rows a →
      Relation.ReflTransGen (GridAdj cols rows) a (0, 0) := by
  intro n
  induction n using Nat.strong_induction_on with
  | _ n ih =>
    intro a hn ha
    obtain ⟨ha1, ha2, ha3, ha4⟩ := ha
    by_cases h0 : a = (0, 0)
    · subst h0
      exact Relation.ReflTransGen.refl
    · have hpos : 0 < a.1 ∨ 0 < a.2 := by
        by_contra hcon
        push_neg at hcon
        refine h0 (Prod.ext ?_ ?_) <;> simp <;> omega
      rcases lt_or_le 0 a.1 with hx | hx
      · have hstep : GridAdj cols rows a (a.1 - 1, a.2) :=
          ⟨⟨ha1, ha2, ha3, ha4⟩, ⟨by omega, by omega, ha3, ha4⟩,
            WEST, by rw [nbrOf_west]⟩
        have hrec := ih ((a.1 - 1 + a.2).toNat) (by omega) (a.1 - 1, a.2) rfl
          ⟨by omega, by omega, ha3, ha4⟩
        exact Relation.ReflTransGen.head hstep hrec
      · have hy : 0 < a.2 := by omega
        have hstep : GridAdj cols rows a (a.1, a.2 - 1) :=
          ⟨⟨ha1, ha2, ha3, ha4⟩, ⟨ha1, ha2, by omega, by omega⟩,
            NORTH, by rw [nbrOf_north]⟩
        have hrec := ih ((a.1 + (a.2 - 1)).toNat) (by omega) (a.1, a.2 - 1) rfl
          ⟨ha1, ha2, by omega, by omega⟩
        exact Relation.ReflTransGen.head hstep hrec

theorem gridReach {cols rows : ℕ} {a b : ℤ × ℤ} (ha : inBX cols rows a)
    (hb : inBX cols rows b) :
    Relation.ReflTransGen (GridAdj cols rows) a b := by
  have h1 := gridReach_origin _ a rfl ha
  have h2 := gridReach_origin _ b rfl hb
  have hsymm : Symmetric (GridAdj cols rows) := fun _ _ h => gridAdj_symm h
  exact h1.trans (Relation.ReflTransGen.symmetric hsymm h2)

theorem all_visited {cols rows : ℕ} {s0 s' : GState cols rows} {z : ℤ × ℤ}
    (hinit : ∀ w, inBX cols rows w → VisC s0.m w = false)
    (hcl : closedNew s0 s') (hvz : VisC s'.m z = true)
    (hz : inBX cols rows z) : ∀ w, inBX cols rows w → VisC s'.m w = true := by
  intro w hw
  have hreach := gridReach hz hw
  induction hreach with
  | refl => exact hvz
  | tail _ hstep ih =>
    obtain ⟨hbB, hcB, d, hd⟩ := hstep
    subst hd
    exact hcl _ hbB (ih hbB) (hinit _ hbB) d hcB

theorem visCount_full {cols rows : ℕ} {s : GState cols rows}
    (h : ∀ w, inBX cols rows w → VisC s.m w = true) :
    visCount s = cols * rows := by
  unfold visCount
  rw [Finset.filter_true_of_mem fun v _ => h (toZ v) (toZ_inB v)]
  simp [Fintype.card_prod]

/-- The master theorem about a whole `generate_maze` run from the fresh grid. -/
theorem generate_post {cols rows : ℕ} (R : ℕ → List (Fin 4))
    (HR : ∀ k, (R k).Perm dirList) {z : ℤ × ℤ} (hz : inBX cols rows z) :
    ∃ s', generate_maze R z.1 z.2 (initGState cols rows) = some s' ∧
      GMid s' z ∧ (∀ w, inBX cols rows w → VisC s'.m w = true) ∧
      visCount s' = cols * rows ∧ s'.marks = cols * rows ∧
      removedPairsCount s'.m = cols * rows - 1 ∧
      (∀ w, inBX cols rows w → ReachP s'.m z w) := by
  obtain ⟨s', hrun, hmid, hev, hcl, _⟩ :=
    genStep_spec R HR (genFuel cols rows) (initGState cols rows) z
      (gpre_init hz)
      (le_trans (unvis_le cols rows _) (by unfold genFuel; omega))
  have hall : ∀ w, inBX cols rows w → VisC s'.m w = true :=
    all_visited (fun w hw => visC_init hw) hcl hmid.vis_z hz
  have hfull : visCount s' = cols * rows := visCount_full hall
  refine ⟨s', hrun, hmid, hall, hfull, ?_, ?_, fun w hw => hmid.conn w hw (hall w hw)⟩
  · -- marks = number of cells: marks = |ord|, and ord enumerates the visited cells
    have hcard : s'.ord.toFinset.card = s'.ord.length :=
      List.toFinset_card_of_nodup hmid.ord_nodup
    have hset : s'.ord.toFinset =
        Finset.image toZ (Finset.univ : Finset (Fin cols × Fin rows)) := by
      ext w
      rw [List.mem_toFinset, hmid.ord_iff w]
      constructor
      · rintro ⟨hiB, _⟩
        obtain ⟨v, hv⟩ := inBX_toZ hiB
        exact Finset.mem_image.mpr ⟨v, Finset.mem_univ v, hv⟩
      · intro h
        obtain ⟨v, _, hv⟩ := Finset.mem_image.mp h
        subst hv
        exact ⟨toZ_inB v, hall _ (toZ_inB v)⟩
    have himg : (Finset.image toZ
        (Finset.univ : Finset (Fin cols × Fin rows))).card = cols * rows := by
      rw [Finset.card_image_of_injective _ fun _ _ h => toZ_inj h]
      simp [Fintype.card_prod]
    rw [hmid.marks_eq, ← hcard, hset, himg]
  · have h1 := hmid.count_vis
    have h2 := hmid.count_pairs
    omega

/-! ### The passage graph as a `SimpleGraph` on the grid vertices -/

/-- The undirected graph of open passages between the cells of the grid. -/
def passGraph {cols rows : ℕ} (m : Maze cols rows) :
    SimpleGraph (Fin cols × Fin rows) where
  Adj v w := passAdj m (toZ v) (toZ w)
  symm := by
    intro v w h
    exact passAdj_symm h
  loopless := by
    intro v h
    obtain ⟨d, hb, _, _⟩ := h
    exact nbrOf_ne (toZ v) d hb.symm

theorem walk_last_edge {V : Type} {G : SimpleGraph V} {u x : V}
    (p : G.Walk x u) (hnil : ¬p.Nil) :
    ∃ b, G.Adj b u ∧ b ∈ p.support ∧ s(b, u) ∈ p.edges := by
  induction p with
  | nil => simp at hnil
  | @cons x1 y1 z1 h q ih =>
    cases q with
    | nil =>
      refine ⟨x1, h, ?_, ?_⟩ <;> simp
    | cons h2 q2 =>
      obtain ⟨b, hb1, hb2, hb3⟩ := ih SimpleGraph.Walk.not_nil_cons
      refine ⟨b, hb1, ?_, ?_⟩
      · rw [SimpleGraph.Walk.support_cons]
        exact List.mem_cons_of_mem _ hb2
      · rw [SimpleGraph.Walk.edges_cons]
        exact List.mem_cons_of_mem _ hb3

theorem no_cycle_at_max {cols rows : ℕ} {s : GState cols rows} {z : ℤ × ℤ}
    (hm : GMid s z) {u : Fin cols × Fin rows}
    (c : (passGraph s.m).Walk u u) (hc : c.IsCycle)
    (hmax : ∀ x ∈ c.support,
      s.ord.indexOf (toZ x) ≤ s.ord.indexOf (toZ u)) : False := by
  cases c with
  | nil => exact SimpleGraph.Walk.IsCycle.not_of_nil hc
  | cons h p =>
    rename_i a
    have h3 := hc.three_le_length
    rw [SimpleGraph.Walk.cons_isCycle_iff] at hc
    obtain ⟨hpath, hnotmem⟩ := hc
    have hpnil : ¬p.Nil := by
      rw [SimpleGraph.Walk.nil_iff_length_eq]
      rw [SimpleGraph.Walk.length_cons] at h3
      omega
    obtain ⟨b, hbu, hbsup, hbedge⟩ := walk_last_edge p hpnil
    have hab : a ≠ b := by
      rintro rfl
      rw [Sym2.eq_swap] at hbedge
      exact hnotmem hbedge
    have hasup : a ∈ (SimpleGraph.Walk.cons h p).support := by
      rw [SimpleGraph.Walk.support_cons]
      exact List.mem_cons_of_mem _ p.start_mem_support
    have hbsup2 : b ∈ (SimpleGraph.Walk.cons h p).support := by
      rw [SimpleGraph.Walk.support_cons]
      exact List.mem_cons_of_mem _ hbsup
    have hca : ((toZ a, toZ u) : (ℤ × ℤ) × (ℤ × ℤ)) ∈ s.carves := by
      rcases hm.edge_carve (toZ u) (toZ a) h with h1 | h1
      · exact absurd (hm.rank _ h1) (not_lt.mpr (hmax a hasup))
      · exact h1
    have hcb : ((toZ b, toZ u) : (ℤ × ℤ) × (ℤ × ℤ)) ∈ s.carves := by
      rcases hm.edge_carve (toZ b) (toZ u) hbu with h1 | h1
      · exact h1
      · exact absurd (hm.rank _ h1) (not_lt.mpr (hmax b hbsup2))
    have hEq := List.inj_on_of_nodup_map hm.child_nodup hca hcb rfl
    exact hab (toZ_inj (congrArg Prod.fst hEq))

theorem passGraph_acyclic {cols rows : ℕ} {s : GState cols rows} {z : ℤ × ℤ}
    (hm : GMid s z) : (passGraph s.m).IsAcyclic := by
  intro v c hc
  have hne : c.support.toFinset.Nonempty :=
    ⟨v, List.mem_toFinset.mpr c.start_mem_support⟩
  obtain ⟨u, hu, hmax⟩ := Finset.exists_max_image c.support.toFinset
    (fun x => s.ord.indexOf (toZ x)) hne
  rw [List.mem_toFinset] at hu
  refine no_cycle_at_max hm (c.rotate hu) (hc.rotate hu) ?_
  intro x hx
  refine hmax x (List.mem_toFinset.mpr ?_)
  rw [SimpleGraph.Walk.support_eq_cons] at hx
  rcases List.mem_cons.mp hx with h1 | h1
  · rw [h1]
    exact hu
  · have hrot := SimpleGraph.Walk.support_rotate c hu
    have hx2 : x ∈ c.support.tail := hrot.mem_iff.mp h1
    rw [SimpleGraph.Walk.support_eq_cons]
    exact List.mem_cons_of_mem _ hx2

theorem reachP_reachable {cols rows : ℕ} {m : Maze cols rows} {a b : ℤ × ℤ}
    (h : ReachP m a b) :
    ∀ v w : Fin cols × Fin rows, toZ v = a → toZ w = b →
      (passGraph m).Reachable v w := by
  induction h with
  | refl =>
    intro v w hv hw
    rw [← hw] at hv
    rw [toZ_inj hv]
  | tail _ hstep ih =>
    intro v w hv hw
    rename_i b1 c1 _
    have hbin : inBX cols rows b1 := (passAdj_inB hstep).1
    obtain ⟨u, hu⟩ := inBX_toZ hbin
    have r1 := ih v u hv hu
    have hadj : (passGraph m).Adj u w := by
      show passAdj m (toZ u) (toZ w)
      rw [hu, hw]
      exact hstep
    exact r1.trans hadj.reachable

theorem passGraph_connected {cols rows : ℕ} {s : GState cols rows}
    {z : ℤ × ℤ} (hm : GMid s z)
    (hall : ∀ w, inBX cols rows w → VisC s.m w = true) :
    (passGraph s.m).Connected := by
  have hz := hm.inB_z
  obtain ⟨z0, hz0⟩ := inBX_toZ hz
  have h1 : 0 < cols := by
    obtain ⟨h, _, _, _⟩ := hz
    omega
  have h2 : 0 < rows := by
    obtain ⟨_, _, _, h⟩ := hz
    omega
  haveI : Nonempty (Fin cols × Fin rows) := ⟨⟨⟨0, h1⟩, ⟨0, h2⟩⟩⟩
  refine ⟨fun v w => ?_⟩
  have rv := reachP_reachable (hm.conn (toZ v) (toZ_inB v) (hall _ (toZ_inB v)))
    z0 v hz0 rfl
  have rw2 := reachP_reachable (hm.conn (toZ w) (toZ_inB w) (hall _ (toZ_inB w)))
    z0 w hz0 rfl
  exact rv.symm.trans rw2

/-! ### A* preliminaries: bounded vector access, the frontier, distances -/

theorem walkable_nbr_inB {cols rows : ℕ} {m : Maze cols rows}
    (hb : BoundaryInv m) {z : ℤ × ℤ} {d : Fin 4}
    (hw : is_walkable m z.1 z.2 d = true) : inBX cols rows (nbrOf z d) := by
  have hz : inBX cols rows z := is_walkable_inB hw
  obtain ⟨v, hv⟩ := inBX_toZ hz
  by_contra hn
  have hwall := hb v d (by rw [hv]; exact hn)
  rw [hv] at hwall
  rw [is_walkable_iff] at hw
  rw [hw.2] at hwall
  exact Bool.noConfusion hwall

theorem vget_some {α : Type} {l : List α} {i : ℤ} (h0 : 0 ≤ i)
    (hlt : i.toNat < l.length) : ∃ a, vget l i = some a := by
  refine ⟨l.get ⟨i.toNat, hlt⟩, ?_⟩
  unfold vget
  rw [if_pos h0]
  exact List.get?_eq_get hlt

theorem vget_bounds {α : Type} {l : List α} {i : ℤ} {a : α}
    (h : vget l i = some a) : 0 ≤ i ∧ i.toNat < l.length := by
  unfold vget at h
  split at h
  · refine ⟨by assumption, ?_⟩
    exact (List.get?_eq_some.mp h).1
  · exact Option.noConfusion h

theorem vset_eq {α : Type} {l : List α} {i : ℤ} (a : α) (h0 : 0 ≤ i)
    (hlt : i.toNat < l.length) : vset l i a = some (l.set i.toNat a) := by
  unfold vset
  rw [if_pos ⟨h0, hlt⟩]

theorem vset_bounds {α : Type} {l l' : List α} {i : ℤ} {a : α}
    (h : vset l i a = some l') :
    0 ≤ i ∧ i.toNat < l.length ∧ l' = l.set i.toNat a := by
  unfold vset at h
  split at h
  · rename_i hc
    cases h
    exact ⟨hc.1, hc.2, rfl⟩
  · exact Option.noConfusion h

theorem vget_set_self {α : Type} {l : List α} {i : ℤ} (a : α) (h0 : 0 ≤ i)
    (hlt : i.toNat < l.length) : vget (l.set i.toNat a) i = some a := by
  unfold vget
  rw [if_pos h0, List.get?_eq_getElem?, List.getElem?_set_eq_of_lt _ hlt]

theorem vget_set_ne {α : Type} {l : List α} {i j : ℤ} (a : α) (h0 : 0 ≤ i)
    (hne : j ≠ i) : vget (l.set i.toNat a) j = vget l j := by
  unfold vget
  by_cases hj : 0 ≤ j
  · rw [if_pos hj, if_pos hj, List.get?_eq_getElem?, List.get?_eq_getElem?,
      List.getElem?_set_ne]
    omega
  · rw [if_neg hj, if_neg hj]

/-! ### The frontier pop -/

theorem popMin_none_iff (l : List Node) : popMin l = none ↔ l = [] := by
  cases l with
  | nil => simp [popMin]
  | cons n ns =>
    constructor
    · intro h
      unfold popMin at h
      rcases h2 : popMin ns with _ | ⟨mr⟩ <;> rw [h2] at h
      · exact Option.noConfusion h
      · dsimp at h
        split at h <;> exact Option.noConfusion h
    · intro h
      exact List.noConfusion h

theorem popMin_spec {l : List Node} {nd : Node} {rest : List Node}
    (h : popMin l = some (nd, rest)) :
    ∃ l1 l2, l = l1 ++ nd :: l2 ∧ rest = l1 ++ l2 ∧
      ∀ x ∈ l, nd.f_cost ≤ x.f_cost := by
  induction l generalizing nd rest with
  | nil => exact Option.noConfusion h
  | cons n ns ih =>
    unfold popMin at h
    rcases h2 : popMin ns with _ | ⟨m, rest2⟩ <;> rw [h2] at h
    · have hns : ns = [] := (popMin_none_iff ns).mp h2
      dsimp at h
      cases h
      refine ⟨[], [], by simp [hns], rfl, ?_⟩
      intro x hx
      rw [hns] at hx
      rcases List.mem_singleton.mp hx with h4
      rw [h4]
    · dsimp at h
      obtain ⟨m1, m2, hm1, hm2, hmin⟩ := ih h2
      split at h
      · rename_i hguard
        cases h
        refine ⟨[], ns, rfl, rfl, ?_⟩
        intro x hx
        rcases List.mem_cons.mp hx with h4 | h4
        · rw [h4]
        · exact le_trans hguard (hmin x h4)
      · rename_i hguard
        push_neg at hguard
        cases h
        refine ⟨n :: m1, m2, by simp [hm1], by simp [hm2], ?_⟩
        intro x hx
        rcases List.mem_cons.mp hx with h4 | h4
        · rw [h4]
          exact le_of_lt hguard
        · exact hmin x h4

theorem popMin_mem {l : List Node} {nd : Node} {rest : List Node}
    (h : popMin l = some (nd, rest)) : nd ∈ l := by
  obtain ⟨l1, l2, h1, _, _⟩ := popMin_spec h
  rw [h1]
  exact List.mem_append_right _ (List.mem_cons_self _ _)

theorem popMin_rest_sub {l : List Node} {nd : Node} {rest : List Node}
    (h : popMin l = some (nd, rest)) : ∀ x ∈ rest, x ∈ l := by
  obtain ⟨l1, l2, h1, h2, _⟩ := popMin_spec h
  intro x hx
  rw [h2] at hx
  rw [h1]
  rcases List.mem_append.mp hx with h3 | h3
  · exact List.mem_append_left _ h3
  · exact List.mem_append_right _ (List.mem_cons_of_mem _ h3)

theorem popMin_length {l : List Node} {nd : Node} {rest : List Node}
    (h : popMin l = some (nd, rest)) : rest.length + 1 = l.length := by
  obtain ⟨l1, l2, h1, h2, _⟩ := popMin_spec h
  rw [h1, h2]
  simp
  omega

/-! ### The back-pointer map -/

theorem cfLookup_insert_self (cf : List (ℤ × (ℤ × ℤ))) (k : ℤ) (v : ℤ × ℤ) :
    cfLookup (cfInsert cf k v) k = some v := by
  unfold cfLookup cfInsert
  rw [List.find?_cons_of_pos _ (by simp)]
  rfl

theorem cfLookup_insert_ne (cf : List (ℤ × (ℤ × ℤ))) {k k' : ℤ} (v : ℤ × ℤ)
    (hne : k' ≠ k) : cfLookup (cfInsert cf k v) k' = cfLookup cf k' := by
  unfold cfLookup cfInsert
  rw [List.find?_cons_of_neg _ (by simpa using fun h => hne h.symm)]

/-! ### Walk splitting and the distance bound -/

theorem ReachN.split {cols rows : ℕ} {m : Maze cols rows} {D : ℕ}
    {a c : ℤ × ℤ} (h : ReachN m D a c) :
    ∀ j ≤ D, ∃ b, ReachN m j a b ∧ ReachN m (D - j) b c := by
  induction h with
  | refl a =>
    intro j hj
    have hj0 : j = 0 := Nat.le_zero.mp hj
    subst hj0
    exact ⟨a, .refl a, .refl a⟩
  | step hab hbc ih =>
    intro j hj
    cases j with
    | zero => exact ⟨_, .refl _, .step hab hbc⟩
    | succ j2 =>
      obtain ⟨b, hr1, hr2⟩ := ih j2 (by omega)
      refine ⟨b, .step hab hr1, ?_⟩
      rwa [Nat.succ_sub_succ]

theorem ReachN.inB_right {cols rows : ℕ} {m : Maze cols rows}
    (hb : BoundaryInv m) {D : ℕ} {a z : ℤ × ℤ} (h : ReachN m D a z)
    (ha : inBX cols rows a) : inBX cols rows z := by
  induction h with
  | refl a => exact ha
  | step hab _ ih =>
    rename_i a1 b1 c1 n1
    obtain ⟨d, hwd, hbd⟩ := hab
    subst hbd
    exact ih (walkable_nbr_inB hb hwd)

theorem dist_le_card {cols rows : ℕ} {m : Maze cols rows}
    (hb : BoundaryInv m) {z : ℤ × ℤ} {D : ℕ}
    (h0 : 0 < cols) (h0r : 0 < rows)
    (hD : IsDist m (0, 0) z D) : D + 1 ≤ cols * rows := by
  classical
  have hstart : inBX cols rows ((0, 0) : ℤ × ℤ) := by
    refine ⟨le_refl 0, ?_, le_refl 0, ?_⟩ <;> simpa using by omega
  have hpick : ∀ j : Fin (D + 1), ∃ v : Fin cols × Fin rows,
      IsDist m (0, 0) (toZ v) (j : ℕ) := by
    intro j
    obtain ⟨w, h1, h2⟩ := hD.1.split (j : ℕ) (by omega)
    have hdw : IsDist m (0, 0) w (j : ℕ) := by
      refine ⟨h1, ?_⟩
      intro k hk
      by_contra hlt
      push_neg at hlt
      have := hD.2 (k + (D - (j : ℕ))) (hk.append h2)
      omega
    have hwB : inBX cols rows w := h1.inB_right hb hstart
    obtain ⟨v, hv⟩ := inBX_toZ hwB
    exact ⟨v, by rw [hv]; exact hdw⟩
  choose f hf using hpick
  have hinj : Function.Injective f := by
    intro i j hij
    have h1 := hf i
    have h2 := hf j
    rw [hij] at h1
    exact Fin.ext (isDist_unique h1 h2)
  have hcard := Fintype.card_le_of_injective f hinj
  simpa [Fintype.card_prod] using hcard

/-! ### The A* loop invariant -/

theorem INT_MAX_pos : (0 : ℤ) < INT_MAX := by
  unfold INT_MAX
  omega

theorem start_inB {cols rows : ℕ} (h0 : 0 < cols) (h0r : 0 < rows) :
    inBX cols rows ((0, 0) : ℤ × ℤ) := by
  refine ⟨le_refl 0, ?_, le_refl 0, ?_⟩ <;> exact_mod_cast by omega

theorem goal_inB {cols rows : ℕ} (h0 : 0 < cols) (h0r : 0 < rows) :
    inBX cols rows (((cols : ℤ) - 1, (rows : ℤ) - 1) : ℤ × ℤ) := by
  have h1 : (1 : ℤ) ≤ (cols : ℤ) := by exact_mod_cast h0
  have h2 : (1 : ℤ) ≤ (rows : ℤ) := by exact_mod_cast h0r
  exact ⟨by omega, by omega, by omega, by omega⟩

/-- The invariant maintained by every full state of the `a_star` main loop.
`m` is the searched maze; the start is `(0,0)`. -/
structure AInv {cols rows : ℕ} (m : Maze cols rows) (s : AState cols rows) :
    Prop where
  maze_eq : s.maze = m
  glen : s.g_cost.length = cols * rows
  vlen : s.visited.length = cols * rows
  gB : ∀ z : ℤ × ℤ, inBX cols rows z →
    ∀ gz, vget s.g_cost (index cols z.1 z.2) = some gz →
      gz = INT_MAX ∨
        ∃ k : ℕ, ReachN m k (0, 0) z ∧ (k : ℤ) = gz ∧ gz < INT_MAX
  closed_dist : ∀ z : ℤ × ℤ, inBX cols rows z →
    vget s.visited (index cols z.1 z.2) = some true →
      ∃ D : ℕ, IsDist m (0, 0) z D ∧
        vget s.g_cost (index cols z.1 z.2) = some (D : ℤ)
  closed_nbr : ∀ z : ℤ × ℤ, inBX cols rows z →
    vget s.visited (index cols z.1 z.2) = some true → ∀ d : Fin 4,
      is_walkable m z.1 z.2 d = true → ∀ gz gw,
        vget s.g_cost (index cols z.1 z.2) = some gz →
        vget s.g_cost (index cols (nbrOf z d).1 (nbrOf z d).2) = some gw →
          gw ≤ gz + 1
  open_witness : ∀ z : ℤ × ℤ, inBX cols rows z →
    vget s.visited (index cols z.1 z.2) = some false →
      ∀ gz, vget s.g_cost (index cols z.1 z.2) = some gz → gz < INT_MAX →
        ∃ nd ∈ s.open_set, nd.x = z.1 ∧ nd.y = z.2 ∧ nd.g_cost = gz
  queue_ok : ∀ nd ∈ s.open_set, inBX cols rows ((nd.x, nd.y) : ℤ × ℤ) ∧
    nd.h_cost = heuristic cols rows nd.x nd.y ∧
    (∃ k : ℕ, ReachN m k (0, 0) (nd.x, nd.y) ∧ (k : ℤ) = nd.g_cost) ∧
    nd.g_cost < INT_MAX ∧
    (∀ gz, vget s.g_cost (index cols nd.x nd.y) = some gz → gz ≤ nd.g_cost)
  start_g : ∀ g0, vget s.g_cost (index cols 0 0) = some g0 → g0 ≤ 0
  goal_open :
    vget s.visited (index cols ((cols : ℤ) - 1) ((rows : ℤ) - 1)) = some false
  cf_none : cfLookup s.came_from (index cols 0 0) = none
  cf_some : ∀ z : ℤ × ℤ, inBX cols rows z → z ≠ (0, 0) →
    ∀ gz, vget s.g_cost (index cols z.1 z.2) = some gz → gz < INT_MAX →
      ∃ p, cfLookup s.came_from (index cols z.1 z.2) = some p
  cf_ok : ∀ (w p : ℤ × ℤ), inBX cols rows w →
    cfLookup s.came_from (index cols w.1 w.2) = some p →
      inBX cols rows p ∧ AdjW m p w ∧
      vget s.visited (index cols p.1 p.2) = some true ∧
      ∃ gw gp, vget s.g_cost (index cols w.1 w.2) = some gw ∧
        vget s.g_cost (index cols p.1 p.2) = some gp ∧ gp = gw - 1

theorem read_g {cols rows : ℕ} {m : Maze cols rows} {s : AState cols rows}
    (hI : AInv m s) {z : ℤ × ℤ} (hz : inBX cols rows z) :
    ∃ gz, vget s.g_cost (index cols z.1 z.2) = some gz :=
  vget_some (index_nonneg hz) (by rw [hI.glen]; exact index_toNat_lt hz)

theorem read_v {cols rows : ℕ} {m : Maze cols rows} {s : AState cols rows}
    (hI : AInv m s) {z : ℤ × ℤ} (hz : inBX cols rows z) :
    ∃ vz, vget s.visited (index cols z.1 z.2) = some vz :=
  vget_some (index_nonneg hz) (by rw [hI.vlen]; exact index_toNat_lt hz)

theorem index_zero (cols : ℕ) : index cols 0 0 = 0 := by
  unfold index
  ring

theorem vget_replicate {α : Type} (a : α) {n : ℕ} {i : ℤ} (h0 : 0 ≤ i)
    (h : i.toNat < n) : vget (List.replicate n a) i = some a := by
  unfold vget
  rw [if_pos h0, List.get?_eq_getElem?]
  simp [List.getElem?_replicate, h]

theorem AInv_init {cols rows : ℕ} (m : Maze cols rows) (h0 : 0 < cols)
    (h0r : 0 < rows) : AInv m (initAState m) := by
  have hsB := start_inB h0 h0r
  have hgB := goal_inB h0 h0r
  have hidx0 : (index cols 0 0).toNat = 0 := by rw [index_zero]; rfl
  have hlen0 : (List.replicate (cols * rows) INT_MAX).length = cols * rows :=
    List.length_replicate _ _
  have hnpos : 0 < cols * rows := Nat.mul_pos h0 h0r
  have hg0 : vget (initAState m).g_cost (index cols 0 0) = some 0 := by
    show vget ((List.replicate (cols * rows) INT_MAX).set
      (index cols 0 0).toNat 0) (index cols 0 0) = some 0
    exact vget_set_self 0 (index_nonneg hsB) (by rw [hlen0]; rw [hidx0]; omega)
  have hgother : ∀ z : ℤ × ℤ, inBX cols rows z → z ≠ (0, 0) →
      vget (initAState m).g_cost (index cols z.1 z.2) = some INT_MAX := by
    intro z hz hne
    show vget ((List.replicate (cols * rows) INT_MAX).set
      (index cols 0 0).toNat 0) (index cols z.1 z.2) = some INT_MAX
    rw [vget_set_ne 0 (index_nonneg hsB), vget_replicate _ (index_nonneg hz)
      (index_toNat_lt hz)]
    intro hc
    obtain ⟨h1, h2⟩ := index_inj hz hsB hc
    exact hne (Prod.ext h1 h2)
  have hvread : ∀ z : ℤ × ℤ, inBX cols rows z →
      vget (initAState m).visited (index cols z.1 z.2) = some false := by
    intro z hz
    exact vget_replicate _ (index_nonneg hz) (index_toNat_lt hz)
  have hgdet : ∀ z : ℤ × ℤ, inBX cols rows z → ∀ gz,
      vget (initAState m).g_cost (index cols z.1 z.2) = some gz →
      (z = (0, 0) ∧ gz = 0) ∨ (z ≠ (0, 0) ∧ gz = INT_MAX) := by
    intro z hz gz hgz
    by_cases hzs : z = (0, 0)
    · subst hzs
      rw [hg0] at hgz
      exact Or.inl ⟨rfl, (Option.some.inj hgz).symm⟩
    · rw [hgother z hz hzs] at hgz
      exact Or.inr ⟨hzs, (Option.some.inj hgz).symm⟩
  refine ⟨rfl, by simp [initAState], by simp [initAState], ?_, ?_, ?_, ?_, ?_,
    ?_, ?_, ?_, ?_, ?_⟩
  · intro z hz gz hgz
    rcases hgdet z hz gz hgz with ⟨hzs, hgz0⟩ | ⟨_, hgzM⟩
    · subst hzs
      exact Or.inr ⟨0, ReachN.refl _, by simp [hgz0], by rw [hgz0]; exact INT_MAX_pos⟩
    · exact Or.inl hgzM
  · intro z hz hvis
    rw [hvread z hz] at hvis
    exact Bool.noConfusion (Option.some.inj hvis)
  · intro z hz hvis
    rw [hvread z hz] at hvis
    exact Bool.noConfusion (Option.some.inj hvis)
  · intro z hz _ gz hgz hlt
    rcases hgdet z hz gz hgz with ⟨hzs, hgz0⟩ | ⟨_, hgzM⟩
    · subst hzs
      refine ⟨⟨0, 0, 0, heuristic cols rows 0 0⟩, List.mem_singleton.mpr rfl,
        rfl, rfl, by rw [hgz0]⟩
    · rw [hgzM] at hlt
      exact absurd hlt (lt_irrefl _)
  · intro nd hnd
    rw [List.mem_singleton.mp hnd]
    refine ⟨hsB, rfl, ⟨0, ReachN.refl _, rfl⟩, INT_MAX_pos, ?_⟩
    intro gz hgz
    rw [hg0] at hgz
    rw [← Option.some.inj hgz]
  · intro g0 hgz
    rw [hg0] at hgz
    rw [← Option.some.inj hgz]
  · exact hvread _ hgB
  · show cfLookup [] (index cols 0 0) = none
    rfl
  · intro z hz hne gz hgz hlt
    rcases hgdet z hz gz hgz with ⟨hzs, _⟩ | ⟨_, hgzM⟩
    · exact absurd hzs hne
    · rw [hgzM] at hlt
      exact absurd hlt (lt_irrefl _)
  · intro w p hw hlook
    exact Option.noConfusion hlook

theorem ReachN.snoc_inv {cols rows : ℕ} {m : Maze cols rows} {D : ℕ}
    {a c : ℤ × ℤ} (h : ReachN m (D + 1) a c) :
    ∃ b, ReachN m D a b ∧ AdjW m b c := by
  obtain ⟨b, h1, h2⟩ := h.split D (by omega)
  have hone : D + 1 - D = 1 := by omega
  rw [hone] at h2
  cases h2 with
  | step hadj h3 =>
    cases h3
    exact ⟨b, h1, hadj⟩

/-- The frontier covers the unvisited reachable cells: any walk of length `D`
from the start to an unvisited cell yields a frontier node whose `f_cost` is
at most `D` plus the heuristic of that cell. -/
theorem cover {cols rows : ℕ} {m : Maze cols rows} {s : AState cols rows}
    (hI : AInv m s) (hb : BoundaryInv m) (h0 : 0 < cols) (h0r : 0 < rows) :
    ∀ (D : ℕ) (z : ℤ × ℤ), ReachN m D (0, 0) z → ((D : ℤ) < INT_MAX) →
      vget s.visited (index cols z.1 z.2) = some false →
      ∃ nd ∈ s.open_set,
        nd.f_cost ≤ (D : ℤ) + heuristic cols rows z.1 z.2 := by
  intro D
  induction D with
  | zero =>
    intro z hz _ hunvis
    cases hz
    obtain ⟨g0, hg0⟩ := read_g hI (start_inB h0 h0r)
    have hle := hI.start_g g0 hg0
    have hg00 : g0 = 0 := by
      rcases hI.gB _ (start_inB h0 h0r) g0 hg0 with hM | ⟨k, _, hk, _⟩
      · rw [hM] at hle
        exact absurd (lt_of_lt_of_le INT_MAX_pos hle) (lt_irrefl 0)
      · omega
    obtain ⟨nd, hmem, hx, hy, hg⟩ := hI.open_witness _ (start_inB h0 h0r)
      hunvis g0 hg0 (by rw [hg00]; exact INT_MAX_pos)
    obtain ⟨_, hh, _, _, _⟩ := hI.queue_ok nd hmem
    refine ⟨nd, hmem, ?_⟩
    unfold Node.f_cost
    rw [hh, hx, hy, hg, hg00]
    simp
  | succ D ih =>
    intro z hz hlt hunvis
    obtain ⟨y, hwalk, hedge⟩ := hz.snoc_inv
    have hyB : inBX cols rows y := hwalk.inB_right hb (start_inB h0 h0r)
    have hzB : inBX cols rows z := by
      obtain ⟨d, hwd, hbd⟩ := hedge
      rw [hbd]
      exact walkable_nbr_inB hb hwd
    obtain ⟨vy, hvy⟩ := read_v hI hyB
    have hcast : ((D : ℤ)) < ((D : ℕ) + 1 : ℕ) := by push_cast; omega
    cases vy with
    | true =>
      obtain ⟨Dy, hDy, hgy⟩ := hI.closed_dist y hyB hvy
      have hDyD : Dy ≤ D := hDy.2 D hwalk
      obtain ⟨d, hwd, hbd⟩ := hedge
      obtain ⟨gz, hgz⟩ := read_g hI hzB
      have hbound : gz ≤ (Dy : ℤ) + 1 := by
        refine hI.closed_nbr y hyB hvy d hwd (Dy : ℤ) gz hgy ?_
        rw [← hbd]
        exact hgz
      have hgzlt : gz < INT_MAX := by
        have : (Dy : ℤ) ≤ (D : ℤ) := by exact_mod_cast hDyD
        push_cast at hlt
        omega
      obtain ⟨nd, hmem, hx, hy2, hg⟩ :=
        hI.open_witness z hzB hunvis gz hgz hgzlt
      obtain ⟨_, hh, _, _, _⟩ := hI.queue_ok nd hmem
      refine ⟨nd, hmem, ?_⟩
      unfold Node.f_cost
      rw [hh, hx, hy2, hg]
      have : (Dy : ℤ) ≤ (D : ℤ) := by exact_mod_cast hDyD
      push_cast
      omega
    | false =>
      obtain ⟨nd, hmem, hf⟩ := ih y hwalk (by push_cast at hlt ⊢; omega) hvy
      have hcons := heuristic_consistent (m := m) hedge
      refine ⟨nd, hmem, ?_⟩
      push_cast
      push_cast at hf
      omega

/-- When the loop pops an unvisited node, its `g_cost` and the stored
`g_cost` of its cell both equal the true distance from the start. -/
theorem pop_exact {cols rows : ℕ} {m : Maze cols rows} {s : AState cols rows}
    (hI : AInv m s) (hb : BoundaryInv m) (h0 : 0 < cols) (h0r : 0 < rows)
    {cur : Node} {rest : List Node}
    (hpop : popMin s.open_set = some (cur, rest))
    (hunvis : vget s.visited (index cols cur.x cur.y) = some false) :
    ∃ D : ℕ, IsDist m (0, 0) (cur.x, cur.y) D ∧ cur.g_cost = (D : ℤ) ∧
      vget s.g_cost (index cols cur.x cur.y) = some (D : ℤ) := by
  have hmem := popMin_mem hpop
  obtain ⟨_, _, _, _, hmin⟩ := popMin_spec hpop
  obtain ⟨hinB, hh, ⟨k, hkreach, hkg⟩, hglt, hgle⟩ := hI.queue_ok cur hmem
  obtain ⟨D, hD⟩ := exists_isDist ⟨k, hkreach⟩
  have hDk : D ≤ k := hD.2 k hkreach
  obtain ⟨gc, hgc⟩ := read_g hI hinB
  have hgcle : gc ≤ cur.g_cost := hgle gc hgc
  have hfst : ((cur.x, cur.y) : ℤ × ℤ).1 = cur.x := rfl
  have hsnd : ((cur.x, cur.y) : ℤ × ℤ).2 = cur.y := rfl
  have hgc_eq : gc = cur.g_cost := by
    rcases lt_or_eq_of_le hgcle with hltg | heq
    · exfalso
      obtain ⟨nd, hmem2, hx, hy, hg⟩ := hI.open_witness _ hinB hunvis gc hgc
        (lt_trans hltg hglt)
      obtain ⟨_, hh2, _, _, _⟩ := hI.queue_ok nd hmem2
      have hfle := hmin nd hmem2
      unfold Node.f_cost at hfle
      rw [hh2, hx, hy, hg, hh, hfst, hsnd] at hfle
      omega
    · exact heq
  have hkD : k = D := by
    by_contra hne
    have hDlt : D < k := lt_of_le_of_ne hDk (fun h => hne h.symm)
    obtain ⟨nd, hmem2, hf⟩ := cover hI hb h0 h0r D (cur.x, cur.y) hD.1
      (by have : (D : ℤ) ≤ (k : ℤ) := by exact_mod_cast hDk
          omega) hunvis
    have hfle := hmin nd hmem2
    unfold Node.f_cost at hfle hf
    rw [hh] at hfle
    rw [hfst, hsnd] at hf
    have hcast : (D : ℤ) < (k : ℤ) := by exact_mod_cast hDlt
    omega
  refine ⟨D, hD, ?_, ?_⟩
  · rw [← hkg, hkD]
  · rw [hgc_eq] at hgc
    rw [← hkg, hkD] at hgc
    exact hgc

theorem popMin_mem_rest {l : List Node} {nd x : Node} {rest : List Node}
    (h : popMin l = some (nd, rest)) (hx : x ∈ l) (hne : x ≠ nd) :
    x ∈ rest := by
  obtain ⟨l1, l2, h1, h2, _⟩ := popMin_spec h
  rw [h1] at hx
  rw [h2]
  rcases List.mem_append.mp hx with h3 | h3
  · exact List.mem_append_left _ h3
  · rcases List.mem_cons.mp h3 with h4 | h4
    · exact absurd h4 hne
    · exact List.mem_append_right _ h4

/-- Popping a node of an already-closed cell preserves the invariant. -/
theorem skip_ainv {cols rows : ℕ} {m : Maze cols rows} {s : AState cols rows}
    (hI : AInv m s) {cur : Node} {rest : List Node}
    (hpop : popMin s.open_set = some (cur, rest))
    (hvisT : vget s.visited (index cols cur.x cur.y) = some true) :
    AInv m { s with open_set := rest } := by
  refine ⟨hI.maze_eq, hI.glen, hI.vlen, hI.gB, hI.closed_dist, hI.closed_nbr,
    ?_, ?_, hI.start_g, hI.goal_open, hI.cf_none, hI.cf_some, hI.cf_ok⟩
  · intro z hz hunvis gz hgz hlt
    obtain ⟨nd, hmem, hx, hy, hg⟩ := hI.open_witness z hz hunvis gz hgz hlt
    refine ⟨nd, ?_, hx, hy, hg⟩
    refine popMin_mem_rest hpop hmem ?_
    intro hcontra
    rw [hcontra] at hx hy
    have hzeq : z = ((cur.x, cur.y) : ℤ × ℤ) := Prod.ext hx.symm hy.symm
    rw [hzeq] at hunvis
    rw [hunvis] at hvisT
    exact Bool.noConfusion (Option.some.inj hvisT)
  · intro nd hnd
    exact hI.queue_ok nd (popMin_rest_sub hpop nd hnd)

/-- Mid-expansion invariant: the cell `curp` (at true distance `D` from the
start) has just been closed, and its neighbour relaxations are running. -/
structure RInv {cols rows : ℕ} (m : Maze cols rows) (curp : ℤ × ℤ) (D : ℕ)
    (s : AState cols rows) : Prop where
  maze_eq : s.maze = m
  glen : s.g_cost.length = cols * rows
  vlen : s.visited.length = cols * rows
  gB : ∀ z : ℤ × ℤ, inBX cols rows z →
    ∀ gz, vget s.g_cost (index cols z.1 z.2) = some gz →
      gz = INT_MAX ∨
        ∃ k : ℕ, ReachN m k (0, 0) z ∧ (k : ℤ) = gz ∧ gz < INT_MAX
  closed_dist : ∀ z : ℤ × ℤ, inBX cols rows z →
    vget s.visited (index cols z.1 z.2) = some true →
      ∃ Dz : ℕ, IsDist m (0, 0) z Dz ∧
        vget s.g_cost (index cols z.1 z.2) = some (Dz : ℤ)
  closed_nbr : ∀ z : ℤ × ℤ, inBX cols rows z →
    vget s.visited (index cols z.1 z.2) = some true → z ≠ curp → ∀ d : Fin 4,
      is_walkable m z.1 z.2 d = true → ∀ gz gw,
        vget s.g_cost (index cols z.1 z.2) = some gz →
        vget s.g_cost (index cols (nbrOf z d).1 (nbrOf z d).2) = some gw →
          gw ≤ gz + 1
  open_witness : ∀ z : ℤ × ℤ, inBX cols rows z →
    vget s.visited (index cols z.1 z.2) = some false →
      ∀ gz, vget s.g_cost (index cols z.1 z.2) = some gz → gz < INT_MAX →
        ∃ nd ∈ s.open_set, nd.x = z.1 ∧ nd.y = z.2 ∧ nd.g_cost = gz
  queue_ok : ∀ nd ∈ s.open_set, inBX cols rows ((nd.x, nd.y) : ℤ × ℤ) ∧
    nd.h_cost = heuristic cols rows nd.x nd.y ∧
    (∃ k : ℕ, ReachN m k (0, 0) (nd.x, nd.y) ∧ (k : ℤ) = nd.g_cost) ∧
    nd.g_cost < INT_MAX ∧
    (∀ gz, vget s.g_cost (index cols nd.x nd.y) = some gz → gz ≤ nd.g_cost)
  start_g : ∀ g0, vget s.g_cost (index cols 0 0) = some g0 → g0 ≤ 0
  goal_open :
    vget s.visited (index cols ((cols : ℤ) - 1) ((rows : ℤ) - 1)) = some false
  cf_none : cfLookup s.came_from (index cols 0 0) = none
  cf_some : ∀ z : ℤ × ℤ, inBX cols rows z → z ≠ (0, 0) →
    ∀ gz, vget s.g_cost (index cols z.1 z.2) = some gz → gz < INT_MAX →
      ∃ p, cfLookup s.came_from (index cols z.1 z.2) = some p
  cf_ok : ∀ (w p : ℤ × ℤ), inBX cols rows w →
    cfLookup s.came_from (index cols w.1 w.2) = some p →
      inBX cols rows p ∧ AdjW m p w ∧
      vget s.visited (index cols p.1 p.2) = some true ∧
      ∃ gw gp, vget s.g_cost (index cols w.1 w.2) = some gw ∧
        vget s.g_cost (index cols p.1 p.2) = some gp ∧ gp = gw - 1
  cur_inB : inBX cols rows curp
  cur_closed : vget s.visited (index cols curp.1 curp.2) = some true
  cur_g : vget s.g_cost (index cols curp.1 curp.2) = some (D : ℤ)
  cur_dist : IsDist m (0, 0) curp D

/-- The neighbour of `curp` in direction `d` has been relaxed. -/
def Bound {cols rows : ℕ} (m : Maze cols rows) (curp : ℤ × ℤ) (D : ℕ)
    (s : AState cols rows) (d : Fin 4) : Prop :=
  is_walkable m curp.1 curp.2 d = true →
    ∀ gw, vget s.g_cost
        (index cols (nbrOf curp d).1 (nbrOf curp d).2) = some gw →
      gw ≤ (D : ℤ) + 1

/-- Closing the cell of a freshly popped, unvisited, non-goal node
establishes the mid-expansion invariant. -/
theorem mark_rinv {cols rows : ℕ} {m : Maze cols rows} {s : AState cols rows}
    (hI : AInv m s) (hb : BoundaryInv m) (h0 : 0 < cols) (h0r : 0 < rows)
    {cur : Node} {rest : List Node} {v' : List Bool}
    (hpop : popMin s.open_set = some (cur, rest))
    (hvisF : vget s.visited (index cols cur.x cur.y) = some false)
    (hv' : vset s.visited (index cols cur.x cur.y) true = some v')
    (hgoal : ¬(cur.x = (cols : ℤ) - 1 ∧ cur.y = (rows : ℤ) - 1)) :
    ∃ D : ℕ, cur.g_cost = (D : ℤ) ∧
      RInv m (cur.x, cur.y) D
        { { s with open_set := rest } with visited := v' } := by
  obtain ⟨D, hD, hcg, hgc⟩ := pop_exact hI hb h0 h0r hpop hvisF
  have hinB : inBX cols rows ((cur.x, cur.y) : ℤ × ℤ) :=
    (hI.queue_ok cur (popMin_mem hpop)).1
  obtain ⟨hi0, hilt, hv'eq⟩ := vset_bounds hv'
  have hvread : ∀ z : ℤ × ℤ, inBX cols rows z →
      vget v' (index cols z.1 z.2) =
        (if z = ((cur.x, cur.y) : ℤ × ℤ) then some true
          else vget s.visited (index cols z.1 z.2)) := by
    intro z hz
    rw [hv'eq]
    by_cases hze : z = ((cur.x, cur.y) : ℤ × ℤ)
    · rw [if_pos hze, hze]
      exact vget_set_self true hi0 hilt
    · rw [if_neg hze]
      refine vget_set_ne true hi0 ?_
      intro hc
      obtain ⟨h1, h2⟩ := index_inj hz hinB hc
      exact hze (Prod.ext h1 h2)
  refine ⟨D, hcg, ?_⟩
  refine ⟨hI.maze_eq, hI.glen, ?_, hI.gB, ?_, ?_, ?_, ?_, hI.start_g, ?_,
    hI.cf_none, hI.cf_some, ?_, hinB, ?_, hgc, hD⟩
  · show v'.length = cols * rows
    rw [hv'eq, List.length_set]
    exact hI.vlen
  · -- closed_dist
    intro z hz hvis
    rw [hvread z hz] at hvis
    by_cases hze : z = ((cur.x, cur.y) : ℤ × ℤ)
    · subst hze
      exact ⟨D, hD, hgc⟩
    · rw [if_neg hze] at hvis
      exact hI.closed_dist z hz hvis
  · -- closed_nbr away from curp
    intro z hz hvis hzne d hw gz gw hgz hgw
    rw [hvread z hz, if_neg hzne] at hvis
    exact hI.closed_nbr z hz hvis d hw gz gw hgz hgw
  · -- open_witness
    intro z hz hvis gz hgz hlt
    rw [hvread z hz] at hvis
    by_cases hze : z = ((cur.x, cur.y) : ℤ × ℤ)
    · rw [if_pos hze] at hvis
      exact Bool.noConfusion (Option.some.inj hvis)
    · rw [if_neg hze] at hvis
      obtain ⟨nd, hmem, hx, hy, hg⟩ := hI.open_witness z hz hvis gz hgz hlt
      refine ⟨nd, ?_, hx, hy, hg⟩
      refine popMin_mem_rest hpop hmem ?_
      intro hcontra
      rw [hcontra] at hx hy
      exact hze (Prod.ext hx.symm hy.symm)
  · -- queue_ok
    intro nd hnd
    exact hI.queue_ok nd (popMin_rest_sub hpop nd hnd)
  · -- goal_open
    show vget v' (index cols ((cols : ℤ) - 1) ((rows : ℤ) - 1)) = some false
    have hgB := goal_inB h0 h0r
    have := hvread (((cols : ℤ) - 1, (rows : ℤ) - 1) : ℤ × ℤ) hgB
    rw [this, if_neg ?_]
    · exact hI.goal_open
    · intro hc
      have h1 : (cols : ℤ) - 1 = cur.x := congrArg Prod.fst hc
      have h2 : (rows : ℤ) - 1 = cur.y := congrArg Prod.snd hc
      exact hgoal ⟨h1.symm, h2.symm⟩
  · -- cf_ok
    intro w p hw hlook
    obtain ⟨hp, hadj, hpc, hgs⟩ := hI.cf_ok w p hw hlook
    refine ⟨hp, hadj, ?_, hgs⟩
    rw [hvread p hp]
    by_cases hze : p = ((cur.x, cur.y) : ℤ × ℤ)
    · rw [if_pos hze]
    · rw [if_neg hze]
      exact hpc
  · -- cur_closed
    show vget v' (index cols cur.x cur.y) = some true
    have := hvread ((cur.x, cur.y) : ℤ × ℤ) hinB
    rw [this, if_pos rfl]

/-- One neighbour relaxation: it never hits an out-of-range access, keeps
the mid-expansion invariant, establishes the relaxation bound for its own
direction and preserves previously established bounds. -/
theorem relaxDir_spec {cols rows : ℕ} {m : Maze cols rows} {curp : ℤ × ℤ}
    {D : ℕ} {cur : Node} (d : Fin 4) {t : AState cols rows}
    (hb : BoundaryInv m) (h0 : 0 < cols) (h0r : 0 < rows)
    (hR : RInv m curp D t)
    (hcx : cur.x = curp.1) (hcy : cur.y = curp.2) (hcg : cur.g_cost = (D : ℤ)) :
    ∃ t', relaxDir cur d t = some t' ∧ RInv m curp D t' ∧
      Bound m curp D t' d ∧
      (∀ e : Fin 4, Bound m curp D t e → Bound m curp D t' e) ∧
      (∃ extra, t'.open_set = t.open_set ++ extra ∧ extra.length ≤ 1) ∧
      t'.visited = t.visited := by
  have hcur : ((cur.x, cur.y) : ℤ × ℤ) = curp := Prod.ext hcx hcy
  have hguard : is_walkable t.maze cur.x cur.y d =
      is_walkable m curp.1 curp.2 d := by
    rw [hR.maze_eq, hcx, hcy]
  cases hwk : is_walkable m curp.1 curp.2 d with
  | false =>
    refine ⟨t, ?_, hR, ?_, fun e he => he, ⟨[], by simp, by simp⟩, rfl⟩
    · unfold relaxDir
      dsimp only
      rw [hguard, hwk, if_pos rfl]
    · intro hcontra
      rw [hwk] at hcontra
      exact Bool.noConfusion hcontra
  | true =>
    have hwB : inBX cols rows (nbrOf curp d) := walkable_nbr_inB hb hwk
    have hWc : nbrOf curp d ≠ curp := nbrOf_ne curp d
    obtain ⟨gn, hgn⟩ : ∃ gn, vget t.g_cost
        (index cols (nbrOf curp d).1 (nbrOf curp d).2) = some gn :=
      vget_some (index_nonneg hwB) (by rw [hR.glen]; exact index_toNat_lt hwB)
    by_cases hlt : cur.g_cost + 1 < gn
    case neg =>
      refine ⟨t, ?_, hR, ?_, fun e he => he, ⟨[], by simp, by simp⟩, rfl⟩
      · unfold relaxDir
        dsimp only
        rw [hguard, hwk, if_neg (fun h => Bool.noConfusion h), hcur, hgn]
        dsimp only
        rw [if_neg hlt]
      · intro _ gw hgw
        rw [hgn] at hgw
        have hgweq : gw = gn := (Option.some.inj hgw).symm
        rw [hgweq, ← hcg]
        omega
    case pos =>
      have hsetlen : (index cols (nbrOf curp d).1 (nbrOf curp d).2).toNat <
          t.g_cost.length := by
        rw [hR.glen]
        exact index_toNat_lt hwB
      have hset := vset_eq (l := t.g_cost)
        (i := index cols (nbrOf curp d).1 (nbrOf curp d).2) (cur.g_cost + 1)
        (index_nonneg hwB) hsetlen
      have hreachW : ReachN m (D + 1) (0, 0) (nbrOf curp d) :=
        hR.cur_dist.1.snoc ⟨d, hwk, rfl⟩
      have hWunvis : vget t.visited
          (index cols (nbrOf curp d).1 (nbrOf curp d).2) = some false := by
        obtain ⟨vW, hvW⟩ : ∃ vW, vget t.visited
            (index cols (nbrOf curp d).1 (nbrOf curp d).2) = some vW :=
          vget_some (index_nonneg hwB)
            (by rw [hR.vlen]; exact index_toNat_lt hwB)
        cases vW with
        | false => exact hvW
        | true =>
          exfalso
          obtain ⟨Dw, hDw, hgw⟩ := hR.closed_dist _ hwB hvW
          rw [hgn] at hgw
          have hgneq : gn = (Dw : ℤ) := Option.some.inj hgw
          have hDle : Dw ≤ D + 1 := hDw.2 _ hreachW
          have : (Dw : ℤ) ≤ (D : ℤ) + 1 := by exact_mod_cast hDle
          rw [hgneq] at hlt
          rw [hcg] at hlt
          omega
      have hne_start : nbrOf curp d ≠ ((0, 0) : ℤ × ℤ) := by
        intro hc
        have hgn0 : vget t.g_cost (index cols 0 0) = some gn := by
          rw [← hgn, hc]
        have := hR.start_g gn hgn0
        rw [hcg] at hlt
        have hD0 : (0 : ℤ) ≤ (D : ℤ) := Int.ofNat_nonneg D
        omega
      have hnglt : cur.g_cost + 1 < INT_MAX := by
        rcases hR.gB _ hwB gn hgn with hM | ⟨k, _, _, hkM⟩
        · rw [hM] at hlt
          exact hlt
        · exact lt_trans hlt hkM
      have hgetW : vget (t.g_cost.set
          (index cols (nbrOf curp d).1 (nbrOf curp d).2).toNat
          (cur.g_cost + 1))
          (index cols (nbrOf curp d).1 (nbrOf curp d).2) =
          some (cur.g_cost + 1) :=
        vget_set_self _ (index_nonneg hwB) hsetlen
      have hgetO : ∀ z : ℤ × ℤ, inBX cols rows z → z ≠ nbrOf curp d →
          vget (t.g_cost.set
            (index cols (nbrOf curp d).1 (nbrOf curp d).2).toNat
            (cur.g_cost + 1)) (index cols z.1 z.2) =
          vget t.g_cost (index cols z.1 z.2) := by
        intro z hz hzne
        refine vget_set_ne _ (index_nonneg hwB) ?_
        intro hc
        obtain ⟨h1, h2⟩ := index_inj hz hwB hc
        exact hzne (Prod.ext h1 h2)
      have hkey_ne : ∀ z : ℤ × ℤ, inBX cols rows z → z ≠ nbrOf curp d →
          index cols z.1 z.2 ≠
            index cols (nbrOf curp d).1 (nbrOf curp d).2 := by
        intro z hz hzne hc
        obtain ⟨h1, h2⟩ := index_inj hz hwB hc
        exact hzne (Prod.ext h1 h2)
      refine ⟨{ t with
          g_cost := t.g_cost.set
            (index cols (nbrOf curp d).1 (nbrOf curp d).2).toNat
            (cur.g_cost + 1)
          came_from := cfInsert t.came_from
            (index cols (nbrOf curp d).1 (nbrOf curp d).2) curp
          open_set := t.open_set ++
            [⟨(nbrOf curp d).1, (nbrOf curp d).2, cur.g_cost + 1,
              heuristic cols rows (nbrOf curp d).1 (nbrOf curp d).2⟩] },
        ?_, ?_, ?_, ?_, ⟨_, rfl, by simp⟩, rfl⟩
      · unfold relaxDir
        dsimp only
        rw [hguard, hwk, if_neg (fun h => Bool.noConfusion h), hcur, hgn]
        dsimp only
        rw [if_pos hlt, hset]
      · -- RInv for the updated state
        refine ⟨hR.maze_eq, ?_, hR.vlen, ?_, ?_, ?_, ?_, ?_, ?_,
          hR.goal_open, ?_, ?_, ?_, hR.cur_inB, hR.cur_closed, ?_,
          hR.cur_dist⟩
        · -- glen
          show (t.g_cost.set _ _).length = cols * rows
          rw [List.length_set]
          exact hR.glen
        · -- gB
          intro z hz gz hgz
          by_cases hze : z = nbrOf curp d
          · subst hze
            rw [hgetW] at hgz
            have : gz = cur.g_cost + 1 := (Option.some.inj hgz).symm
            subst this
            refine Or.inr ⟨D + 1, hreachW, ?_, hnglt⟩
            rw [hcg]
            push_cast
            ring
          · rw [hgetO z hz hze] at hgz
            exact hR.gB z hz gz hgz
        · -- closed_dist
          intro z hz hvis
          by_cases hze : z = nbrOf curp d
          · subst hze
            rw [hWunvis] at hvis
            exact Bool.noConfusion (Option.some.inj hvis)
          · rw [hgetO z hz hze]
            exact hR.closed_dist z hz hvis
        · -- closed_nbr
          intro z hz hvis hzne d2 hw2 gz gw hgz hgw
          have hzW : z ≠ nbrOf curp d := by
            intro hc
            rw [hc, hWunvis] at hvis
            exact Bool.noConfusion (Option.some.inj hvis)
          rw [hgetO z hz hzW] at hgz
          by_cases hnbW : nbrOf z d2 = nbrOf curp d
          · rw [hnbW, hgetW] at hgw
            have hgweq : gw = cur.g_cost + 1 := (Option.some.inj hgw).symm
            obtain ⟨gn2, hgn2⟩ : ∃ gn2, vget t.g_cost
                (index cols (nbrOf z d2).1 (nbrOf z d2).2) = some gn2 := by
              rw [hnbW]
              exact ⟨gn, hgn⟩
            have hold := hR.closed_nbr z hz hvis hzne d2 hw2 gz gn2 hgz hgn2
            have hgn2n : gn2 = gn := by
              rw [hnbW] at hgn2
              rw [hgn] at hgn2
              exact (Option.some.inj hgn2).symm
            rw [hgweq]
            rw [hgn2n] at hold
            omega
          · rw [hgetO _ (walkable_nbr_inB hb hw2) hnbW] at hgw
            exact hR.closed_nbr z hz hvis hzne d2 hw2 gz gw hgz hgw
        · -- open_witness
          intro z hz hvis gz hgz hltM
          by_cases hze : z = nbrOf curp d
          · subst hze
            rw [hgetW] at hgz
            have hgzeq : gz = cur.g_cost + 1 := (Option.some.inj hgz).symm
            refine ⟨⟨(nbrOf curp d).1, (nbrOf curp d).2, cur.g_cost + 1,
              heuristic cols rows (nbrOf curp d).1 (nbrOf curp d).2⟩,
              ?_, rfl, rfl, hgzeq.symm⟩
            exact List.mem_append_right _ (List.mem_singleton.mpr rfl)
          · rw [hgetO z hz hze] at hgz
            obtain ⟨nd, hmem, hx, hy, hg⟩ :=
              hR.open_witness z hz hvis gz hgz hltM
            exact ⟨nd, List.mem_append_left _ hmem, hx, hy, hg⟩
        · -- queue_ok
          intro nd hnd
          rcases List.mem_append.mp hnd with hmem | hmem
          · obtain ⟨hiB, hh, hre, hltM, hgle⟩ := hR.queue_ok nd hmem
            refine ⟨hiB, hh, hre, hltM, ?_⟩
            intro gz hgz
            by_cases hze : ((nd.x, nd.y) : ℤ × ℤ) = nbrOf curp d
            · have hidx : index cols nd.x nd.y =
                  index cols (nbrOf curp d).1 (nbrOf curp d).2 := by
                rw [← hze]
              rw [hidx, hgetW] at hgz
              have hgzeq : gz = cur.g_cost + 1 := (Option.some.inj hgz).symm
              have hgnle : gn ≤ nd.g_cost := by
                refine hgle gn ?_
                rw [hidx]
                exact hgn
              rw [hgzeq]
              omega
            · have hidx := hkey_ne ((nd.x, nd.y) : ℤ × ℤ) hiB hze
              have : vget (t.g_cost.set
                  (index cols (nbrOf curp d).1 (nbrOf curp d).2).toNat
                  (cur.g_cost + 1)) (index cols nd.x nd.y) =
                  vget t.g_cost (index cols nd.x nd.y) :=
                vget_set_ne _ (index_nonneg hwB) hidx
              rw [this] at hgz
              exact hgle gz hgz
          · rw [List.mem_singleton.mp hmem]
            refine ⟨hwB, rfl, ⟨D + 1, hreachW, ?_⟩, hnglt, ?_⟩
            · rw [hcg]
              push_cast
              ring
            · intro gz hgz
              rw [hgetW] at hgz
              rw [← Option.some.inj hgz]
        · -- start_g
          intro g0 hg0
          have hsB := start_inB h0 h0r
          have := hgetO ((0, 0) : ℤ × ℤ) hsB (fun h => hne_start h.symm)
          rw [this] at hg0
          exact hR.start_g g0 hg0
        · -- cf_none
          have hsB := start_inB h0 h0r
          rw [cfLookup_insert_ne _ _
            (hkey_ne ((0, 0) : ℤ × ℤ) hsB (fun h => hne_start h.symm))]
          exact hR.cf_none
        · -- cf_some
          intro z hz hzs gz hgz hltM
          by_cases hze : z = nbrOf curp d
          · refine ⟨curp, ?_⟩
            have hidx : index cols z.1 z.2 =
                index cols (nbrOf curp d).1 (nbrOf curp d).2 := by rw [hze]
            rw [hidx]
            exact cfLookup_insert_self _ _ _
          · rw [cfLookup_insert_ne _ _ (hkey_ne z hz hze)]
            rw [hgetO z hz hze] at hgz
            exact hR.cf_some z hz hzs gz hgz hltM
        · -- cf_ok
          intro w p hw hlook
          by_cases hze : w = nbrOf curp d
          · have hidx : index cols w.1 w.2 =
                index cols (nbrOf curp d).1 (nbrOf curp d).2 := by rw [hze]
            rw [hidx, cfLookup_insert_self] at hlook
            have hpeq : p = curp := (Option.some.inj hlook).symm
            rw [hpeq]
            refine ⟨hR.cur_inB, ?_, hR.cur_closed, cur.g_cost + 1, (D : ℤ),
              ?_, ?_, ?_⟩
            · rw [hze]
              exact ⟨d, hwk, rfl⟩
            · rw [hidx]
              exact hgetW
            · rw [hgetO curp hR.cur_inB (fun h => hWc h.symm)]
              exact hR.cur_g
            · rw [hcg]
              ring
          · rw [cfLookup_insert_ne _ _ (hkey_ne w hw hze)] at hlook
            obtain ⟨hpB, hadj, hpcl, gw, gp, hgw, hgp, hrel⟩ :=
              hR.cf_ok w p hw hlook
            have hpW : p ≠ nbrOf curp d := by
              intro hc
              rw [hc, hWunvis] at hpcl
              exact Bool.noConfusion (Option.some.inj hpcl)
            refine ⟨hpB, hadj, hpcl, gw, gp, ?_, ?_, hrel⟩
            · rw [hgetO w hw hze]
              exact hgw
            · rw [hgetO p hpB hpW]
              exact hgp
        · -- cur_g
          rw [hgetO curp hR.cur_inB (fun h => hWc h.symm)]
          exact hR.cur_g
      · -- Bound for direction d
        intro _ gw hgw
        rw [hgetW] at hgw
        rw [← Option.some.inj hgw, hcg]
      · -- preservation of previously established bounds
        intro e he hwe gw hgw
        by_cases hze : nbrOf curp e = nbrOf curp d
        · rw [hze, hgetW] at hgw
          rw [← Option.some.inj hgw, hcg]
        · rw [hgetO _ (walkable_nbr_inB hb hwe) hze] at hgw
          exact he hwe gw hgw

/-- Folding the relaxation over a list of directions. -/
theorem foldRelax_spec {cols rows : ℕ} {m : Maze cols rows} {curp : ℤ × ℤ}
    {D : ℕ} {cur : Node}
    (hb : BoundaryInv m) (h0 : 0 < cols) (h0r : 0 < rows)
    (hcx : cur.x = curp.1) (hcy : cur.y = curp.2) (hcg : cur.g_cost = (D : ℤ)) :
    ∀ (ds : List (Fin 4)) (t : AState cols rows), RInv m curp D t →
      ∃ t', ds.foldl (fun os d => os.bind (relaxDir cur d)) (some t) =
          some t' ∧
        RInv m curp D t' ∧ (∀ d ∈ ds, Bound m curp D t' d) ∧
        (∀ e : Fin 4, Bound m curp D t e → Bound m curp D t' e) ∧
        (∃ extra, t'.open_set = t.open_set ++ extra ∧
          extra.length ≤ ds.length) ∧
        t'.visited = t.visited := by
  intro ds
  induction ds with
  | nil =>
    intro t hR
    exact ⟨t, rfl, hR, by simp, fun e he => he, ⟨[], by simp, by simp⟩, rfl⟩
  | cons d ds ih =>
    intro t hR
    obtain ⟨t1, h1, hR1, hB1, hP1, hext1, hv1⟩ :=
      relaxDir_spec d hb h0 h0r hR hcx hcy hcg
    obtain ⟨e1, he1, hl1⟩ := hext1
    obtain ⟨t2, h2, hR2, hB2, hP2, hext2, hv2⟩ := ih t1 hR1
    obtain ⟨e2, he2, hl2⟩ := hext2
    refine ⟨t2, ?_, hR2, ?_, fun e he => hP2 e (hP1 e he),
      ⟨e1 ++ e2, ?_, ?_⟩, by rw [hv2, hv1]⟩
    · rw [List.foldl_cons]
      show List.foldl _ (Option.bind (some t) (relaxDir cur d)) ds = some t2
      rw [Option.some_bind, h1]
      exact h2
    · intro e he
      rcases List.mem_cons.mp he with h3 | h3
      · rw [h3]
        exact hP2 d hB1
      · exact hB2 e h3
    · rw [he2, he1, List.append_assoc]
    · rw [List.length_append, List.length_cons]
      omega

/-- Once all four directions have been relaxed, the full loop invariant is
restored. -/
theorem rinv_ainv {cols rows : ℕ} {m : Maze cols rows} {curp : ℤ × ℤ}
    {D : ℕ} {s : AState cols rows} (hR : RInv m curp D s)
    (hall : ∀ d : Fin 4, Bound m curp D s d) : AInv m s := by
  refine ⟨hR.maze_eq, hR.glen, hR.vlen, hR.gB, hR.closed_dist, ?_,
    hR.open_witness, hR.queue_ok, hR.start_g, hR.goal_open, hR.cf_none,
    hR.cf_some, hR.cf_ok⟩
  intro z hz hvis d hw gz gw hgz hgw
  by_cases hze : z = curp
  · subst hze
    rw [hR.cur_g] at hgz
    have hgzD : (D : ℤ) = gz := Option.some.inj hgz
    have hbd := hall d hw gw hgw
    omega
  · exact hR.closed_nbr z hz hvis hze d hw gz gw hgz hgw

/-! ### Termination measure of the main loop -/

/-- The measure strictly decreased by every non-terminal loop iteration. -/
def measureA {cols rows : ℕ} (s : AState cols rows) : ℕ :=
  s.open_set.length + 5 * s.visited.count false

theorem count_set_true : ∀ (l : List Bool) (i : ℕ), l.get? i = some false →
    (l.set i true).count false + 1 = l.count false := by
  intro l
  induction l with
  | nil =>
    intro i h
    exact Option.noConfusion h
  | cons b tl ih =>
    intro i h
    cases i with
    | zero =>
      have hb : b = false := by simpa using h
      subst hb
      show ((true :: tl).count false) + 1 = (false :: tl).count false
      simp [List.count_cons]
    | succ j =>
      have h2 : tl.get? j = some false := by simpa using h
      have h3 := ih j h2
      show ((b :: tl.set j true).count false) + 1 = (b :: tl).count false
      rw [List.count_cons, List.count_cons]
      omega

/-! ### Path reconstruction -/

/-- Following the back pointers from any touched cell with `g_cost = D`
produces, within `D + 1` lookups, the reversed walk back to the start; the
resulting list is a duplicate-free forward walk from `(0,0)` to the cell. -/
theorem reconstruct_spec {cols rows : ℕ} {m : Maze cols rows}
    {s : AState cols rows} (hI : AInv m s) :
    ∀ (D : ℕ) (w : ℤ × ℤ), inBX cols rows w →
      vget s.g_cost (index cols w.1 w.2) = some (D : ℤ) → (D : ℤ) < INT_MAX →
      ∀ fuel : ℕ, D + 1 ≤ fuel → ∀ acc,
      ∃ l, reconstruct s.came_from cols fuel w acc = some (l ++ acc) ∧
        l.length = D + 1 ∧ l.head? = some ((0, 0) : ℤ × ℤ) ∧
        l.getLast? = some w ∧ List.Chain' (AdjW m) l ∧ l.Nodup ∧
        ∀ x ∈ l, inBX cols rows x ∧
          ∃ gx, vget s.g_cost (index cols x.1 x.2) = some gx ∧ gx ≤ (D : ℤ) := by
  intro D
  induction D with
  | zero =>
    intro w hw hg _ fuel hfuel acc
    have hw0 : w = ((0, 0) : ℤ × ℤ) := by
      rcases hI.gB w hw 0 hg with hM | ⟨k, hkreach, hk, _⟩
      · exfalso
        have := INT_MAX_pos
        omega
      · have hk0 : k = 0 := by exact_mod_cast hk
        subst hk0
        cases hkreach
        rfl
    subst hw0
    cases fuel with
    | zero => omega
    | succ f =>
      refine ⟨[((0, 0) : ℤ × ℤ)], ?_, rfl, rfl, rfl, List.chain'_singleton _,
        List.nodup_singleton _, ?_⟩
      · show reconstruct s.came_from cols (f + 1) (0, 0) acc =
          some ([((0, 0) : ℤ × ℤ)] ++ acc)
        unfold reconstruct
        have hnone : cfLookup s.came_from
            (index cols (((0 : ℤ), (0 : ℤ)) : ℤ × ℤ).1
              (((0 : ℤ), (0 : ℤ)) : ℤ × ℤ).2) = none := hI.cf_none
        rw [hnone]
        rfl
      · intro x hx
        rw [List.mem_singleton.mp hx]
        exact ⟨hw, 0, hg, by simp⟩
  | succ D ih =>
    intro w hw hg hlt fuel hfuel acc
    have hne : w ≠ ((0, 0) : ℤ × ℤ) := by
      intro hc
      subst hc
      have := hI.start_g _ hg
      push_cast at this
      omega
    obtain ⟨p, hlook⟩ := hI.cf_some w hw hne _ hg hlt
    obtain ⟨hpB, hadj, _, gw, gp, hgw, hgp, hrel⟩ := hI.cf_ok w p hw hlook
    have hgweq : gw = ((D + 1 : ℕ) : ℤ) := by
      rw [hg] at hgw
      exact (Option.some.inj hgw).symm
    have hgpD : gp = (D : ℤ) := by
      rw [hrel, hgweq]
      push_cast
      ring
    cases fuel with
    | zero => omega
    | succ f =>
      have hstep : reconstruct s.came_from cols (f + 1) w acc =
          reconstruct s.came_from cols f p (w :: acc) := by
        conv_lhs => rw [reconstruct]
        rw [hlook]
      rw [hgpD] at hgp
      obtain ⟨lp, hrec, hlen, hhead, hlast, hchain, hnodup, hmem⟩ :=
        ih p hpB hgp (by push_cast at hlt ⊢; omega) f (by omega) (w :: acc)
      have hDlt : (D : ℤ) < ((D + 1 : ℕ) : ℤ) := by push_cast; omega
      refine ⟨lp ++ [w], ?_, ?_, ?_, List.getLast?_concat _, ?_, ?_, ?_⟩
      · rw [hstep, hrec]
        rw [List.append_assoc]
        rfl
      · rw [List.length_append, hlen]
        simp
      · cases lp with
        | nil => exact absurd hlen (by simp)
        | cons a tl =>
          have ha : a = ((0, 0) : ℤ × ℤ) := Option.some.inj hhead
          rw [ha]
          rfl
      · rw [List.chain'_append]
        refine ⟨hchain, List.chain'_singleton _, ?_⟩
        intro x hx y hy
        rw [hlast] at hx
        have hx2 : p = x := Option.some.inj (Option.mem_def.mp hx)
        have hy2 : w = y := Option.some.inj (Option.mem_def.mp hy)
        rw [← hx2, ← hy2]
        exact hadj
      · rw [List.nodup_append]
        refine ⟨hnodup, List.nodup_singleton _, ?_⟩
        intro a ha hb
        rw [List.mem_singleton.mp hb] at ha
        obtain ⟨_, gx, hgx, hgxle⟩ := hmem w ha
        rw [hg] at hgx
        have : ((D + 1 : ℕ) : ℤ) = gx := Option.some.inj hgx
        push_cast at this hgxle
        omega
      · intro x hx
        rcases List.mem_append.mp hx with h3 | h3
        · obtain ⟨hxB, gx, hgx, hgxle⟩ := hmem x h3
          exact ⟨hxB, gx, hgx, le_trans hgxle (le_of_lt hDlt)⟩
        · rw [List.mem_singleton.mp h3]
          exact ⟨hw, _, hg, le_refl _⟩

/-! ### One loop iteration and the main loop -/

/-- What the program's returned path satisfies when the goal was found:
a duplicate-free walk from the start to the goal of shortest length. -/
def PathSpec {cols rows : ℕ} (m : Maze cols rows) (p : List (ℤ × ℤ)) : Prop :=
  ∃ D : ℕ, IsDist m (0, 0) ((cols : ℤ) - 1, (rows : ℤ) - 1) D ∧
    p.length = D + 1 ∧ p.head? = some ((0, 0) : ℤ × ℤ) ∧
    p.getLast? = some ((((cols : ℤ) - 1, (rows : ℤ) - 1)) : ℤ × ℤ) ∧
    List.Chain' (AdjW m) p ∧ p.Nodup

theorem vget_get? {α : Type} {l : List α} {i : ℤ} {a : α}
    (h : vget l i = some a) : l.get? i.toNat = some a := by
  unfold vget at h
  split at h
  · exact h
  · exact Option.noConfusion h

theorem astarStep_cases {cols rows : ℕ} {m : Maze cols rows}
    {s : AState cols rows} (hI : AInv m s) (hb : BoundaryInv m)
    (h0 : 0 < cols) (h0r : 0 < rows) :
    (∃ s', astarStep s = .next s' ∧ AInv m s' ∧ measureA s' < measureA s) ∨
    (astarStep s = .ret [] s ∧ s.open_set = []) ∨
    (∃ p s2, astarStep s = .ret p s2 ∧ PathSpec m p) := by
  rcases hpop : popMin s.open_set with _ | ⟨cur, rest⟩
  · refine Or.inr (Or.inl ⟨?_, (popMin_none_iff _).mp hpop⟩)
    unfold astarStep
    rw [hpop]
  · have hmem := popMin_mem hpop
    obtain ⟨hinB, hh, hre, hglt, hgle⟩ := hI.queue_ok cur hmem
    obtain ⟨vb, hvb0⟩ := read_v hI hinB
    have hvb : vget s.visited (index cols cur.x cur.y) = some vb := hvb0
    have hlenrest := popMin_length hpop
    cases vb with
    | true =>
      left
      refine ⟨{ s with open_set := rest }, ?_, skip_ainv hI hpop hvb, ?_⟩
      · unfold astarStep
        rw [hpop]
        dsimp only
        rw [hvb]
      · unfold measureA
        dsimp only
        omega
    | false =>
      have hsetlen : (index cols cur.x cur.y).toNat < s.visited.length := by
        rw [hI.vlen]
        exact index_toNat_lt hinB
      have hvset : vset s.visited (index cols cur.x cur.y) true =
          some (s.visited.set (index cols cur.x cur.y).toNat true) :=
        vset_eq true (index_nonneg hinB) hsetlen
      have hcount := count_set_true s.visited (index cols cur.x cur.y).toNat
        (vget_get? hvb)
      by_cases hgoal : cur.x = (cols : ℤ) - 1 ∧ cur.y = (rows : ℤ) - 1
      · right
        right
        obtain ⟨D, hD, hcg, hgc⟩ := pop_exact hI hb h0 h0r hpop hvb
        have hDlt : (D : ℤ) < INT_MAX := by
          rw [← hcg]
          exact hglt
        have hfuel : D + 1 ≤ cols * rows + 1 := by
          have := dist_le_card hb h0 h0r hD
          omega
        obtain ⟨l, hrec0, hlen, hhead, hlast, hchain, hnodup, _⟩ :=
          reconstruct_spec hI D (cur.x, cur.y) hinB hgc hDlt
            (cols * rows + 1) hfuel []
        rw [List.append_nil] at hrec0
        have hgp : ((cur.x, cur.y) : ℤ × ℤ) =
            (((cols : ℤ) - 1, (rows : ℤ) - 1) : ℤ × ℤ) :=
          Prod.ext hgoal.1 hgoal.2
        refine ⟨l, { { s with open_set := rest } with
          visited := s.visited.set (index cols cur.x cur.y).toNat true },
          ?_, ?_⟩
        · unfold astarStep
          rw [hpop]
          dsimp only
          rw [hvb]
          dsimp only
          rw [hvset]
          dsimp only
          rw [if_pos hgoal]
          have hrec : reconstruct s.came_from cols (cols * rows + 1)
              ((cur.x, cur.y) : ℤ × ℤ) [] = some l := hrec0
          rw [hrec]
        · rw [hgp] at hD hlast
          exact ⟨D, hD, hlen, hhead, hlast, hchain, hnodup⟩
      · left
        obtain ⟨D, hcg, hR⟩ := mark_rinv hI hb h0 h0r hpop hvb hvset hgoal
        obtain ⟨s3, hfold, hR3, hB3, _, ⟨extra, hext, hlext⟩, hvis3⟩ :=
          foldRelax_spec hb h0 h0r rfl rfl hcg dirList _ hR
        have hAI : AInv m s3 := rinv_ainv hR3 fun d => hB3 d (mem_dirList d)
        refine ⟨s3, ?_, hAI, ?_⟩
        · unfold astarStep
          rw [hpop]
          dsimp only
          rw [hvb]
          dsimp only
          rw [hvset]
          dsimp only
          rw [if_neg hgoal]
          have hexp : expandDirs cur
              { { s with open_set := rest } with
                visited := s.visited.set (index cols cur.x cur.y).toNat true }
              = some s3 := hfold
          rw [hexp]
        · unfold measureA
          rw [hext, hvis3]
          dsimp only
          rw [List.length_append]
          unfold dirList at hlext
          simp only [List.length_cons, List.length_nil] at hlext
          omega

theorem astarLoop_spec {cols rows : ℕ} {m : Maze cols rows}
    (hb : BoundaryInv m) (h0 : 0 < cols) (h0r : 0 < rows) :
    ∀ (fuel : ℕ) (s : AState cols rows), AInv m s → measureA s < fuel →
      ∃ p s', astarLoop fuel s = .found p s' ∧
        ((p = [] ∧ s'.open_set = [] ∧ AInv m s') ∨ PathSpec m p) := by
  intro fuel
  induction fuel with
  | zero =>
    intro s _ h
    omega
  | succ f ih =>
    intro s hI hfuel
    rcases astarStep_cases hI hb h0 h0r with ⟨s', hstep, hI2, hm2⟩ |
      ⟨hstep, hempty⟩ | ⟨p, s2, hstep, hps⟩
    · have hloop : astarLoop (f + 1) s = astarLoop f s' := by
        conv_lhs => rw [astarLoop]
        rw [hstep]
      rw [hloop]
      exact ih s' hI2 (by omega)
    · refine ⟨[], s, ?_, Or.inl ⟨rfl, hempty, hI⟩⟩
      conv_lhs => rw [astarLoop]
      rw [hstep]
    · refine ⟨p, s2, ?_, Or.inr hps⟩
      conv_lhs => rw [astarLoop]
      rw [hstep]

/-- Master specification of a whole `a_star` run on a positive grid whose
boundary walls are intact: the run neither hits undefined behaviour nor
exhausts its fuel; it returns the empty path with an emptied frontier, or a
duplicate-free shortest walk from the start to the goal. -/
theorem a_star_spec {cols rows : ℕ} {m : Maze cols rows} (hb : BoundaryInv m)
    (h0 : 0 < cols) (h0r : 0 < rows) :
    ∃ p s', a_star m = .found p s' ∧
      ((p = [] ∧ s'.open_set = [] ∧ AInv m s') ∨ PathSpec m p) := by
  unfold a_star
  refine astarLoop_spec hb h0 h0r _ _ (AInv_init m h0 h0r) ?_
  unfold measureA astarFuel initAState
  dsimp only
  rw [List.count_replicate]
  simp
  omega

theorem reachN_zero {cols rows : ℕ} {m : Maze cols rows} {a b : ℤ × ℤ}
    (h : ReachN m 0 a b) : a = b := by
  cases h
  rfl

theorem reach_pos {cols rows : ℕ} {m : Maze cols rows}
    (h : Reach m (0, 0) ((cols : ℤ) - 1, (rows : ℤ) - 1)) :
    0 < cols ∧ 0 < rows := by
  obtain ⟨n, hn⟩ := h
  cases n with
  | zero =>
    have heq := reachN_zero hn
    have h1 : (0 : ℤ) = (cols : ℤ) - 1 := congrArg Prod.fst heq
    have h2 : (0 : ℤ) = (rows : ℤ) - 1 := congrArg Prod.snd heq
    constructor <;> exact_mod_cast by omega
  | succ k =>
    cases hn with
    | step hadj _ =>
      obtain ⟨d, hw, _⟩ := hadj
      obtain ⟨_, h2, _, h4⟩ := is_walkable_inB hw
      constructor <;> exact_mod_cast by omega

/-- Completeness: on a boundary-intact grid of at most `INT_MAX` cells whose
goal is reachable, `a_star` returns a shortest path. -/
theorem a_star_complete {cols rows : ℕ} {m : Maze cols rows}
    (hb : BoundaryInv m) (hnI : ((cols * rows : ℕ) : ℤ) ≤ INT_MAX)
    (hreach : Reach m (0, 0) ((cols : ℤ) - 1, (rows : ℤ) - 1)) :
    ∃ p s', a_star m = .found p s' ∧ PathSpec m p := by
  obtain ⟨h0, h0r⟩ := reach_pos hreach
  obtain ⟨p, s', heq, hcase⟩ := a_star_spec hb h0 h0r
  rcases hcase with ⟨hp, hempty, hI⟩ | hps
  · exfalso
    obtain ⟨D, hD⟩ := exists_isDist hreach
    have hcard := dist_le_card hb h0 h0r hD
    have hDlt : (D : ℤ) < INT_MAX := by
      have h1 : (D : ℤ) + 1 ≤ ((cols * rows : ℕ) : ℤ) := by exact_mod_cast hcard
      omega
    obtain ⟨nd, hmem, _⟩ := cover hI hb h0 h0r D
      (((cols : ℤ) - 1, (rows : ℤ) - 1) : ℤ × ℤ) hD.1 hDlt hI.goal_open
    rw [hempty] at hmem
    exact List.not_mem_nil nd hmem
  · exact ⟨p, s', heq, hps⟩

/-- Defensive no-path behaviour: on a boundary-intact nonempty grid whose
goal is not reachable, `a_star` drains its frontier and returns `[]`. -/
theorem a_star_unreachable {cols rows : ℕ} {m : Maze cols rows}
    (hb : BoundaryInv m) (h0 : 0 < cols) (h0r : 0 < rows)
    (hnr : ¬Reach m (0, 0) ((cols : ℤ) - 1, (rows : ℤ) - 1)) :
    ∃ s', a_star m = .found [] s' ∧ s'.open_set = [] := by
  obtain ⟨p, s', heq, hcase⟩ := a_star_spec hb h0 h0r
  rcases hcase with ⟨hp, hempty, _⟩ | hps
  · rw [hp] at heq
    exact ⟨s', heq, hempty⟩
  · exfalso
    obtain ⟨D, hD, _⟩ := hps
    exact hnr ⟨D, hD.1⟩

/-- On a degenerate grid with no cells, the C++ initialisation
`g_cost[index(0, 0)] = 0` and the first frontier pop already touch their
vectors out of range. -/
theorem a_star_empty_grid {cols rows : ℕ} (m : Maze cols rows)
    (hn : cols * rows = 0) : a_star m = .oob := by
  have hfuel : astarFuel cols rows = 2 := by
    unfold astarFuel
    omega
  unfold a_star
  rw [hfuel]
  have hvis : (initAState m).visited = [] := by
    unfold initAState
    rw [hn]
    rfl
  have hpop : popMin (initAState m).open_set =
      some (⟨0, 0, 0, heuristic cols rows 0 0⟩, []) := rfl
  have hstep : astarStep (initAState m) = .oob := by
    unfold astarStep
    rw [hpop]
    dsimp only
    rw [hvis]
    have hv : vget ([] : List Bool) (index cols 0 0) = none := by
      unfold vget
      rw [index_zero, if_pos le_rfl]
      rfl
    rw [hv]
  conv_lhs => rw [astarLoop]
  rw [hstep]

/-! ### Concrete grids used to refute two claims -/

/-- A 2×1 grid where the wall between the two cells was removed on the left
cell only (the right cell's copy is intact): the wall-symmetry invariant
fails while the boundary walls are intact. -/
def asym21 : Maze 2 1 :=
  setCell (initMaze 2 1) 0 0 ((Cell.init 0 0).remove_wall EAST)

/-- A 2×2 grid corrupted on the outer boundary: the NORTH wall of the
corner cell `(0,0)` was removed, so `is_walkable 0 0 NORTH` is true and the
pathfinder computes the out-of-range index `-2`. -/
def corrupt22 : Maze 2 2 :=
  setCell (initMaze 2 2) 0 0 ((Cell.init 0 0).remove_wall NORTH)

/-- Walks stay inside any set of cells closed under the walkable adjacency. -/
theorem reachN_closed {cols rows : ℕ} {m : Maze cols rows} (P : ℤ × ℤ → Prop)
    (hcl : ∀ a b, P a → AdjW m a b → P b) :
    ∀ {n : ℕ} {a c : ℤ × ℤ}, ReachN m n a c → P a → P c := by
  intro n a c h
  induction h with
  | refl a => exact id
  | step hadj _ ih =>
    intro hP
    exact ih (hcl _ _ hP hadj)

/-! ### The ten claims -/

/-- Claim C1: on every carved grid — boundary walls intact — satisfying the
wall-symmetry invariant, with at most `INT_MAX` cells (the program's
`COLS * ROWS = 36864` satisfies this), in which the goal cell
`(COLS-1, ROWS-1)` is reachable from the start `(0,0)` under `is_walkable`
adjacency, `a_star` returns a path whose number of steps (`length - 1`)
equals the true shortest-path grid distance from start to goal. -/
theorem claim_C1 {cols rows : ℕ} (m : Maze cols rows)
    (hcarved : BoundaryInv m) (hsym : SymInv m)
    (hsize : ((cols * rows : ℕ) : ℤ) ≤ INT_MAX)
    (hreach : Reach m (0, 0) ((cols : ℤ) - 1, (rows : ℤ) - 1)) :
    ∃ (p : List (ℤ × ℤ)) (s' : AState cols rows) (D : ℕ),
      a_star m = .found p s' ∧
      IsDist m (0, 0) ((cols : ℤ) - 1, (rows : ℤ) - 1) D ∧
      p.length = D + 1 := by
  obtain ⟨p, s', heq, D, hD, hlen, _⟩ := a_star_complete hcarved hsize hreach
  exact ⟨p, s', D, heq, hD, hlen⟩

theorem claim_C1_witness :
    BoundaryInv (initMaze 1 1) ∧ SymInv (initMaze 1 1) ∧
    ((1 * 1 : ℕ) : ℤ) ≤ INT_MAX ∧
    Reach (initMaze 1 1) (0, 0) (((1 : ℕ) : ℤ) - 1, ((1 : ℕ) : ℤ) - 1) ∧
    ∃ (p : List (ℤ × ℤ)) (s' : AState 1 1) (D : ℕ),
      a_star (initMaze 1 1) = .found p s' ∧
      IsDist (initMaze 1 1) (0, 0)
        (((1 : ℕ) : ℤ) - 1, ((1 : ℕ) : ℤ) - 1) D ∧
      p.length = D + 1 :=
  ⟨by decide, by decide, by decide, ⟨0, ReachN.refl _⟩,
    claim_C1 (initMaze 1 1) (by decide) (by decide) (by decide)
      ⟨0, ReachN.refl _⟩⟩

/-- Claim C2: from a grid with every wall present and every cell unvisited,
`generate_maze` run at any in-bounds origin terminates and leaves a perfect
maze: the number of removed-wall pairs is `COLS * ROWS - 1` and the graph of
two-sided open passages on the grid's cells is connected and acyclic. -/
theorem claim_C2 {cols rows : ℕ} (R : ℕ → List (Fin 4))
    (HR : ∀ k, (R k).Perm dirList) {z : ℤ × ℤ} (hz : inBX cols rows z) :
    ∃ s', generate_maze R z.1 z.2 (initGState cols rows) = some s' ∧
      removedPairsCount s'.m = cols * rows - 1 ∧
      (passGraph s'.m).Connected ∧ (passGraph s'.m).IsAcyclic := by
  obtain ⟨s', hrun, hmid, hall, _, _, hpairs, _⟩ := generate_post R HR hz
  exact ⟨s', hrun, hpairs, passGraph_connected hmid hall,
    passGraph_acyclic hmid⟩

theorem claim_C2_witness :
    (∀ k, ((fun _ : ℕ => dirList) k).Perm dirList) ∧
    inBX 1 1 ((0, 0) : ℤ × ℤ) ∧
    ∃ s', generate_maze (fun _ : ℕ => dirList) 0 0 (initGState 1 1) =
        some s' ∧
      removedPairsCount s'.m = 1 * 1 - 1 ∧
      (passGraph s'.m).Connected ∧ (passGraph s'.m).IsAcyclic :=
  ⟨fun _ => List.Perm.refl _, by decide,
    claim_C2 (fun _ : ℕ => dirList) (fun _ => List.Perm.refl _)
      (z := ((0, 0) : ℤ × ℤ)) (by decide)⟩

/-- Claim C3: wall symmetry is an invariant of maze generation: starting
from the all-walls grid, after `generate_maze` completes, a wall of a cell
is removed exactly when the opposite-direction wall of its in-bounds
neighbour is removed. -/
theorem claim_C3 {cols rows : ℕ} (R : ℕ → List (Fin 4))
    (HR : ∀ k, (R k).Perm dirList) {z : ℤ × ℤ} (hz : inBX cols rows z) :
    ∃ s', generate_maze R z.1 z.2 (initGState cols rows) = some s' ∧
      SymInv s'.m := by
  obtain ⟨s', hrun, hmid, _, _, _, _, _⟩ := generate_post R HR hz
  exact ⟨s', hrun, hmid.sym⟩

theorem claim_C3_witness :
    (∀ k, ((fun _ : ℕ => dirList) k).Perm dirList) ∧
    inBX 1 1 ((0, 0) : ℤ × ℤ) ∧
    ∃ s', generate_maze (fun _ : ℕ => dirList) 0 0 (initGState 1 1) =
        some s' ∧ SymInv s'.m :=
  ⟨fun _ => List.Perm.refl _, by decide,
    claim_C3 (fun _ : ℕ => dirList) (fun _ => List.Perm.refl _)
      (z := ((0, 0) : ℤ × ℤ)) (by decide)⟩

/-- Claim C4 (amended): on a grid whose boundary walls are intact, whenever
`a_star` returns a non-empty path, that path starts at `(0,0)`, ends at the
goal `(COLS-1, ROWS-1)`, every consecutive pair is passable in the forward
direction under `is_walkable`, and no cell occurs twice. The original
claim's "passable in both directions" fails on grids that break the
wall-symmetry invariant (see the counterexample). -/
theorem claim_C4 {cols rows : ℕ} {m : Maze cols rows} (hb : BoundaryInv m)
    {p : List (ℤ × ℤ)} {s' : AState cols rows}
    (heq : a_star m = .found p s') (hne : p ≠ []) :
    p.head? = some ((0, 0) : ℤ × ℤ) ∧
    p.getLast? = some ((((cols : ℤ) - 1, (rows : ℤ) - 1)) : ℤ × ℤ) ∧
    List.Chain' (AdjW m) p ∧ p.Nodup := by
  by_cases hn : cols * rows = 0
  · rw [a_star_empty_grid m hn] at heq
    exact ARes.noConfusion heq
  · have h0 : 0 < cols := by
      rcases Nat.eq_zero_or_pos cols with h | h
      · rw [h] at hn
        simp at hn
      · exact h
    have h0r : 0 < rows := by
      rcases Nat.eq_zero_or_pos rows with h | h
      · rw [h] at hn
        simp at hn
      · exact h
    obtain ⟨p0, s0, heq0, hcase⟩ := a_star_spec hb h0 h0r
    rw [heq] at heq0
    have hp0 : p0 = p := by
      cases heq0
      rfl
    subst hp0
    rcases hcase with ⟨hp, _, _⟩ | hps
    · exact absurd hp hne
    · obtain ⟨D, _, _, hhead, hlast, hchain, hnodup⟩ := hps
      exact ⟨hhead, hlast, hchain, hnodup⟩

theorem claim_C4_witness :
    BoundaryInv (initMaze 1 1) ∧
    a_star (initMaze 1 1) =
      .found [((0 : ℤ), (0 : ℤ))] ⟨initMaze 1 1, [], [], [0], [true]⟩ ∧
    ([((0 : ℤ), (0 : ℤ))] : List (ℤ × ℤ)) ≠ [] ∧
    ([((0 : ℤ), (0 : ℤ))] : List (ℤ × ℤ)).head? = some ((0, 0) : ℤ × ℤ) ∧
    ([((0 : ℤ), (0 : ℤ))] : List (ℤ × ℤ)).getLast? =
      some ((((1 : ℕ) : ℤ) - 1, ((1 : ℕ) : ℤ) - 1) : ℤ × ℤ) ∧
    List.Chain' (AdjW (initMaze 1 1)) [((0 : ℤ), (0 : ℤ))] ∧
    ([((0 : ℤ), (0 : ℤ))] : List (ℤ × ℤ)).Nodup := by
  have heq : a_star (initMaze 1 1) =
      .found [((0 : ℤ), (0 : ℤ))] ⟨initMaze 1 1, [], [], [0], [true]⟩ := by
    rfl
  have h := claim_C4 (m := initMaze 1 1) (by decide) heq (by decide)
  exact ⟨by decide, heq, by decide, h.1, h.2.1, h.2.2.1, h.2.2.2⟩

/-- Counterexample to claim C4 as frozen: on `asym21` — one wall removed on
one side only — `a_star` returns the non-empty path `[(0,0), (1,0)]`, whose
single consecutive pair is not passable backwards: `is_walkable 1 0 WEST`
is false. -/
theorem claim_C4_counterexample :
    resPath (a_star asym21) = some [((0 : ℤ), (0 : ℤ)), ((1 : ℤ), (0 : ℤ))] ∧
    is_walkable asym21 0 0 EAST = true ∧
    is_walkable asym21 1 0 WEST = false := by
  refine ⟨by rfl, by rfl, by rfl⟩

/-- Claim C5 (amended): on every nonempty grid whose boundary walls are
intact — a corrupted boundary instead drives the C++ vector accesses out of
range, see the counterexample — if the goal is not reachable from the start
then `a_star` terminates with its frontier emptied and returns the empty
path, not an error. -/
theorem claim_C5 {cols rows : ℕ} {m : Maze cols rows} (hb : BoundaryInv m)
    (h0 : 0 < cols) (h0r : 0 < rows)
    (hnr : ¬Reach m (0, 0) ((cols : ℤ) - 1, (rows : ℤ) - 1)) :
    ∃ s', a_star m = .found [] s' ∧ s'.open_set = [] :=
  a_star_unreachable hb h0 h0r hnr

theorem claim_C5_witness :
    BoundaryInv (initMaze 2 1) ∧ 0 < 2 ∧ 0 < 1 ∧
    ¬Reach (initMaze 2 1) (0, 0)
      (((2 : ℕ) : ℤ) - 1, ((1 : ℕ) : ℤ) - 1) ∧
    ∃ s', a_star (initMaze 2 1) = .found [] s' ∧ s'.open_set = [] := by
  have hnr : ¬Reach (initMaze 2 1) (0, 0)
      (((2 : ℕ) : ℤ) - 1, ((1 : ℕ) : ℤ) - 1) := by
    rintro ⟨n, hn⟩
    have hP := reachN_closed (m := initMaze 2 1)
      (fun w => w = ((0, 0) : ℤ × ℤ)) ?_ hn rfl
    · exact absurd hP (by decide)
    · intro a b ha hadj
      rw [ha] at hadj
      obtain ⟨d, hw, hb⟩ := hadj
      fin_cases d <;> exact absurd hw (by decide)
  exact ⟨by decide, by decide, by decide, hnr,
    claim_C5 (by decide) (by decide) (by decide) hnr⟩

/-- Counterexample to claim C5 as frozen: the corrupted grid `corrupt22`
has an unreachable goal, yet `a_star` does not drain its frontier and
return the empty path — its very first neighbour expansion reads
`g_cost[-2]`, an out-of-range access (undefined behaviour, `.oob`). -/
theorem claim_C5_counterexample :
    ¬Reach corrupt22 (0, 0) (((2 : ℕ) : ℤ) - 1, ((2 : ℕ) : ℤ) - 1) ∧
    a_star corrupt22 = .oob ∧ resPath (a_star corrupt22) = none := by
  refine ⟨?_, by rfl, by rfl⟩
  rintro ⟨n, hn⟩
  have hP := reachN_closed (m := corrupt22)
    (fun w => w = ((0, 0) : ℤ × ℤ) ∨ w = ((0, -1) : ℤ × ℤ)) ?_ hn (Or.inl rfl)
  · rcases hP with h | h <;> exact absurd h (by decide)
  · intro a b ha hadj
    obtain ⟨d, hw, hbd⟩ := hadj
    rcases ha with h | h <;> rw [h] at hw hbd <;> subst hbd <;>
      fin_cases d <;>
      first
      | exact absurd hw (by decide)
      | exact Or.inr (by decide)

/-- Claim C6: `is_walkable(x, y, d)` returns false whenever `(x, y)` is out
of bounds, and for in-bounds `(x, y)` it returns true exactly when the wall
of that cell in direction `d` is removed; it is a total function (never an
error). -/
theorem claim_C6 {cols rows : ℕ} (m : Maze cols rows) (x y : ℤ) (d : Fin 4) :
    (¬inBZ cols rows x y → is_walkable m x y d = false) ∧
    (inBZ cols rows x y →
      (is_walkable m x y d = true ↔ wallAt m x y d = false)) := by
  constructor
  · intro h
    rw [is_walkable_eq]
    simp [h]
  · intro h
    rw [is_walkable_iff]
    simp [h]

theorem claim_C6_witness :
    (¬inBZ 1 1 (-1) 0 → is_walkable (initMaze 1 1) (-1) 0 NORTH = false) ∧
    (inBZ 1 1 (-1) 0 →
      (is_walkable (initMaze 1 1) (-1) 0 NORTH = true ↔
        wallAt (initMaze 1 1) (-1) 0 NORTH = false)) :=
  claim_C6 (initMaze 1 1) (-1) 0 NORTH

/-- Claim C7: the pathfinder's heuristic is the Manhattan distance to the
goal, `|(COLS-1) - x| + |(ROWS-1) - y|`, and it is admissible: it never
exceeds the true shortest-path distance to the goal. -/
theorem claim_C7 {cols rows : ℕ} (m : Maze cols rows) :
    (∀ x y : ℤ, heuristic cols rows x y =
      |((cols : ℤ) - 1) - x| + |((rows : ℤ) - 1) - y|) ∧
    (∀ (z : ℤ × ℤ) (D : ℕ),
      IsDist m z ((cols : ℤ) - 1, (rows : ℤ) - 1) D →
        heuristic cols rows z.1 z.2 ≤ (D : ℤ)) := by
  constructor
  · intro x y
    unfold heuristic
    simp [abs_sub_comm]
  · intro z D hD
    exact heuristic_le_reachN hD.1

theorem claim_C7_witness :
    (∀ x y : ℤ, heuristic 1 1 x y =
      |((1 : ℕ) : ℤ) - 1 - x| + |((1 : ℕ) : ℤ) - 1 - y|) ∧
    (∀ (z : ℤ × ℤ) (D : ℕ),
      IsDist (initMaze 1 1) z (((1 : ℕ) : ℤ) - 1, ((1 : ℕ) : ℤ) - 1) D →
        heuristic 1 1 z.1 z.2 ≤ (D : ℤ)) :=
  claim_C7 (initMaze 1 1)

/-- Claim C8: from a fully unvisited grid and any in-bounds origin,
`generate_maze` terminates; on termination every cell of the grid has been
marked visited, and the ghost visit log shows each cell was marked exactly
once: the log is duplicate-free, contains every in-bounds cell, and its
length is the total number of `visited = true` assignments. -/
theorem claim_C8 {cols rows : ℕ} (R : ℕ → List (Fin 4))
    (HR : ∀ k, (R k).Perm dirList) {z : ℤ × ℤ} (hz : inBX cols rows z) :
    ∃ s', generate_maze R z.1 z.2 (initGState cols rows) = some s' ∧
      (∀ w, inBX cols rows w → VisC s'.m w = true) ∧
      (∀ w, w ∈ s'.ord ↔ (inBX cols rows w ∧ VisC s'.m w = true)) ∧
      s'.ord.Nodup ∧ s'.marks = s'.ord.length ∧
      s'.marks = cols * rows := by
  obtain ⟨s', hrun, hmid, hall, _, hmarks, _, _⟩ := generate_post R HR hz
  exact ⟨s', hrun, hall, hmid.ord_iff, hmid.ord_nodup, hmid.marks_eq, hmarks⟩

theorem claim_C8_witness :
    (∀ k, ((fun _ : ℕ => dirList) k).Perm dirList) ∧
    inBX 1 1 ((0, 0) : ℤ × ℤ) ∧
    ∃ s', generate_maze (fun _ : ℕ => dirList) 0 0 (initGState 1 1) =
        some s' ∧
      (∀ w, inBX 1 1 w → VisC s'.m w = true) ∧
      (∀ w, w ∈ s'.ord ↔ (inBX 1 1 w ∧ VisC s'.m w = true)) ∧
      s'.ord.Nodup ∧ s'.marks = s'.ord.length ∧
      s'.marks = 1 * 1 :=
  ⟨fun _ => List.Perm.refl _, by decide,
    claim_C8 (fun _ : ℕ => dirList) (fun _ => List.Perm.refl _)
      (z := ((0, 0) : ℤ × ℤ)) (by decide)⟩

/-- Claim C9: `a_star` never modifies the grid it searches: whenever a run
ends with a defined final state, that state's grid is the input grid,
unchanged in every cell (walls, visited flag and coordinates alike); the
search's bookkeeping lives entirely outside the grid. -/
theorem claim_C9 {cols rows : ℕ} (m : Maze cols rows) :
    resMaze (a_star m) = none ∨ resMaze (a_star m) = some m :=
  a_star_frame m

/-- Claim C10: maze generation never removes a wall on the grid's outer
boundary; consequently on a generated maze every true `is_walkable` query
has an in-bounds neighbour, and `a_star` run on it never touches its
`g_cost` or `visited` vectors out of range (modelled: it never returns the
out-of-range outcome `.oob`). -/
theorem claim_C10 {cols rows : ℕ} (R : ℕ → List (Fin 4))
    (HR : ∀ k, (R k).Perm dirList) {z : ℤ × ℤ} (hz : inBX cols rows z) :
    ∃ s', generate_maze R z.1 z.2 (initGState cols rows) = some s' ∧
      BoundaryInv s'.m ∧
      (∀ (w : ℤ × ℤ) (d : Fin 4), is_walkable s'.m w.1 w.2 d = true →
        inBX cols rows (nbrOf w d)) ∧
      a_star s'.m ≠ .oob := by
  obtain ⟨s', hrun, hmid, _, _, _, _, _⟩ := generate_post R HR hz
  have h0 : 0 < cols := by
    obtain ⟨_, h2, _, _⟩ := hz
    exact_mod_cast by omega
  have h0r : 0 < rows := by
    obtain ⟨_, _, _, h4⟩ := hz
    exact_mod_cast by omega
  refine ⟨s', hrun, hmid.bnd,
    fun w d hw => walkable_nbr_inB hmid.bnd hw, ?_⟩
  obtain ⟨p, s2, heq, _⟩ := a_star_spec hmid.bnd h0 h0r
  rw [heq]
  exact fun h => ARes.noConfusion h

theorem claim_C10_witness :
    (∀ k, ((fun _ : ℕ => dirList) k).Perm dirList) ∧
    inBX 1 1 ((0, 0) : ℤ × ℤ) ∧
    ∃ s', generate_maze (fun _ : ℕ => dirList) 0 0 (initGState 1 1) =
        some s' ∧
      BoundaryInv s'.m ∧
      (∀ (w : ℤ × ℤ) (d : Fin 4), is_walkable s'.m w.1 w.2 d = true →
        inBX 1 1 (nbrOf w d)) ∧
      a_star s'.m ≠ .oob :=
  ⟨fun _ => List.Perm.refl _, by decide,
    claim_C10 (fun _ : ℕ => dirList) (fun _ => List.Perm.refl _)
      (z := ((0, 0) : ℤ × ℤ)) (by decide)⟩

end MazeCpp
